import Mathlib

/-!
# Verification of the co2 firmware kernel

Shallow embedding of the circular byte queue (`src/fifo.c`), the cooperative scheduler
(`src/sched.c`), the interrupt manager (`src/irq.c`), the software timers
(`src/swtimer.c`), the millisecond clock (`src/systick.c`) and the temperature conversion
of the DS18B20 driver (`src/ds18b20.c`, `src/common.c`).

Conventions of the embedding
* A C pointer that the code compares with `NULL` is an `Option`; `none` is `NULL`.
* `fifo_len_t` is `uint16_t`, `int` is 32 bits wide.  Fields of `fifo_t` hold values below
  `2^16`.  Where the C expression can leave the range of its type the wrap-around is written
  out with `% 2^32` or `% 2^16`; a negative `int` is represented by its two's complement.
* Bytes are natural numbers; the queue only copies them.
-/

namespace Fifo

/-! ## Error codes (`inc/errors.h`) -/

def EOK : Int := 0
def EUNKNOWN : Int := -1
def ENOTIMPLEMENTED : Int := -2
def EUNAVAILABLE : Int := -3
def EWRONGARG : Int := -4
def ENENARG : Int := -5
def ERANGE : Int := -6
def EFULL : Int := -7
def EEMPTY : Int := -8

/-! ## Data model (`inc/fifo.h`) -/

/-- The `struct fifo`.  `buf` is the memory the `buf` pointer refers to. -/
structure fifo_t where
  buf : List Nat
  buflen : Nat
  rdidx : Nat
  wridx : Nat
  last_error : Nat
  isfull : Bool
deriving DecidableEq, Repr

/-- The macro `FIFO_INIT(_buf, _buflen)`. -/
def FIFO_INIT (buf : List Nat) (buflen : Nat) : fifo_t :=
  { buf := buf, buflen := buflen, rdidx := 0, wridx := 0, last_error := 0, isfull := false }

/-- The C expression `fifo->buflen - 1`, an `int`: for `buflen = 0` it is `-1`, all ones. -/
def idxmask (f : fifo_t) : Nat := (f.buflen + 2 ^ 32 - 1) % 2 ^ 32

/-- The function `_fifo_numleft`: the free space the queue reports.
`(buflen - wridx) + rdidx` is computed in `int`, masked, and stored in a `fifo_len_t`. -/
def _fifo_numleft (f : fifo_t) : Nat :=
  let left := ((((f.buflen + 2 ^ 32 - f.wridx) + f.rdidx) % 2 ^ 32) &&& idxmask f) % 2 ^ 16
  if left = 0 then (if f.isfull then 0 else f.buflen) else left

/-- The function `fifo_init`.  Returns the error code and the object `fifo` points to. -/
def fifo_init (fifo : Option fifo_t) (buf : Option (List Nat)) (buflen : Nat) :
    Int × Option fifo_t :=
  match fifo, buf with
  | some old, some b =>
    if buflen = 0 then (EWRONGARG, some old) else (EOK, some (FIFO_INIT b buflen))
  | _, _ => (EWRONGARG, fifo)

/-- The copy loop of `fifo_put`: `buf[(wridx + i) & (buflen - 1)] = barr[i]` for `i < len`.
The counter `i` is a `fifo_len_t`; it cannot wrap because `len <= buflen < 2^16` here. -/
def fifo_put_copy (f : fifo_t) (barr : List Nat) (len : Nat) : List Nat :=
  (List.range len).foldl
    (fun b i => b.set ((f.wridx + i) &&& idxmask f) (barr.getD i 0)) f.buf

/-- The function `fifo_put`.  `len` is a `uint32_t`. -/
def fifo_put (fifo : Option fifo_t) (barr : Option (List Nat)) (len : Nat) :
    Int × Option fifo_t :=
  match fifo, barr with
  | some f, some b =>
    if len > f.buflen then (ERANGE, some f)
    else
      let left := _fifo_numleft f
      if left < len then (EFULL, some f)
      else
        let buf := fifo_put_copy f b len
        let newwr := (((f.wridx + len) % 2 ^ 32) &&& idxmask f) % 2 ^ 16
        let isfull := if newwr = f.rdidx then true else f.isfull
        (EOK, some { f with buf := buf, isfull := isfull, wridx := newwr })
  | _, _ => (EUNKNOWN, fifo)

/-- The function `fifo_get`.  The destination pointer `barr` carries no data on entry; the
third component of the result lists `barr[0]`, ..., `barr[len - 1]` as the copy loop stores
them.  `used` is a `fifo_len_t`. -/
def fifo_get (fifo : Option fifo_t) (barr : Option Unit) (len : Nat) :
    Int × Option fifo_t × List Nat :=
  match fifo, barr with
  | some f, some _ =>
    if len = 0 then (EEMPTY, some f, [])
    else
      let used := (f.buflen + 2 ^ 16 - _fifo_numleft f) % 2 ^ 16
      if used = 0 then (EEMPTY, some f, [])
      else
        let len := if len > used then used else len
        let out := (List.range len).map
          (fun i => f.buf.getD ((f.rdidx + i) &&& idxmask f) 0)
        let rdidx := (((f.rdidx + len) % 2 ^ 32) &&& idxmask f) % 2 ^ 16
        ((len : Int), some { f with rdidx := rdidx, isfull := false }, out)
  | _, _ => (EUNKNOWN, fifo, [])

/-! ## Specification-level notions for the queue -/

/-- Well-formed queue objects: the capacity is a power of two that fits a `fifo_len_t`, the
buffer has that many bytes and both cursors are below the capacity. -/
def wf (f : fifo_t) : Prop :=
  (∃ k, k ≤ 15 ∧ f.buflen = 2 ^ k) ∧ f.buf.length = f.buflen ∧
    f.rdidx < f.buflen ∧ f.wridx < f.buflen

/-- The number of bytes the queue reports as stored: the `used` of `fifo_get`. -/
def used (f : fifo_t) : Nat := (f.buflen + 2 ^ 16 - _fifo_numleft f) % 2 ^ 16

/-- The stored bytes, oldest first: the `used` bytes that follow the read cursor. -/
def contents (f : fifo_t) : List Nat :=
  (List.range (used f)).map (fun i => f.buf.getD ((f.rdidx + i) % f.buflen) 0)

/-- One call made by a client of the queue: `fifo_put(fifo, data, |data|)` or
`fifo_get(fifo, out, len)`. -/
inductive Op where
  | put (data : List Nat)
  | get (len : Nat)
deriving DecidableEq, Repr

/-- A queue together with its history: all bytes accepted by successful puts and all bytes
delivered by successful gets, each in call order. -/
structure Run where
  fifo : fifo_t
  accepted : List Nat
  delivered : List Nat
deriving DecidableEq, Repr

/-- Performs one call and records what it accepted or delivered. -/
def Run.step (t : Run) : Op → Run
  | Op.put data =>
    let r := fifo_put (some t.fifo) (some data) data.length
    { fifo := r.2.getD t.fifo
      accepted := if r.1 = EOK then t.accepted ++ data else t.accepted
      delivered := t.delivered }
  | Op.get len =>
    let r := fifo_get (some t.fifo) (some ()) len
    { fifo := r.2.1.getD t.fifo
      accepted := t.accepted
      delivered := if 0 < r.1 then t.delivered ++ r.2.2 else t.delivered }

/-- The queue set up by `fifo_init(fifo, b, |b|)` on the buffer `b`, whose bytes are
arbitrary. -/
def init (b : List Nat) : fifo_t :=
  ((fifo_init (some (FIFO_INIT [] 0)) (some b) b.length).2).getD (FIFO_INIT [] 0)

/-- Runs a sequence of calls on a queue, starting with an empty history. -/
def run (f : fifo_t) (ops : List Op) : Run :=
  ops.foldl Run.step { fifo := f, accepted := [], delivered := [] }

/-- The occupancy of a run: bytes accepted and not yet delivered. -/
def Run.occupancy (t : Run) : Nat := t.accepted.length - t.delivered.length

/-- The invariant that links a queue with its history: the bytes accepted are the bytes
delivered followed by the bytes still stored. -/
def Run.inv (t : Run) : Prop :=
  wf t.fifo ∧ t.accepted = t.delivered ++ contents t.fifo

/-- The value `left` that `_fifo_numleft` computes from the cursors before it looks at the
full flag: `((buflen - wridx) + rdidx) & (buflen - 1)`. -/
def cursor_formula (f : fifo_t) : Nat :=
  ((((f.buflen + 2 ^ 32 - f.wridx) + f.rdidx) % 2 ^ 32) &&& idxmask f) % 2 ^ 16

/-- The queue of capacity 4 after one put of the byte `9`. -/
def one_byte : fifo_t :=
  { buf := [9, 0, 0, 0], buflen := 4, rdidx := 0, wridx := 1, last_error := 0, isfull := false }

/-- A well-formed queue holding two bytes, used to instantiate the theorems. -/
def sample : fifo_t :=
  { buf := [5, 6, 7, 8], buflen := 4, rdidx := 1, wridx := 3, last_error := 0, isfull := false }

end Fifo

namespace Sched

/-! ## The cooperative scheduler (`src/sched.c`, `inc/sched.h`)

Function pointers and `void *` are addresses, natural numbers with `0` for `NULL`.  A name
is a `const char *`: `none` is `NULL`.  A result `none` of an operation stands for undefined
behaviour of the C code (a null pointer handed to `strcmp` or `strlen`, a call through a
null function pointer, a shift by a count outside `0..31`). -/

/-- The constant `TASK_NR`. -/
def TASK_NR : Nat := 10

/-- The `struct task`. -/
structure task where
  name : Option String
  func : Nat
  data : Nat
deriving DecidableEq, Repr

/-- The static variables of `sched.c`: `sched_ready` (a `uint32_t`), `task_list` (an array of
`TASK_NR` tasks) and `current` (an `int`; it only ever holds `0` or a slot index). -/
structure sched_t where
  sched_ready : Nat
  task_list : List task
  current : Nat
deriving DecidableEq, Repr

/-- A zeroed `struct task`, as left by static initialisation and by `memset`. -/
def zero_task : task := { name := none, func := 0, data := 0 }

/-- The state of the static variables at program start: all zero. -/
def boot : sched_t :=
  { sched_ready := 0, task_list := List.replicate TASK_NR zero_task, current := 0 }

/-- The array access `task_list[i]`. -/
def slot (s : sched_t) (i : Nat) : task := s.task_list.getD i zero_task

/-- The function `sched_set_blocked`: `sched_ready &= ~BIT(task_id)` on 32 bits. -/
def sched_set_blocked (s : sched_t) (task_id : Nat) : sched_t :=
  { s with sched_ready := s.sched_ready &&& ((2 ^ 32 - 1) ^^^ (1 <<< task_id)) }

/-- The function `sched_find_empty_slot`: the first `i < TASK_NR` with a null `func`,
or `-1`. -/
def sched_find_empty_slot (s : sched_t) : Int :=
  match (List.range TASK_NR).find? (fun i => (slot s i).func = 0) with
  | some i => (i : Int)
  | none => -1

/-- The test `strcmp(a, b) == 0`.  It is undefined when a pointer is null. -/
def strcmp_eq (a b : Option String) : Option Bool :=
  match a, b with
  | some x, some y => some (x == y)
  | _, _ => none

/-- The loop of `sched_slot_by_name` over the slot indices still to visit. -/
def sched_slot_by_name_loop (s : sched_t) (name : Option String) : List Nat → Option Int
  | [] => some (-1)
  | i :: rest =>
    match strcmp_eq name (slot s i).name with
    | none => none
    | some true => some (i : Int)
    | some false => sched_slot_by_name_loop s name rest

/-- The function `sched_slot_by_name`: it compares `name` with `task_list[i].name` for
`i = 0, 1, ...` until the first match. -/
def sched_slot_by_name (s : sched_t) (name : Option String) : Option Int :=
  sched_slot_by_name_loop s name (List.range TASK_NR)

/-- The loop of `sched_find_next`, started at `i` with `n` iterations left: the slot
`i % TASK_NR` is returned when its bit is set in `tasks_ready`. -/
def sched_find_next_loop (tasks_ready : Nat) : Nat → Nat → Int
  | 0, _ => -1
  | n + 1, i =>
    let idx := i % TASK_NR
    if tasks_ready &&& (1 <<< idx) ≠ 0 then (idx : Int)
    else sched_find_next_loop tasks_ready n (i + 1)

/-- The function `sched_find_next`: `i` runs from `current + 1` to `current + TASK_NR`. -/
def sched_find_next (s : sched_t) : Int :=
  sched_find_next_loop s.sched_ready TASK_NR (s.current + 1)

/-- The function `sched_run_next`.  `exec func data` is the effect that a call of the task
function at address `func` with argument `data` has on the scheduler variables.  The result
is the return value, the new state and the calls `(func, data)` that the pass made. -/
def sched_run_next (exec : Nat → Nat → sched_t → sched_t) (s : sched_t) :
    Option (Int × sched_t × List (Nat × Nat)) :=
  if s.sched_ready = 0 then some (-1, s, [])
  else
    let next := sched_find_next s
    if next = -1 then some (-1, s, [])
    else
      let s1 := { s with current := next.toNat }
      let s2 := sched_set_blocked s1 s1.current
      let t := slot s2 s2.current
      if t.func = 0 then none
      else
        let s3 := exec t.func t.data s2
        some ((s3.current : Int), s3, [(t.func, t.data)])

/-- The function `sched_add_task`.  `task_id` is the object the out-pointer refers to
(`none` for a null pointer); the third component of the result is that object afterwards. -/
def sched_add_task (s : sched_t) (name : Option String) (func data : Nat)
    (task_id : Option Int) : Option (Int × sched_t × Option Int) :=
  let slot := sched_find_empty_slot s
  if slot < 0 then some (slot, s, task_id)
  else
    match sched_slot_by_name s name with
    | none => none
    | some found =>
      if found ≥ 0 then some (-1, s, task_id)
      else
        match name with
        | none => none
        | some str =>
          if str.length = 0 then some (-2, s, task_id)
          else if func = 0 then some (-3, s, task_id)
          else
            some (0,
              { s with task_list :=
                  s.task_list.set slot.toNat { name := name, func := func, data := data } },
              task_id.map (fun _ => slot + 1))

/-- The function `sched_set_ready`: `sched_ready |= BIT(task_id - 1)` on 32 bits. -/
def sched_set_ready (s : sched_t) (task_id : Int) : Option sched_t :=
  if 1 ≤ task_id ∧ task_id ≤ 32 then
    some { s with sched_ready := (s.sched_ready ||| (1 <<< (task_id - 1).toNat)) % 2 ^ 32 }
  else none

/-- A task function that does not touch the scheduler variables. -/
def quiet_exec : Nat → Nat → sched_t → sched_t := fun _ _ st => st

/-- A scheduler with tasks `A`, `B`, `C` in slots 0, 1, 2, all three ready, `current = 0`. -/
def abc : sched_t :=
  { sched_ready := 7
    task_list :=
      [{ name := some "A", func := 11, data := 21 }, { name := some "B", func := 12, data := 22 },
        { name := some "C", func := 13, data := 23 }] ++ List.replicate 7 zero_task
    current := 0 }

/-- The scheduler `abc` with no task ready. -/
def abc_idle : sched_t := { abc with sched_ready := 0 }

/-- Calls `sched_set_ready(task_id)` the given number of times in a row. -/
def set_ready_times (s : sched_t) (task_id : Int) : Nat → Option sched_t
  | 0 => some s
  | n + 1 => (sched_set_ready s task_id).bind (fun s1 => set_ready_times s1 task_id n)

/-- The function `sched_del_task`.  The result `none` stands for a failed `cm3_assert`,
which halts the program. -/
def sched_del_task (s : sched_t) (task_id : Int) : Option (Int × sched_t) :=
  let idx := task_id - 1
  if idx ≥ 0 ∧ idx < (TASK_NR : Int) then
    if (slot s idx.toNat).func = 0 then some (-1, s)
    else
      let s1 := sched_set_blocked s idx.toNat
      some (0, { s1 with task_list := s1.task_list.set idx.toNat zero_task })
  else none

/-- The first `n` iterations of the loop of `sched_start`: the state afterwards, the values
returned by the passes and the calls they made, in order. -/
def sched_passes (exec : Nat → Nat → sched_t → sched_t) :
    Nat → sched_t → Option (sched_t × List Int × List (Nat × Nat))
  | 0, s => some (s, [], [])
  | n + 1, s =>
    match sched_run_next exec s with
    | none => none
    | some (r, s1, c) =>
      match sched_passes exec n s1 with
      | none => none
      | some (s2, rs, cs) => some (s2, r :: rs, c ++ cs)

/-- Every ready bit that belongs to a slot of the table belongs to a registered task. -/
def ready_ok (s : sched_t) : Prop :=
  ∀ i, i < TASK_NR → s.sched_ready.testBit i = true → (slot s i).func ≠ 0

/-! ### Call sequences of the scheduler interface

`sched_slot_by_name` hands the name pointer of every slot to `strcmp`, and the name of an
empty slot is null.  What a read through a null pointer does is not fixed by the C
language; it is a property of the machine, given by the parameter `null_str`: `none` when
such a read is not defined, which is the reading `strcmp_eq` and `sched_add_task` take,
and `some z` when address 0 is readable memory that holds the zero-terminated string
`z`. -/

/-- The string a library function reads through the pointer `p`. -/
def str_at (null_str : Option String) (p : Option String) : Option String :=
  match p with
  | some x => some x
  | none => null_str

/-- The test `strcmp(a, b) == 0` on a machine described by `null_str`. -/
def strcmp_eq_at (null_str : Option String) (a b : Option String) : Option Bool :=
  match str_at null_str a, str_at null_str b with
  | some x, some y => some (x == y)
  | _, _ => none

/-- The loop of `sched_slot_by_name` on a machine described by `null_str`. -/
def sched_slot_by_name_loop_at (null_str : Option String) (s : sched_t)
    (name : Option String) : List Nat → Option Int
  | [] => some (-1)
  | i :: rest =>
    match strcmp_eq_at null_str name (slot s i).name with
    | none => none
    | some true => some (i : Int)
    | some false => sched_slot_by_name_loop_at null_str s name rest

/-- The function `sched_slot_by_name` on a machine described by `null_str`. -/
def sched_slot_by_name_at (null_str : Option String) (s : sched_t) (name : Option String) :
    Option Int :=
  sched_slot_by_name_loop_at null_str s name (List.range TASK_NR)

/-- The function `sched_add_task` on a machine described by `null_str`; the slot stores the
pointer `name` itself. -/
def sched_add_task_at (null_str : Option String) (s : sched_t) (name : Option String)
    (func data : Nat) (task_id : Option Int) : Option (Int × sched_t × Option Int) :=
  let slot := sched_find_empty_slot s
  if slot < 0 then some (slot, s, task_id)
  else
    match sched_slot_by_name_at null_str s name with
    | none => none
    | some found =>
      if found ≥ 0 then some (-1, s, task_id)
      else
        match str_at null_str name with
        | none => none
        | some str =>
          if str.length = 0 then some (-2, s, task_id)
          else if func = 0 then some (-3, s, task_id)
          else
            some (0,
              { s with task_list :=
                  s.task_list.set slot.toNat { name := name, func := func, data := data } },
              task_id.map (fun _ => slot + 1))

end Sched

namespace Irq

/-! ## The interrupt manager (`src/irq.c`, `inc/irq.h`)

An `irq_action` lives in storage supplied by the caller.  The memory holding all action
objects of the program is a list and the address of an action is its index in that list, so
a `struct irq_action *` is an `Option Nat` with `none` for `NULL`.  Handler and context
pointers are natural numbers with `0` for `NULL`.  The constant `NVIC_IRQ_COUNT` comes from
a library header and is a parameter.  A result `none` stands for a failed `cm3_assert`, an
access through an invalid pointer or index, a call through a null handler, or a loop that
does not end within as many steps as there are action objects (it then runs in a cycle). -/

/-- The value `IRQ_NONE` of `enum irqreturn`. -/
def IRQ_NONE : Nat := 0

/-- The value `IRQ_HANDLED` of `enum irqreturn`. -/
def IRQ_HANDLED : Nat := 1

/-- The `struct irq_action`. -/
structure irq_action where
  handler : Nat
  irq : Nat
  name : Option String
  data : Nat
  next : Option Nat
deriving DecidableEq, Repr

/-- The two functions a `handle_irq` pointer can refer to. -/
inductive irq_flow_handler_t where
  | irq_handle_bad
  | irq_handle
deriving DecidableEq, Repr

/-- The `struct irq_desc`. -/
structure irq_desc where
  handle_irq : irq_flow_handler_t
  action : Option Nat
deriving DecidableEq, Repr

/-- The state the manager works on: the array `irq_desc[NVIC_IRQ_COUNT]` and the memory
holding the action objects. -/
structure irq_t where
  irq_desc : List irq_desc
  mem : List irq_action
deriving DecidableEq, Repr

/-- A line of diagnostic output written with `printf`. -/
inductive diag where
  | unexpected_trap (irq : Nat)
  | nobody_cared (irq : Nat)
deriving DecidableEq, Repr

/-- The assignment `a->next = n` for the action at address `a`. -/
def set_next (mem : List irq_action) (a : Nat) (n : Option Nat) : List irq_action :=
  match mem[a]? with
  | some x => mem.set a { x with next := n }
  | none => mem

/-- The loop `while (a->next) a = a->next;` of `irq_request`, with the number of steps
left: the address of the last action of the list that starts at `a`. -/
def last_action (mem : List irq_action) : Nat → Nat → Option Nat
  | 0, _ => none
  | fuel + 1, a =>
    match mem[a]? with
    | none => none
    | some x =>
      match x.next with
      | none => some a
      | some n => last_action mem fuel n

/-- The function `irq_request`. -/
def irq_request (NVIC_IRQ_COUNT : Nat) (s : irq_t) (action : Option Nat) :
    Option (Int × irq_t) :=
  match action with
  | none => none
  | some p =>
    match s.mem[p]? with
    | none => none
    | some a =>
      if a.handler = 0 then some (-1, s)
      else if a.irq ≥ NVIC_IRQ_COUNT then some (-2, s)
      else if a.name = none then some (-3, s)
      else
        let mem1 := s.mem.set p { a with next := none }
        match s.irq_desc[a.irq]? with
        | none => none
        | some desc =>
          match desc.action with
          | some head =>
            match last_action mem1 mem1.length head with
            | none => none
            | some l =>
              some (0,
                { irq_desc := s.irq_desc.set a.irq
                    { handle_irq := irq_flow_handler_t.irq_handle, action := desc.action }
                  mem := set_next mem1 l (some p) })
          | none =>
            some (0,
              { irq_desc := s.irq_desc.set a.irq
                  { handle_irq := irq_flow_handler_t.irq_handle, action := some p }
                mem := mem1 })

/-- The loop `for_each_action_of_desc(desc, a)` of `irq_free`, with the number of steps
left, looking for the action whose `next` is `p`. -/
def irq_free_loop (p : Nat) : Nat → Option Nat → List irq_action →
    Option (Int × List irq_action)
  | _, none, mem => some (-1, mem)
  | 0, some _, _ => none
  | fuel + 1, some a, mem =>
    match mem[a]? with
    | none => none
    | some x =>
      if x.next = some p then
        match mem[p]? with
        | none => none
        | some ap => some (0, set_next (mem.set a { x with next := ap.next }) p none)
      else irq_free_loop p fuel x.next mem

/-- The function `irq_free`.  When the action heads the list the code clears
`desc->action` and then falls through to `return -1`. -/
def irq_free (s : irq_t) (action : Option Nat) : Option (Int × irq_t) :=
  match action with
  | none => none
  | some p =>
    match s.mem[p]? with
    | none => none
    | some a =>
      match s.irq_desc[a.irq]? with
      | none => none
      | some desc =>
        if desc.action = some p then
          some (-1, { s with irq_desc := s.irq_desc.set a.irq { desc with action := none } })
        else
          match irq_free_loop p s.mem.length desc.action s.mem with
          | none => none
          | some (r, mem) => some (r, { s with mem := mem })

/-- The loop of `irq_handle`, with the number of steps left.  `hexec handler irq data` is
the value a call of the handler returns and its effect on the manager state; `act->next` is
read after the call.  The calls `(handler, irq, data)` are recorded in order. -/
def irq_handle_loop (hexec : Nat → Nat → Nat → irq_t → Nat × irq_t) (irq : Nat) :
    Nat → Option Nat → irq_t → Nat → List (Nat × Nat × Nat) →
      Option (irq_t × Nat × List (Nat × Nat × Nat))
  | _, none, s, retval, calls => some (s, retval, calls)
  | 0, some _, _, _, _ => none
  | fuel + 1, some a, s, retval, calls =>
    match s.mem[a]? with
    | none => none
    | some x =>
      if x.handler = 0 then none
      else
        match (hexec x.handler irq x.data s).2.mem[a]? with
        | none => none
        | some x1 =>
          irq_handle_loop hexec irq fuel x1.next (hexec x.handler irq x.data s).2
            (retval ||| (hexec x.handler irq x.data s).1)
            (calls ++ [(x.handler, irq, x.data)])

/-- The function `irq_handle`: the state afterwards, the calls made and the diagnostics. -/
def irq_handle (hexec : Nat → Nat → Nat → irq_t → Nat × irq_t) (irq : Nat) (s : irq_t)
    (desc : irq_desc) : Option (irq_t × List (Nat × Nat × Nat) × List diag) :=
  match irq_handle_loop hexec irq s.mem.length desc.action s IRQ_NONE [] with
  | none => none
  | some (s1, retval, calls) =>
    some (s1, calls, if retval = IRQ_NONE then [diag.nobody_cared irq] else [])

/-- The function `__irq_entry` once the vector number `irq` is decoded: it runs the
high-level handler of the line. -/
def __irq_entry (hexec : Nat → Nat → Nat → irq_t → Nat × irq_t) (s : irq_t) (irq : Nat) :
    Option (irq_t × List (Nat × Nat × Nat) × List diag) :=
  match s.irq_desc[irq]? with
  | none => none
  | some desc =>
    match desc.handle_irq with
    | irq_flow_handler_t.irq_handle_bad => some (s, [], [diag.unexpected_trap irq])
    | irq_flow_handler_t.irq_handle => irq_handle hexec irq s desc

/-! ### Specification-level notions for the interrupt manager -/

/-- The list of addresses reached from `head` through `next`, with the number of steps
left. -/
def chain_from (mem : List irq_action) : Nat → Option Nat → Option (List Nat)
  | _, none => some []
  | 0, some _ => none
  | fuel + 1, some a =>
    match mem[a]? with
    | none => none
    | some x => (chain_from mem fuel x.next).map (fun l => a :: l)

/-- The action chain of a line: the addresses of its actions in list order. -/
def chain (s : irq_t) (irq : Nat) : Option (List Nat) :=
  match s.irq_desc[irq]? with
  | none => none
  | some desc => chain_from s.mem s.mem.length desc.action

/-- The list `l` is the list of actions that starts at `head` and ends with a null
`next`. -/
def is_chain (mem : List irq_action) : Option Nat → List Nat → Prop
  | head, [] => head = none
  | head, a :: l => head = some a ∧ ∃ x, mem[a]? = some x ∧ is_chain mem x.next l

/-- Calls `irq_request` for the actions at the given addresses, in order. -/
def irq_request_all (NVIC_IRQ_COUNT : Nat) (s : irq_t) : List Nat → Option (List Int × irq_t)
  | [] => some ([], s)
  | p :: ps =>
    match irq_request NVIC_IRQ_COUNT s (some p) with
    | none => none
    | some (r, s1) =>
      match irq_request_all NVIC_IRQ_COUNT s1 ps with
      | none => none
      | some (rs, s2) => some (r :: rs, s2)

/-- The action object at address `p`. -/
def action_at (s : irq_t) (p : Nat) : irq_action :=
  s.mem.getD p { handler := 0, irq := 0, name := none, data := 0, next := none }

/-- The fields of an action that the caller sets: everything but the link `next`. -/
def user_fields (a : irq_action) : Nat × Nat × Option String × Nat :=
  (a.handler, a.irq, a.name, a.data)

/-- A handler that reports `IRQ_HANDLED` and leaves the manager state alone. -/
def quiet_handler : Nat → Nat → Nat → irq_t → Nat × irq_t := fun _ _ _ st => (IRQ_HANDLED, st)

/-- Two lines, both unclaimed, and three action objects for line 0 that are not yet
registered. -/
def two_lines : irq_t :=
  { irq_desc := List.replicate 2 { handle_irq := irq_flow_handler_t.irq_handle_bad, action := none }
    mem :=
      [{ handler := 101, irq := 0, name := some "uart", data := 201, next := none },
        { handler := 102, irq := 0, name := some "tim", data := 202, next := none },
        { handler := 103, irq := 0, name := some "rtc", data := 203, next := none }] }

/-- The state `two_lines` after `irq_request` for the actions 0 and 1, in this order. -/
def two_registered : irq_t :=
  ((irq_request_all 2 two_lines [0, 1]).map (fun r => r.2)).getD two_lines

/-- An action with a null handler. -/
def no_handler : irq_action := { handler := 0, irq := 0, name := none, data := 0, next := none }

/-- An action whose line number is out of range for two lines. -/
def bad_line : irq_action := { handler := 7, irq := 5, name := none, data := 0, next := none }

/-- An action with a null name. -/
def no_name : irq_action := { handler := 7, irq := 1, name := none, data := 0, next := none }

/-- Two unclaimed lines and a single action object, used to instantiate the theorems. -/
def one_action (a : irq_action) : irq_t := { two_lines with mem := [a] }

/-- One call of the interrupt manager interface. -/
inductive irq_op where
  | request (action : Option Nat)
  | free (action : Option Nat)
deriving DecidableEq, Repr

/-- Performs one call; `none` when the code halts or its behaviour is undefined. -/
def irq_step (NVIC_IRQ_COUNT : Nat) (s : irq_t) : irq_op → Option irq_t
  | irq_op.request action => (irq_request NVIC_IRQ_COUNT s action).map (fun r => r.2)
  | irq_op.free action => (irq_free s action).map (fun r => r.2)

/-- The action at address `p` is on the chain of some line. -/
def registered (s : irq_t) (p : Nat) : Bool :=
  (List.range s.irq_desc.length).any (fun line =>
    match chain s line with
    | some l => l.contains p
    | none => false)

/-- The use of the interface that keeps the chains well formed: `irq_request` is called
with an action that is on no chain. -/
def irq_op_ok (s : irq_t) : irq_op → Bool
  | irq_op.request (some p) => !registered s p
  | _ => true

/-- Performs a sequence of calls. -/
def irq_run (NVIC_IRQ_COUNT : Nat) : irq_t → List irq_op → Option irq_t
  | s, [] => some s
  | s, op :: ops =>
    match irq_step NVIC_IRQ_COUNT s op with
    | none => none
    | some s1 => irq_run NVIC_IRQ_COUNT s1 ops

/-- Every call of the sequence satisfies `irq_op_ok` in the state it is made in. -/
def irq_ops_ok (NVIC_IRQ_COUNT : Nat) : irq_t → List irq_op → Bool
  | _, [] => true
  | s, op :: ops =>
    irq_op_ok s op &&
      match irq_step NVIC_IRQ_COUNT s op with
      | none => true
      | some s1 => irq_ops_ok NVIC_IRQ_COUNT s1 ops

/-- The chains are well formed: the actions of every line form a list that ends with a
null `next` and holds no action twice, each of them carries the number of the line and a
handler, and a line whose flow handler is `irq_handle_bad` has no action. -/
def irq_inv (s : irq_t) : Prop :=
  ∀ (line : Nat) (d : irq_desc), s.irq_desc[line]? = some d →
    (d.handle_irq = irq_flow_handler_t.irq_handle_bad → d.action = none) ∧
    ∃ l, is_chain s.mem d.action l ∧ l.Nodup ∧
      ∀ q ∈ l, ∃ a, s.mem[q]? = some a ∧ a.irq = line ∧ a.handler ≠ 0

/-- The state `two_lines` after `irq_request` for the action 0, twice. -/
def twice_requested : irq_t :=
  ((irq_request_all 2 two_lines [0, 0]).map (fun r => r.2)).getD two_lines

end Irq

namespace Swtimer

/-! ## The software timers (`src/swtimer.c`, `inc/swtimer.h`)

Callback and context pointers are natural numbers with `0` for `NULL`.  Periods and
countdowns are C `int`s, modelled by integers; the code never moves them out of the `int`
range as long as periods and tick counts are in range.  The fields `hw_tim` and `action` of
`struct swtimer` only matter to the hardware set-up and are left out.  A result `none`
stands for a failed `cm3_assert` or a call through a null callback. -/

/-- The constant `SWTIMER_TIMERS_MAX`. -/
def SWTIMER_TIMERS_MAX : Nat := 10

/-- The constant `SWTIMER_HW_OVERFLOW`: the granularity of the hardware timer in msec. -/
def SWTIMER_HW_OVERFLOW : Int := 5

/-- The `struct swtimer_sw_tim`. -/
structure swtimer_sw_tim where
  cb : Nat
  data : Nat
  period : Int
  remaining : Int
  active : Bool
deriving DecidableEq, Repr

/-- The `struct swtimer`, the type of the driver object. -/
structure swtimer where
  timer_list : List swtimer_sw_tim
  ticks : Int
  task_id : Int
deriving DecidableEq, Repr

/-- A zeroed `struct swtimer_sw_tim`. -/
def zero_tim : swtimer_sw_tim :=
  { cb := 0, data := 0, period := 0, remaining := 0, active := false }

/-- The array access `obj->timer_list[i]`. -/
def tim (obj : swtimer) (i : Nat) : swtimer_sw_tim := obj.timer_list.getD i zero_tim

/-- An assignment to `obj->timer_list[i]`. -/
def set_tim (obj : swtimer) (i : Nat) (t : swtimer_sw_tim) : swtimer :=
  { obj with timer_list := obj.timer_list.set i t }

/-- The function `swtimer_isr`.  `uif` is what `timer_get_flag(base, TIM_SR_UIF)` reads; the
scheduler variables are passed along because the handler calls `sched_set_ready`. -/
def swtimer_isr (uif : Bool) (obj : swtimer) (sch : Sched.sched_t) :
    Option (Nat × swtimer × Sched.sched_t) :=
  if !uif then some (Irq.IRQ_NONE, obj, sch)
  else
    match Sched.sched_set_ready sch obj.task_id with
    | none => none
    | some sch1 => some (Irq.IRQ_HANDLED, { obj with ticks := SWTIMER_HW_OVERFLOW }, sch1)

/-- The body of the loop of `swtimer_task` for the slot `i`.  `exec cb data` is the effect
of a call of the callback at address `cb` on the driver object; the second component lists
the calls `(slot, cb, data)` made. -/
def swtimer_task_body (exec : Nat → Nat → swtimer → swtimer) (i : Nat) (obj : swtimer) :
    Option (swtimer × List (Nat × Nat × Nat)) :=
  if !(tim obj i).active then some (obj, [])
  else if (tim obj i).remaining ≤ 0 then
    if (tim obj i).cb = 0 then none
    else
      let obj1 := exec (tim obj i).cb (tim obj i).data obj
      let obj2 := set_tim obj1 i { tim obj1 i with remaining := (tim obj1 i).period }
      let obj3 := set_tim obj2 i { tim obj2 i with remaining := (tim obj2 i).remaining - obj2.ticks }
      some (obj3, [(i, (tim obj i).cb, (tim obj i).data)])
  else
    some (set_tim obj i { tim obj i with remaining := (tim obj i).remaining - obj.ticks }, [])

/-- The loop of `swtimer_task` over the slot indices still to visit. -/
def swtimer_task_loop (exec : Nat → Nat → swtimer → swtimer) :
    List Nat → swtimer → Option (swtimer × List (Nat × Nat × Nat))
  | [], obj => some (obj, [])
  | i :: rest, obj =>
    match swtimer_task_body exec i obj with
    | none => none
    | some (obj1, c) =>
      match swtimer_task_loop exec rest obj1 with
      | none => none
      | some (obj2, cs) => some (obj2, c ++ cs)

/-- The function `swtimer_task`: one pass of the multiplexer task. -/
def swtimer_task (exec : Nat → Nat → swtimer → swtimer) (obj : swtimer) :
    Option (swtimer × List (Nat × Nat × Nat)) :=
  match swtimer_task_loop exec (List.range SWTIMER_TIMERS_MAX) obj with
  | none => none
  | some (obj1, calls) => some ({ obj1 with ticks := 0 }, calls)

/-- The function `swtimer_find_empty_slot`. -/
def swtimer_find_empty_slot (obj : swtimer) : Int :=
  match (List.range SWTIMER_TIMERS_MAX).find? (fun i => (tim obj i).cb = 0) with
  | some i => (i : Int)
  | none => -1

/-- The function `swtimer_tim_register`. -/
def swtimer_tim_register (obj : swtimer) (cb data : Nat) (period : Int) :
    Option (Int × swtimer) :=
  if cb = 0 then none
  else if ¬ period ≥ SWTIMER_HW_OVERFLOW then none
  else
    let slot := swtimer_find_empty_slot obj
    if slot < 0 then some (-1, obj)
    else
      some (slot + 1,
        set_tim obj slot.toNat
          { cb := cb, data := data, period := period, remaining := period, active := true })

/-- The function `swtimer_tim_start`. -/
def swtimer_tim_start (obj : swtimer) (id : Int) : Option swtimer :=
  let slot := id - 1
  if slot ≥ 0 ∧ slot < (SWTIMER_TIMERS_MAX : Int) then
    some (set_tim obj slot.toNat { tim obj slot.toNat with active := true })
  else none

/-- The function `swtimer_tim_stop`. -/
def swtimer_tim_stop (obj : swtimer) (id : Int) : Option swtimer :=
  let slot := id - 1
  if slot ≥ 0 ∧ slot < (SWTIMER_TIMERS_MAX : Int) then
    some (set_tim obj slot.toNat { tim obj slot.toNat with active := false })
  else none

/-! ### Specification-level notions for the software timers -/

/-- Successive passes of the multiplexer task; the pass number `k` finds the `k`-th element
of the list in the tick counter.  The result lists the calls of all passes in order. -/
def swtimer_passes (exec : Nat → Nat → swtimer → swtimer) :
    List Int → swtimer → Option (swtimer × List (Nat × Nat × Nat))
  | [], obj => some (obj, [])
  | t :: ts, obj =>
    match swtimer_task exec { obj with ticks := t } with
    | none => none
    | some (obj1, c) =>
      match swtimer_passes exec ts obj1 with
      | none => none
      | some (obj2, cs) => some (obj2, c ++ cs)

/-- The calls that come from the slot `i`. -/
def calls_of (i : Nat) (calls : List (Nat × Nat × Nat)) : List (Nat × Nat × Nat) :=
  calls.filter (fun c => c.1 = i)

/-- Every active slot holds a callback. -/
def callbacks_ok (obj : swtimer) : Prop :=
  ∀ i, (tim obj i).active = true → (tim obj i).cb ≠ 0

/-- The callbacks leave the tick counter, the size of the table and the slot `i` alone and
never leave an active slot without a callback. -/
def respects (exec : Nat → Nat → swtimer → swtimer) (i : Nat) : Prop :=
  ∀ f d obj, (exec f d obj).ticks = obj.ticks ∧
    (exec f d obj).timer_list.length = obj.timer_list.length ∧
    tim (exec f d obj) i = tim obj i ∧
    (callbacks_ok obj → callbacks_ok (exec f d obj))

/-- What one pass that finds `ticks` in the tick counter does to a slot. -/
def tim_after_pass (t : swtimer_sw_tim) (ticks : Int) : swtimer_sw_tim :=
  if !t.active then t
  else if t.remaining ≤ 0 then { t with remaining := t.period - ticks }
  else { t with remaining := t.remaining - ticks }

/-- The calls one pass makes for the slot `i` holding `t`. -/
def tim_calls (t : swtimer_sw_tim) (i : Nat) : List (Nat × Nat × Nat) :=
  if t.active = true ∧ t.remaining ≤ 0 then [(i, t.cb, t.data)] else []

/-- A callback that does not touch the driver object. -/
def quiet_cb : Nat → Nat → swtimer → swtimer := fun _ _ obj => obj

/-- The driver object at program start: all zero. -/
def boot : swtimer :=
  { timer_list := List.replicate SWTIMER_TIMERS_MAX zero_tim, ticks := 0, task_id := 0 }

/-- A driver object with one running timer of period 100 in slot 0, whose task has the
scheduler handle 1. -/
def one_timer : swtimer :=
  { timer_list :=
      [{ cb := 1, data := 2, period := 100, remaining := 100, active := true }] ++
        List.replicate 9 zero_tim
    ticks := 0
    task_id := 1 }

/-- The function `swtimer_tim_del`. -/
def swtimer_tim_del (obj : swtimer) (id : Int) : Option swtimer :=
  let slot := id - 1
  if slot ≥ 0 ∧ slot < (SWTIMER_TIMERS_MAX : Int) then some (set_tim obj slot.toNat zero_tim)
  else none

/-- The function `swtimer_tim_reset`. -/
def swtimer_tim_reset (obj : swtimer) (id : Int) : Option swtimer :=
  let slot := id - 1
  if slot ≥ 0 ∧ slot < (SWTIMER_TIMERS_MAX : Int) then
    some (set_tim obj slot.toNat
      { tim obj slot.toNat with remaining := (tim obj slot.toNat).period })
  else none

/-- The function `swtimer_tim_set_period`. -/
def swtimer_tim_set_period (obj : swtimer) (id : Int) (period : Int) : Option swtimer :=
  let slot := id - 1
  if slot ≥ 0 ∧ slot < (SWTIMER_TIMERS_MAX : Int) then
    some (set_tim obj slot.toNat { tim obj slot.toNat with period := period })
  else none

/-- The function `swtimer_tim_get_remaining`. -/
def swtimer_tim_get_remaining (obj : swtimer) (id : Int) : Option Int :=
  let slot := id - 1
  if slot ≥ 0 ∧ slot < (SWTIMER_TIMERS_MAX : Int) then some (tim obj slot.toNat).remaining
  else none

/-- One call of the timer interface. -/
inductive tim_op where
  | register (cb data : Nat) (period : Int)
  | del (id : Int)
  | start (id : Int)
  | stop (id : Int)
  | reset (id : Int)
  | set_period (id : Int) (period : Int)
deriving DecidableEq, Repr

/-- Performs one call; `none` when an assertion of the call fails. -/
def tim_step (obj : swtimer) : tim_op → Option swtimer
  | tim_op.register cb data period => (swtimer_tim_register obj cb data period).map (fun r => r.2)
  | tim_op.del id => swtimer_tim_del obj id
  | tim_op.start id => swtimer_tim_start obj id
  | tim_op.stop id => swtimer_tim_stop obj id
  | tim_op.reset id => swtimer_tim_reset obj id
  | tim_op.set_period id period => swtimer_tim_set_period obj id period

/-- The use of the interface that keeps callbacks in active slots: `swtimer_tim_start` is
called with the handle of a slot that holds a callback. -/
def tim_op_ok (obj : swtimer) : tim_op → Bool
  | tim_op.start id => decide ((tim obj (id - 1).toNat).cb ≠ 0)
  | _ => true

/-- Performs a sequence of calls. -/
def tim_run : swtimer → List tim_op → Option swtimer
  | obj, [] => some obj
  | obj, op :: ops =>
    match tim_step obj op with
    | none => none
    | some obj1 => tim_run obj1 ops

/-- Every call of the sequence satisfies `tim_op_ok` in the state it is made in. -/
def tim_ops_ok : swtimer → List tim_op → Bool
  | _, [] => true
  | obj, op :: ops =>
    tim_op_ok obj op &&
      match tim_step obj op with
      | none => true
      | some obj1 => tim_ops_ok obj1 ops

/-- The driver object `one_timer` with its timer stopped at the countdown 40. -/
def paused_timer : swtimer :=
  set_tim one_timer 0 { cb := 1, data := 2, period := 100, remaining := 40, active := false }

/-- The initial driver object after `swtimer_tim_start(1)`: the empty slot 0 is active. -/
def started_empty : swtimer := set_tim boot 0 { zero_tim with active := true }

/-- The number of passes that deliver a period: `period / SWTIMER_HW_OVERFLOW`, rounded
up. -/
def period_passes (period : Int) : Nat :=
  ((period + SWTIMER_HW_OVERFLOW - 1) / SWTIMER_HW_OVERFLOW).toNat

end Swtimer

namespace Systick

/-! ## The millisecond clock (`src/systick.c`) -/

/-- The constant `UINT32_MAX`. -/
def UINT32_MAX : Nat := 2 ^ 32 - 1

/-- The function `systick_calc_diff_ms` on `uint32_t` values: additions and subtractions
wrap around modulo `2^32`. -/
def systick_calc_diff_ms (t1 t2 : Nat) : Nat :=
  let t2 := if t1 > t2 then (t2 + UINT32_MAX) % 2 ^ 32 else t2
  (t2 + 2 ^ 32 - t1) % 2 ^ 32

/-- The time elapsed between two readings of the 32-bit millisecond counter. -/
def elapsed_ms (t1 t2 : Nat) : Nat := (t2 + 2 ^ 32 - t1) % 2 ^ 32

end Systick

namespace Ds18b20

/-! ## The temperature sensor driver (`src/ds18b20.c`, `src/common.c`)

Bytes and characters are natural numbers (character codes).  An `int` is 32 bits wide; a
negative `int` is represented by its two's complement. -/

/-- The `struct ds18b20_temp`: `integer` is a 12-bit field, `frac` a `uint16_t`, `sign` a
character. -/
structure ds18b20_temp where
  integer : Nat
  frac : Nat
  sign : Nat
deriving DecidableEq, Repr

/-- The character `'+'`. -/
def PLUS : Nat := 43

/-- The character `'-'`. -/
def MINUS : Nat := 45

/-- The character `'.'`. -/
def DOT : Nat := 46

/-- The character `'0'`. -/
def ZERO : Nat := 48

/-- The function `ds18b20_parse_temp` for bytes `lsb`, `msb`.  The expression
`~(((lsb & 0xf) - 1) | 0xf0)` is evaluated in `int` and cast to `uint8_t`; the complement
`~tv.integer` and the increment are stored in the 12-bit field. -/
def ds18b20_parse_temp (lsb msb : Nat) : ds18b20_temp :=
  let integer := ((msb <<< 4) ||| (lsb >>> 4)) % 2 ^ 12
  if msb &&& (1 <<< 7) ≠ 0 then
    let frac := (625 * ((2 ^ 32 - 1 - ((((lsb &&& 0xf) + 2 ^ 32 - 1) % 2 ^ 32) ||| 0xf0)) % 2 ^ 8))
      % 2 ^ 16
    let integer1 := (2 ^ 32 - 1 - integer) % 2 ^ 12
    let integer2 := if frac = 0 then (integer1 + 1) % 2 ^ 12 else integer1
    { integer := integer2, frac := frac, sign := MINUS }
  else
    { integer := integer, frac := (625 * (lsb &&& 0xf)) % 2 ^ 16, sign := PLUS }

/-- The loop `while (v) { str[i++] = v % 10 + '0'; v /= 10; }`, with the number of
iterations left; it appends the decimal digits of `v`, lowest first, and returns what is
left of `v` with the characters written so far. -/
def digits_loop : Nat → Nat → List Nat → Nat × List Nat
  | 0, v, str => (v, str)
  | fuel + 1, v, str =>
    if v = 0 then (v, str) else digits_loop fuel (v / 10) (str ++ [v % 10 + ZERO])

/-- The library function `strlen`: the number of characters before the first zero. -/
def strlen (str : List Nat) : Nat := (str.takeWhile (fun c => c ≠ 0)).length

/-- The loop of `inplace_reverse`: it swaps `str[lo]` and `str[hi]` with three exclusive
ors and moves both positions inwards while `lo < hi`. -/
def reverse_loop : Nat → Nat → Nat → List Nat → List Nat
  | 0, _, _, str => str
  | fuel + 1, lo, hi, str =>
    if lo < hi then
      let a := str.getD lo 0
      let b := str.getD hi 0
      let a1 := a ^^^ b
      let b1 := b ^^^ a1
      let a2 := a1 ^^^ b1
      reverse_loop fuel (lo + 1) (hi - 1) ((str.set lo a2).set hi b1)
    else str

/-- The function `inplace_reverse` on a buffer that holds a zero-terminated string: `end`
is the position `strlen(str) - 1`; for the empty string the loop body does not run. -/
def inplace_reverse (str : List Nat) : List Nat :=
  if strlen str = 0 then str else reverse_loop (strlen str) 0 (strlen str - 1) str

/-- The function `ds18b20_temp2str`: the characters stored in `str`, the terminating zero
included, and the object afterwards (the loops consume `frac` and `integer`).  The fields
are 16 bits wide at most, so 16 iterations are more than a loop can make. -/
def ds18b20_temp2str (obj : ds18b20_temp) : List Nat × ds18b20_temp :=
  let f := if obj.frac = 0 then (obj.frac, [ZERO]) else digits_loop 16 obj.frac []
  let s2 := f.2 ++ [DOT]
  let g := if obj.integer = 0 then (obj.integer, s2 ++ [ZERO]) else digits_loop 16 obj.integer s2
  let s4 := g.2 ++ [obj.sign, 0]
  (inplace_reverse s4, { obj with frac := f.1, integer := g.1 })

/-- The 16-bit register value formed by the two bytes. -/
def raw (lsb msb : Nat) : Nat := msb * 256 + lsb

/-- The two's-complement value of the 16-bit register. -/
def value (lsb msb : Nat) : Int :=
  if raw lsb msb < 2 ^ 15 then (raw lsb msb : Int) else (raw lsb msb : Int) - 2 ^ 16

/-- The character codes of a text. -/
def codes (s : String) : List Nat := s.toList.map Char.toNat

end Ds18b20

/-! # Theorems -/

namespace Fifo

theorem mod_lt_two_mul {a C : Nat} (h : a < 2 * C) :
    a % C = if a < C then a else a - C := by
  split
  · exact Nat.mod_eq_of_lt ‹_›
  · rw [Nat.mod_eq_sub_mod (by omega)]; exact Nat.mod_eq_of_lt (by omega)

theorem pow_le_15 {k : Nat} (hk : k ≤ 15) : 2 ^ k ≤ 32768 := by
  have := Nat.pow_le_pow_right (show 0 < 2 by decide) hk
  simpa using this

theorem idxmask_eq {f : fifo_t} {k : Nat} (hk : k ≤ 15) (h : f.buflen = 2 ^ k) :
    idxmask f = 2 ^ k - 1 := by
  have h1 := pow_le_15 hk
  have h2 : 0 < 2 ^ k := Nat.pow_pos (by decide)
  unfold idxmask
  rw [h]
  omega

theorem and_idxmask {f : fifo_t} (hf : wf f) (x : Nat) : x &&& idxmask f = x % f.buflen := by
  obtain ⟨⟨k, hk, h⟩, -⟩ := hf
  rw [idxmask_eq hk h, h]
  exact Nat.and_pow_two_sub_one_eq_mod x k

theorem buflen_bounds {f : fifo_t} (hf : wf f) : 0 < f.buflen ∧ f.buflen ≤ 32768 := by
  obtain ⟨⟨k, hk, h⟩, -⟩ := hf
  rw [h]
  exact ⟨Nat.pow_pos (by decide), pow_le_15 hk⟩

theorem numleft_wf {f : fifo_t} (hf : wf f) :
    _fifo_numleft f =
      if f.wridx = f.rdidx then (if f.isfull then 0 else f.buflen)
      else if f.wridx < f.rdidx then f.rdidx - f.wridx
      else f.buflen - f.wridx + f.rdidx := by
  have hb := buflen_bounds hf
  have hr := hf.2.2.1
  have hw := hf.2.2.2
  unfold _fifo_numleft
  simp only []
  rw [and_idxmask hf]
  have e1 : (f.buflen + 2 ^ 32 - f.wridx + f.rdidx) % 2 ^ 32 = f.buflen - f.wridx + f.rdidx := by
    omega
  have e2 := @mod_lt_two_mul (f.buflen - f.wridx + f.rdidx) f.buflen (by omega)
  rw [e1, e2]
  split_ifs <;> omega

theorem numleft_le {f : fifo_t} (hf : wf f) : _fifo_numleft f ≤ f.buflen := by
  have hr := hf.2.2.1
  have hw := hf.2.2.2
  rw [numleft_wf hf]
  split_ifs <;> omega

theorem used_wf {f : fifo_t} (hf : wf f) :
    used f =
      if f.wridx = f.rdidx then (if f.isfull then f.buflen else 0)
      else if f.wridx < f.rdidx then f.buflen - f.rdidx + f.wridx
      else f.wridx - f.rdidx := by
  have hb := buflen_bounds hf
  have hr := hf.2.2.1
  have hw := hf.2.2.2
  unfold used
  rw [numleft_wf hf]
  split_ifs <;> omega

theorem used_add_numleft {f : fifo_t} (hf : wf f) : used f + _fifo_numleft f = f.buflen := by
  have hb := buflen_bounds hf
  have hl := numleft_le hf
  unfold used
  omega

theorem put_copy_succ (f : fifo_t) (b : List Nat) (n : Nat) :
    fifo_put_copy f b (n + 1) =
      (fifo_put_copy f b n).set ((f.wridx + n) &&& idxmask f) (b.getD n 0) := by
  unfold fifo_put_copy
  rw [List.range_succ, List.foldl_append]
  rfl

theorem put_copy_length (f : fifo_t) (b : List Nat) (n : Nat) :
    (fifo_put_copy f b n).length = f.buf.length := by
  induction n with
  | zero => rfl
  | succ n ih => rw [put_copy_succ, List.length_set, ih]

theorem getD_set_eq (l : List Nat) (i p a : Nat) (hp : p < l.length) :
    (l.set i a).getD p 0 = if i = p then a else l.getD p 0 := by
  simp only [List.getD_eq_getElem?_getD, List.getElem?_set]
  split_ifs with h1 h2
  · rfl
  · omega
  · rfl

/-- After the copy loop, the byte at position `p` is `barr[d]` when `p` lies `d < len`
positions after the write cursor (cyclically), and is untouched otherwise. -/
theorem put_copy_getD {f : fifo_t} (hf : wf f) (b : List Nat) (n p d : Nat)
    (hn : n ≤ f.buflen) (hp : p < f.buflen)
    (hd : d = if f.wridx ≤ p then p - f.wridx else p + f.buflen - f.wridx) :
    (fifo_put_copy f b n).getD p 0 = if d < n then b.getD d 0 else f.buf.getD p 0 := by
  have hw := hf.2.2.2
  have hlen := hf.2.1
  induction n with
  | zero => simp [fifo_put_copy]
  | succ n ih =>
    have ih := ih (by omega)
    have hl : p < (fifo_put_copy f b n).length := by rw [put_copy_length]; omega
    have ew := @mod_lt_two_mul (f.wridx + n) f.buflen (by omega)
    rw [put_copy_succ, getD_set_eq _ _ _ _ hl, ih, and_idxmask hf, ew]
    by_cases h1 : (if f.wridx + n < f.buflen then f.wridx + n else f.wridx + n - f.buflen) = p
    · have h2 : d = n := by split_ifs at h1 hd <;> omega
      rw [if_pos h1, h2, if_pos (Nat.lt_succ_self n)]
    · have h2 : d ≠ n := by split_ifs at h1 hd <;> omega
      rw [if_neg h1]
      by_cases h3 : d < n
      · rw [if_pos h3, if_pos (by omega)]
      · rw [if_neg h3, if_neg (by omega)]

theorem put_ok {f : fifo_t} (hf : wf f) (b : List Nat) (n : Nat)
    (hn : n ≤ _fifo_numleft f) :
    fifo_put (some f) (some b) n =
      (EOK, some { f with
        buf := fifo_put_copy f b n
        isfull := if (f.wridx + n) % f.buflen = f.rdidx then true else f.isfull
        wridx := (f.wridx + n) % f.buflen }) := by
  have hb := buflen_bounds hf
  have hl := numleft_le hf
  have hw := hf.2.2.2
  have e1 : (f.wridx + n) % 2 ^ 32 = f.wridx + n := by omega
  have e2 : (f.wridx + n) % f.buflen % 2 ^ 16 = (f.wridx + n) % f.buflen := by
    have := Nat.mod_lt (f.wridx + n) hb.1
    omega
  simp only [fifo_put, gt_iff_lt, and_idxmask hf, e1, e2]
  rw [if_neg (by omega), if_neg (by omega)]

theorem put_wf {f : fifo_t} (hf : wf f) (b : List Nat) (n : Nat) :
    wf { f with
        buf := fifo_put_copy f b n
        isfull := if (f.wridx + n) % f.buflen = f.rdidx then true else f.isfull
        wridx := (f.wridx + n) % f.buflen } := by
  have hb := buflen_bounds hf
  exact ⟨hf.1, by simpa [put_copy_length] using hf.2.1, hf.2.2.1, Nat.mod_lt _ hb.1⟩

theorem used_put {f : fifo_t} (hf : wf f) (b : List Nat) (n : Nat)
    (hn : n ≤ _fifo_numleft f) (h0 : 0 < n ∨ 0 < used f) :
    used { f with
        buf := fifo_put_copy f b n
        isfull := if (f.wridx + n) % f.buflen = f.rdidx then true else f.isfull
        wridx := (f.wridx + n) % f.buflen } = used f + n := by
  have hb := buflen_bounds hf
  have hr := hf.2.2.1
  have hw := hf.2.2.2
  have hl := numleft_le hf
  have ew := @mod_lt_two_mul (f.wridx + n) f.buflen (by omega)
  rw [used_wf (put_wf hf b n)]
  rw [used_wf hf] at h0 ⊢
  rw [numleft_wf hf] at hn
  simp only [ew]
  cases hfull : f.isfull <;> simp only [hfull] at h0 hn ⊢ <;>
    split_ifs at h0 hn ⊢ <;> first | omega | simp_all

theorem contents_put {f : fifo_t} (hf : wf f) (b : List Nat) (n : Nat)
    (hn : n ≤ _fifo_numleft f) (h0 : 0 < n ∨ 0 < used f) :
    contents { f with
        buf := fifo_put_copy f b n
        isfull := if (f.wridx + n) % f.buflen = f.rdidx then true else f.isfull
        wridx := (f.wridx + n) % f.buflen } =
      contents f ++ (List.range n).map (fun i => b.getD i 0) := by
  have hb := buflen_bounds hf
  have hr := hf.2.2.1
  have hw := hf.2.2.2
  have hl := numleft_le hf
  have hsum := used_add_numleft hf
  have hu := used_wf hf
  unfold contents
  rw [used_put hf b n hn h0, List.range_add, List.map_append, List.map_map]
  congr 1
  · apply List.map_congr_left
    intro i hi
    rw [List.mem_range] at hi
    have ep := @mod_lt_two_mul (f.rdidx + i) f.buflen (by omega)
    show (fifo_put_copy f b n).getD ((f.rdidx + i) % f.buflen) 0 = _
    rw [put_copy_getD hf b n _ _ (by omega) (Nat.mod_lt _ hb.1) rfl, if_neg]
    rw [ep]
    split_ifs at hu ⊢ <;> omega
  · apply List.map_congr_left
    intro i hi
    rw [List.mem_range] at hi
    have ep := @mod_lt_two_mul (f.rdidx + (used f + i)) f.buflen (by omega)
    show (fifo_put_copy f b n).getD ((f.rdidx + (used f + i)) % f.buflen) 0 = _
    rw [put_copy_getD hf b n _ i (by omega) (Nat.mod_lt _ hb.1), if_pos hi]
    rw [ep]
    split_ifs at hu ⊢ <;> omega

theorem map_getD_range (b : List Nat) : (List.range b.length).map (fun i => b.getD i 0) = b := by
  apply List.ext_getElem
  · simp
  · intro i h1 h2
    simp [List.getD_eq_getElem?_getD, List.getElem?_eq_getElem h2]

theorem get_ok {f : fifo_t} (hf : wf f) (len : Nat) (hlen : 0 < len) (hu : 0 < used f) :
    fifo_get (some f) (some ()) len =
      (((min len (used f) : Nat) : Int),
        some { f with rdidx := (f.rdidx + min len (used f)) % f.buflen, isfull := false },
        (contents f).take (min len (used f))) := by
  have hb := buflen_bounds hf
  have hr := hf.2.2.1
  have hsum := used_add_numleft hf
  have hmin : (if len > used f then used f else len) = min len (used f) := by
    split_ifs <;> omega
  have e1 : (f.rdidx + min len (used f)) % 2 ^ 32 = f.rdidx + min len (used f) := by omega
  have e2 : (f.rdidx + min len (used f)) % f.buflen % 2 ^ 16 =
      (f.rdidx + min len (used f)) % f.buflen := by
    have := Nat.mod_lt (f.rdidx + min len (used f)) hb.1
    omega
  have e3 : (contents f).take (min len (used f)) =
      (List.range (min len (used f))).map (fun i => f.buf.getD ((f.rdidx + i) % f.buflen) 0) := by
    unfold contents
    rw [← List.map_take, List.take_range]
    congr 2
    omega
  rw [e3]
  unfold fifo_get
  simp only []
  rw [if_neg (by omega)]
  change (if used f = 0 then _ else _) = _
  rw [if_neg (by omega)]
  simp only [and_idxmask hf,
    show (f.buflen + 2 ^ 16 - _fifo_numleft f) % 2 ^ 16 = used f from rfl, hmin, e1, e2]

theorem get_wf {f : fifo_t} (hf : wf f) (k : Nat) :
    wf { f with rdidx := (f.rdidx + k) % f.buflen, isfull := false } :=
  ⟨hf.1, hf.2.1, Nat.mod_lt _ (buflen_bounds hf).1, hf.2.2.2⟩

theorem used_get {f : fifo_t} (hf : wf f) (k : Nat) (hk : k ≤ used f) (hk0 : 0 < k) :
    used { f with rdidx := (f.rdidx + k) % f.buflen, isfull := false } = used f - k := by
  have hb := buflen_bounds hf
  have hr := hf.2.2.1
  have hw := hf.2.2.2
  have hsum := used_add_numleft hf
  have er := @mod_lt_two_mul (f.rdidx + k) f.buflen (by omega)
  rw [used_wf (get_wf hf k)]
  rw [used_wf hf] at hk ⊢
  simp only [er]
  cases hfull : f.isfull <;> simp only [hfull] at hk ⊢ <;>
    split_ifs at hk ⊢ <;> first | omega | simp_all

theorem contents_get {f : fifo_t} (hf : wf f) (k : Nat) (hk : k ≤ used f) (hk0 : 0 < k) :
    contents { f with rdidx := (f.rdidx + k) % f.buflen, isfull := false } =
      (contents f).drop k := by
  have hb := buflen_bounds hf
  unfold contents
  rw [used_get hf k hk hk0, ← List.map_drop]
  have hd : List.drop k (List.range (used f)) = (List.range (used f - k)).map (fun i => k + i) := by
    apply List.ext_getElem
    · simp
    · intro i h1 h2
      simp
  rw [hd, List.map_map]
  apply List.map_congr_left
  intro i _
  show f.buf.getD (((f.rdidx + k) % f.buflen + i) % f.buflen) 0 = _
  rw [Nat.mod_add_mod, Function.comp_apply, Nat.add_assoc]


theorem put_range (f : fifo_t) (b : List Nat) (n : Nat) (h : f.buflen < n) :
    fifo_put (some f) (some b) n = (ERANGE, some f) := by
  simp only [fifo_put, gt_iff_lt]
  rw [if_pos h]

theorem put_full (f : fifo_t) (b : List Nat) (n : Nat) (h1 : n ≤ f.buflen)
    (h2 : _fifo_numleft f < n) :
    fifo_put (some f) (some b) n = (EFULL, some f) := by
  simp only [fifo_put, gt_iff_lt]
  rw [if_neg (by omega), if_pos h2]

theorem get_empty (f : fifo_t) (len : Nat) (h : len = 0 ∨ used f = 0) :
    fifo_get (some f) (some ()) len = (EEMPTY, some f, []) := by
  unfold fifo_get
  simp only []
  by_cases h0 : len = 0
  · rw [if_pos h0]
  · rw [if_neg h0]
    change (if used f = 0 then _ else _) = _
    rw [if_pos (by tauto)]

theorem contents_length (f : fifo_t) : (contents f).length = used f := by
  simp [contents]

theorem step_put_ok {t : Run} (hf : wf t.fifo) (data : List Nat)
    (hn : data.length ≤ _fifo_numleft t.fifo) :
    t.step (Op.put data) =
      { fifo := { t.fifo with
          buf := fifo_put_copy t.fifo data data.length
          isfull := if (t.fifo.wridx + data.length) % t.fifo.buflen = t.fifo.rdidx then true
            else t.fifo.isfull
          wridx := (t.fifo.wridx + data.length) % t.fifo.buflen }
        accepted := t.accepted ++ data
        delivered := t.delivered } := by
  simp only [Run.step, put_ok hf data data.length hn, Option.getD_some, if_true]

theorem step_put_fail {t : Run} (hf : wf t.fifo) (data : List Nat)
    (hn : _fifo_numleft t.fifo < data.length) : t.step (Op.put data) = t := by
  have hl := numleft_le hf
  by_cases h : t.fifo.buflen < data.length
  · simp [Run.step, put_range _ _ _ h, ERANGE, EOK]
  · simp [Run.step, put_full _ _ _ (by omega) hn, EFULL, EOK]

theorem step_get_ok {t : Run} (hf : wf t.fifo) (len : Nat) (hlen : 0 < len)
    (hu : 0 < used t.fifo) :
    t.step (Op.get len) =
      { fifo := { t.fifo with
          rdidx := (t.fifo.rdidx + min len (used t.fifo)) % t.fifo.buflen, isfull := false }
        accepted := t.accepted
        delivered := t.delivered ++ (contents t.fifo).take (min len (used t.fifo)) } := by
  have hpos : (0 : Int) < ((min len (used t.fifo) : Nat) : Int) := by
    have : 0 < min len (used t.fifo) := by omega
    exact_mod_cast this
  simp only [Run.step, get_ok hf len hlen hu, Option.getD_some, if_pos hpos]

theorem step_get_fail (t : Run) (len : Nat) (h : len = 0 ∨ used t.fifo = 0) :
    t.step (Op.get len) = t := by
  simp [Run.step, get_empty _ _ h, EEMPTY]

/-- A call keeps the queue well formed, whatever its arguments. -/
theorem step_wf {t : Run} (hf : wf t.fifo) (op : Op) : wf (t.step op).fifo := by
  cases op with
  | put data =>
    by_cases hn : data.length ≤ _fifo_numleft t.fifo
    · rw [step_put_ok hf data hn]; exact put_wf hf data data.length
    · rw [step_put_fail hf data (by omega)]; exact hf
  | get len =>
    by_cases h : len = 0 ∨ used t.fifo = 0
    · rw [step_get_fail t len h]; exact hf
    · rw [step_get_ok hf len (by omega) (by omega)]; exact get_wf hf _

/-- A call with a non-empty transfer keeps the history invariant. -/
theorem step_inv {t : Run} (h : t.inv) (op : Op) (hop : ∀ data, op = Op.put data → data ≠ []) :
    (t.step op).inv := by
  obtain ⟨hf, hacc⟩ := h
  refine ⟨step_wf hf op, ?_⟩
  cases op with
  | put data =>
    by_cases hn : data.length ≤ _fifo_numleft t.fifo
    · have hpos : 0 < data.length := List.length_pos.mpr (hop data rfl)
      rw [step_put_ok hf data hn]
      show t.accepted ++ data = t.delivered ++ contents _
      rw [contents_put hf data data.length hn (Or.inl hpos), map_getD_range, hacc,
        List.append_assoc]
    · rw [step_put_fail hf data (by omega)]; exact hacc
  | get len =>
    by_cases h : len = 0 ∨ used t.fifo = 0
    · rw [step_get_fail t len h]; exact hacc
    · rw [step_get_ok hf len (by omega) (by omega)]
      show t.accepted = (t.delivered ++ _) ++ contents _
      rw [contents_get hf _ (by omega) (by omega), List.append_assoc, List.take_append_drop]
      exact hacc

theorem foldl_step_wf (ops : List Op) (t : Run) (hf : wf t.fifo) :
    wf (ops.foldl Run.step t).fifo := by
  induction ops generalizing t with
  | nil => exact hf
  | cons op ops ih => exact ih (t.step op) (step_wf hf op)

theorem foldl_step_inv (ops : List Op) (t : Run) (h : t.inv)
    (hops : ∀ op ∈ ops, ∀ data, op = Op.put data → data ≠ []) :
    (ops.foldl Run.step t).inv := by
  induction ops generalizing t with
  | nil => exact h
  | cons op ops ih =>
    exact ih (t.step op) (step_inv h op (hops op (List.mem_cons_self _ _)))
      (fun o ho => hops o (List.mem_cons_of_mem _ ho))

theorem init_eq (b : List Nat) (hb : 0 < b.length) : init b = FIFO_INIT b b.length := by
  have : b.length ≠ 0 := by omega
  simp [init, fifo_init, this]

theorem init_wf (k : Nat) (hk : k ≤ 15) (b : List Nat) (hb : b.length = 2 ^ k) :
    wf (init b) := by
  have hp : 0 < 2 ^ k := Nat.pow_pos (by decide)
  rw [init_eq _ (by omega)]
  exact ⟨⟨k, hk, hb⟩, rfl, by show 0 < b.length; omega, by show 0 < b.length; omega⟩

theorem init_used (k : Nat) (hk : k ≤ 15) (b : List Nat) (hb : b.length = 2 ^ k) :
    used (init b) = 0 := by
  have hp : 0 < 2 ^ k := Nat.pow_pos (by decide)
  rw [used_wf (init_wf k hk b hb), init_eq _ (by omega)]
  simp [FIFO_INIT]

theorem init_inv (k : Nat) (hk : k ≤ 15) (b : List Nat) (hb : b.length = 2 ^ k) :
    Run.inv { fifo := init b, accepted := [], delivered := [] } := by
  refine ⟨init_wf k hk b hb, ?_⟩
  simp [contents, init_used k hk b hb]

theorem run_wf (k : Nat) (hk : k ≤ 15) (b : List Nat) (hb : b.length = 2 ^ k)
    (ops : List Op) : wf (run (init b) ops).fifo :=
  foldl_step_wf ops _ (init_wf k hk b hb)

theorem run_inv (k : Nat) (hk : k ≤ 15) (b : List Nat) (hb : b.length = 2 ^ k)
    (ops : List Op) (hops : ∀ op ∈ ops, ∀ data, op = Op.put data → data ≠ []) :
    (run (init b) ops).inv :=
  foldl_step_inv ops _ (init_inv k hk b hb) hops

theorem sample_wf : wf sample := ⟨⟨2, by decide, rfl⟩, rfl, by decide, by decide⟩

/-! ## The claims about the queue -/

/-- C1: on a queue of power-of-two capacity `fifo_put` returns `ERANGE` when the length
exceeds the capacity, and `EFULL` when the length is at most the capacity but exceeds the
free space (capacity minus stored bytes); in both cases the queue object (buffer, both
cursors, full flag) is returned unchanged. -/
theorem fifo_put_all_or_nothing (f : fifo_t) (b : List Nat) (n : Nat) (hf : wf f) :
    (f.buflen < n → fifo_put (some f) (some b) n = (ERANGE, some f)) ∧
    (n ≤ f.buflen → f.buflen - (contents f).length < n →
      fifo_put (some f) (some b) n = (EFULL, some f)) := by
  refine ⟨put_range f b n, fun h1 h2 => put_full f b n h1 ?_⟩
  have := used_add_numleft hf
  rw [contents_length] at h2
  omega

theorem fifo_put_all_or_nothing_witness :
    fifo_put (some sample) (some [1, 2, 3, 4, 5]) 5 = (ERANGE, some sample) ∧
    fifo_put (some sample) (some [1, 2, 3]) 3 = (EFULL, some sample) :=
  ⟨(fifo_put_all_or_nothing sample [1, 2, 3, 4, 5] 5 sample_wf).1 (by decide),
   (fifo_put_all_or_nothing sample [1, 2, 3] 3 sample_wf).2 (by decide) (by decide)⟩

theorem foldl_step_buflen (ops : List Op) (t : Run) :
    (ops.foldl Run.step t).fifo.buflen = t.fifo.buflen := by
  induction ops generalizing t with
  | nil => rfl
  | cons o os ih =>
    rw [List.foldl_cons, ih]
    cases o with
    | put data =>
      simp only [Run.step, fifo_put]
      split_ifs <;> rfl
    | get len =>
      simp only [Run.step, fifo_get]
      split_ifs <;> rfl

theorem run_buflen (k : Nat) (b : List Nat) (hb : b.length = 2 ^ k) (ops : List Op) :
    (run (init b) ops).fifo.buflen = 2 ^ k := by
  have hp : 0 < 2 ^ k := Nat.pow_pos (by decide)
  rw [run, foldl_step_buflen, init_eq _ (by omega)]
  exact hb

theorem run_snoc (f : fifo_t) (ops : List Op) (op : Op) :
    run f (ops ++ [op]) = (run f ops).step op := by
  simp [run, List.foldl_append]

/-- C2: for a queue of power-of-two capacity set up by `fifo_init` and every sequence of
one-byte puts and gets of any burst size, the delivered bytes are a prefix of the accepted
bytes; the two streams are identical whenever the queue is empty, and one more get of at
least the capacity always drains the queue and makes them identical. -/
theorem fifo_stream_preserved (k : Nat) (b : List Nat) (ops : List Op) (hk : k ≤ 15)
    (hb : b.length = 2 ^ k)
    (hops : ∀ op ∈ ops, ∀ data, op = Op.put data → data.length = 1) :
    (run (init b) ops).delivered <+: (run (init b) ops).accepted ∧
    (used (run (init b) ops).fifo = 0 →
      (run (init b) ops).delivered = (run (init b) ops).accepted) ∧
    (∀ m, 2 ^ k ≤ m →
      (run (init b) (ops ++ [Op.get m])).delivered = (run (init b) ops).accepted ∧
      (run (init b) (ops ++ [Op.get m])).accepted = (run (init b) ops).accepted ∧
      used (run (init b) (ops ++ [Op.get m])).fifo = 0) := by
  have hpos : ∀ op ∈ ops, ∀ data, op = Op.put data → data ≠ [] := by
    intro op hop data hd hnil
    have := hops op hop data hd
    rw [hnil] at this
    simp at this
  obtain ⟨hf, hacc⟩ := run_inv k hk b hb ops hpos
  have hlen := contents_length (run (init b) ops).fifo
  have hempty : used (run (init b) ops).fifo = 0 →
      (run (init b) ops).delivered = (run (init b) ops).accepted := by
    intro h0
    rw [h0] at hlen
    rw [hacc, List.length_eq_zero.mp hlen, List.append_nil]
  refine ⟨⟨_, hacc.symm⟩, hempty, ?_⟩
  intro m hm
  rw [run_snoc]
  by_cases h0 : used (run (init b) ops).fifo = 0
  · rw [step_get_fail _ _ (Or.inr h0)]
    exact ⟨hempty h0, rfl, h0⟩
  · have hsum := used_add_numleft hf
    have hC : (run (init b) ops).fifo.buflen ≤ m := by
      rw [run_buflen k b hb ops]; exact hm
    have hmin : min m (used (run (init b) ops).fifo) = used (run (init b) ops).fifo := by
      omega
    rw [step_get_ok hf m (by omega) (by omega), hmin]
    refine ⟨?_, rfl, ?_⟩
    · show (run (init b) ops).delivered ++ List.take _ (contents _) = _
      rw [← hlen, List.take_length]
      exact hacc.symm
    · show used _ = 0
      rw [used_get hf _ (le_refl _) (by omega)]
      omega

theorem fifo_stream_preserved_witness :
    (run (init [0, 0, 0, 0]) [Op.put [1], Op.put [2], Op.get 1, Op.put [3], Op.get 16]).delivered <+:
      (run (init [0, 0, 0, 0]) [Op.put [1], Op.put [2], Op.get 1, Op.put [3], Op.get 16]).accepted :=
  (fifo_stream_preserved 2 [0, 0, 0, 0]
    [Op.put [1], Op.put [2], Op.get 1, Op.put [3], Op.get 16] (by decide) rfl (by simp)).1

/-- C3 as stated fails: after `put [1]` a further `put [2]` succeeds, yet the following
`get` of one byte delivers the older byte `1`, not the byte just put. -/
theorem fifo_put_get_counterexample :
    (fifo_put (some (run (init [0, 0, 0, 0]) [Op.put [1]]).fifo) (some [2]) 1).1 = EOK ∧
    (fifo_get (fifo_put (some (run (init [0, 0, 0, 0]) [Op.put [1]]).fifo) (some [2]) 1).2
      (some ()) 1).1 = 1 ∧
    (fifo_get (fifo_put (some (run (init [0, 0, 0, 0]) [Op.put [1]]).fifo) (some [2]) 1).2
      (some ()) 1).2.2 = [1] ∧
    (fifo_get (fifo_put (some (run (init [0, 0, 0, 0]) [Op.put [1]]).fifo) (some [2]) 1).2
      (some ()) 1).2.2 ≠ [2] := by
  decide

theorem put_eok_room {f : fifo_t} (hf : wf f) (b : List Nat) (n : Nat) (r : Option fifo_t)
    (h : fifo_put (some f) (some b) n = (EOK, r)) : n ≤ _fifo_numleft f := by
  have hl := numleft_le hf
  by_contra hn
  by_cases h1 : f.buflen < n
  · rw [put_range f b n h1] at h
    simp [ERANGE, EOK] at h
  · rw [put_full f b n (by omega) (by omega)] at h
    simp [EFULL, EOK] at h

/-- C3 (amended): in every state reached from `fifo_init` (power-of-two capacity) by any
sequence of puts of positive length and gets, if `fifo_put(data, n)` with `n >= 1` succeeds
then an immediately following `fifo_get` with maximum length `n` returns `n` and delivers
the first `n` bytes of (the bytes accepted by earlier puts and not yet delivered, then
`data`); when every accepted byte had been delivered before the put these are exactly the
bytes of `data`, in the same order. -/
theorem fifo_put_then_get (k : Nat) (b : List Nat) (ops : List Op) (data : List Nat)
    (r : Option fifo_t) (hk : k ≤ 15) (hb : b.length = 2 ^ k)
    (hops : ∀ op ∈ ops, ∀ d, op = Op.put d → d ≠ []) (hpos : 0 < data.length)
    (hput : fifo_put (some (run (init b) ops).fifo) (some data) data.length = (EOK, r)) :
    (fifo_get r (some ()) data.length).1 = (data.length : Int) ∧
    (fifo_get r (some ()) data.length).2.2 =
      ((run (init b) ops).accepted.drop (run (init b) ops).delivered.length ++ data).take
        data.length ∧
    ((run (init b) ops).occupancy = 0 →
      (fifo_get r (some ()) data.length).2.2 = data) := by
  have hinv := run_inv k hk b hb ops hops
  have hf := hinv.1
  have hpend : (run (init b) ops).accepted.drop (run (init b) ops).delivered.length =
      contents (run (init b) ops).fifo := by
    rw [hinv.2]
    simp
  have hn := put_eok_room hf data data.length r hput
  rw [put_ok hf data data.length hn] at hput
  have hr : r = _ := (congrArg Prod.snd hput).symm
  have hf' := put_wf hf data data.length
  have hu := used_put hf data data.length hn (Or.inl hpos)
  have hc := contents_put hf data data.length hn (Or.inl hpos)
  rw [map_getD_range] at hc
  have hg := get_ok hf' data.length hpos (by omega)
  rw [hu] at hg
  have hmin : min data.length (used (run (init b) ops).fifo + data.length) = data.length := by
    omega
  rw [hmin, hc] at hg
  simp only [hr]
  rw [hg, hpend]
  refine ⟨rfl, rfl, ?_⟩
  intro h0
  have hnil : contents (run (init b) ops).fifo = [] := by
    apply List.length_eq_zero.mp
    have hlen : (run (init b) ops).accepted.length =
        (run (init b) ops).delivered.length + (contents (run (init b) ops).fifo).length := by
      have h1 := congrArg List.length hinv.2
      rw [List.length_append] at h1
      exact h1
    unfold Run.occupancy at h0
    omega
  show List.take data.length (contents _ ++ data) = data
  rw [hnil, List.nil_append, List.take_length]

theorem fifo_put_then_get_witness :
    (fifo_get (fifo_put (some (run (init [0, 0, 0, 0]) [Op.put [1], Op.put [2], Op.get 1]).fifo)
      (some [3, 4]) 2).2 (some ()) 2).1 = 2 ∧
    (fifo_get (fifo_put (some (run (init [0, 0, 0, 0]) [Op.put [1], Op.put [2], Op.get 1]).fifo)
      (some [3, 4]) 2).2 (some ()) 2).2.2 =
      ((run (init [0, 0, 0, 0]) [Op.put [1], Op.put [2], Op.get 1]).accepted.drop
        (run (init [0, 0, 0, 0]) [Op.put [1], Op.put [2], Op.get 1]).delivered.length ++
          [3, 4]).take 2 :=
  have h := fifo_put_then_get 2 [0, 0, 0, 0] [Op.put [1], Op.put [2], Op.get 1] [3, 4]
    (fifo_put (some (run (init [0, 0, 0, 0]) [Op.put [1], Op.put [2], Op.get 1]).fifo)
      (some [3, 4]) 2).2
    (by decide) rfl (by simp) (by decide) (by decide)
  ⟨h.1, h.2.1⟩

/-- Puts of non-empty chunks that fit into the free space all succeed. -/
theorem foldl_puts (chunks : List (List Nat)) (t : Run) (hf : wf t.fifo)
    (hne : ∀ c ∈ chunks, c ≠ [])
    (hroom : used t.fifo + chunks.flatten.length ≤ t.fifo.buflen) :
    wf ((chunks.map Op.put).foldl Run.step t).fifo ∧
    used ((chunks.map Op.put).foldl Run.step t).fifo = used t.fifo + chunks.flatten.length ∧
    ((chunks.map Op.put).foldl Run.step t).accepted = t.accepted ++ chunks.flatten ∧
    ((chunks.map Op.put).foldl Run.step t).delivered = t.delivered := by
  induction chunks generalizing t with
  | nil => simp [hf]
  | cons c cs ih =>
    have hsum := used_add_numleft hf
    rw [List.flatten_cons, List.length_append] at hroom
    have hn : c.length ≤ _fifo_numleft t.fifo := by omega
    have hpos : 0 < c.length := List.length_pos.mpr (hne c (List.mem_cons_self _ _))
    have hu := used_put hf c c.length hn (Or.inl hpos)
    rw [List.map_cons, List.foldl_cons, step_put_ok hf c hn]
    have := ih { fifo := _, accepted := t.accepted ++ c, delivered := t.delivered }
      (put_wf hf c c.length) (fun x hx => hne x (List.mem_cons_of_mem _ hx))
      (by rw [hu]; exact (by omega : used t.fifo + c.length + cs.flatten.length ≤ t.fifo.buflen))
    obtain ⟨h1, h2, h3, h4⟩ := this
    refine ⟨h1, ?_, ?_, h4⟩
    · rw [h2, hu, List.flatten_cons, List.length_append]; omega
    · rw [h3, List.flatten_cons, List.append_assoc]

/-- C4: starting from an empty queue of power-of-two capacity, puts of positive length
totalling exactly the capacity all succeed and leave the full flag set; a further one-byte
`fifo_put` returns `EFULL` and changes nothing; a subsequent `fifo_get` of any positive
length succeeds and clears the full flag. -/
theorem fifo_full_flag (f0 : fifo_t) (chunks : List (List Nat)) (x len : Nat)
    (hf : wf f0) (hempty : used f0 = 0) (hne : ∀ c ∈ chunks, c ≠ [])
    (htot : chunks.flatten.length = f0.buflen) (hlen : 0 < len) :
    (run f0 (chunks.map Op.put)).accepted = chunks.flatten ∧
    (run f0 (chunks.map Op.put)).fifo.isfull = true ∧
    fifo_put (some (run f0 (chunks.map Op.put)).fifo) (some [x]) 1 =
      (EFULL, some (run f0 (chunks.map Op.put)).fifo) ∧
    0 < (fifo_get (some (run f0 (chunks.map Op.put)).fifo) (some ()) len).1 ∧
    (fifo_get (some (run f0 (chunks.map Op.put)).fifo) (some ()) len).2.1 =
      some { (run f0 (chunks.map Op.put)).fifo with
        rdidx := ((run f0 (chunks.map Op.put)).fifo.rdidx +
          min len (used (run f0 (chunks.map Op.put)).fifo)) %
            (run f0 (chunks.map Op.put)).fifo.buflen
        isfull := false } := by
  have hb := buflen_bounds hf
  obtain ⟨h1, h2, h3, -⟩ := foldl_puts chunks { fifo := f0, accepted := [], delivered := [] } hf
    hne (by show used f0 + _ ≤ f0.buflen; omega)
  have hbl := foldl_step_buflen (chunks.map Op.put) { fifo := f0, accepted := [], delivered := [] }
  change wf (run f0 (chunks.map Op.put)).fifo at h1
  change used (run f0 (chunks.map Op.put)).fifo = used f0 + _ at h2
  change (run f0 (chunks.map Op.put)).accepted = [] ++ _ at h3
  change (run f0 (chunks.map Op.put)).fifo.buflen = f0.buflen at hbl
  have hu : used (run f0 (chunks.map Op.put)).fifo = (run f0 (chunks.map Op.put)).fifo.buflen := by
    omega
  have hsum := used_add_numleft h1
  have hfull : (run f0 (chunks.map Op.put)).fifo.isfull = true := by
    have hr := h1.2.2.1
    have hw := h1.2.2.2
    have e := used_wf h1
    rw [hu] at e
    cases hfl : (run f0 (chunks.map Op.put)).fifo.isfull
    · rw [hfl] at e
      split_ifs at e <;> first | omega | simp_all
    · rfl
  have hg := get_ok h1 len hlen (by omega)
  refine ⟨by simpa using h3, hfull, put_full _ _ _ (by omega) (by omega), ?_, ?_⟩
  · rw [hg]
    have : 0 < min len (used (run f0 (chunks.map Op.put)).fifo) := by omega
    show (0 : Int) < ((min len (used (run f0 (chunks.map Op.put)).fifo) : Nat) : Int)
    exact_mod_cast this
  · rw [hg]

theorem fifo_full_flag_witness :
    (run (init [0, 0, 0, 0]) ([[1], [2, 3], [4]].map Op.put)).fifo.isfull = true :=
  (fifo_full_flag (init [0, 0, 0, 0]) [[1], [2, 3], [4]] 7 2 (init_wf 2 (by decide) _ rfl) (by decide)
    (by decide) (by decide) (by decide)).2.1

/-- C5: on a well-formed queue `fifo_get` returns `EEMPTY` and changes nothing when the
queue is empty or the requested length is 0; otherwise it returns
`k = min(requested length, stored bytes)`, delivers the `k` oldest stored bytes in order,
advances the read cursor by `k` modulo the capacity, clears the full flag and leaves the
write cursor and the buffer unchanged. -/
theorem fifo_get_contract (f : fifo_t) (len : Nat) (hf : wf f) :
    ((len = 0 ∨ used f = 0) → fifo_get (some f) (some ()) len = (EEMPTY, some f, [])) ∧
    ((0 < len ∧ 0 < used f) →
      fifo_get (some f) (some ()) len =
        (((min len (used f) : Nat) : Int),
          some { f with rdidx := (f.rdidx + min len (used f)) % f.buflen, isfull := false },
          (contents f).take (min len (used f)))) :=
  ⟨get_empty f len, fun h => get_ok hf len h.1 h.2⟩

theorem fifo_get_contract_witness :
    fifo_get (some sample) (some ()) 0 = (EEMPTY, some sample, []) ∧
    fifo_get (some sample) (some ()) 5 =
      (2, some { sample with rdidx := 3, isfull := false }, [6, 7]) :=
  ⟨(fifo_get_contract sample 0 sample_wf).1 (Or.inl rfl),
   (fifo_get_contract sample 5 sample_wf).2 ⟨by decide, by decide⟩⟩

theorem cursor_formula_wf {f : fifo_t} (hf : wf f) :
    cursor_formula f =
      if f.wridx = f.rdidx then 0
      else if f.wridx < f.rdidx then f.rdidx - f.wridx
      else f.buflen - f.wridx + f.rdidx := by
  have hb := buflen_bounds hf
  have hr := hf.2.2.1
  have hw := hf.2.2.2
  unfold cursor_formula
  rw [and_idxmask hf]
  have e1 : (f.buflen + 2 ^ 32 - f.wridx + f.rdidx) % 2 ^ 32 = f.buflen - f.wridx + f.rdidx := by
    omega
  have e2 := @mod_lt_two_mul (f.buflen - f.wridx + f.rdidx) f.buflen (by omega)
  rw [e1, e2]
  split_ifs <;> omega

theorem inv_occupancy {t : Run} (h : t.inv) : t.occupancy = used t.fifo := by
  unfold Run.occupancy
  rw [h.2, List.length_append, contents_length]
  omega

/-- C6 as stated fails: after one byte is put into an empty queue of capacity 4 the
occupancy is 1, while `(capacity - (write - read)) & (capacity - 1)` is 3. -/
theorem fifo_occupancy_counterexample :
    (run (init [0, 0, 0, 0]) [Op.put [7]]).occupancy = 1 ∧
    (run (init [0, 0, 0, 0]) [Op.put [7]]).fifo.wridx = 1 ∧
    (run (init [0, 0, 0, 0]) [Op.put [7]]).fifo.rdidx = 0 ∧
    (4 - (1 - 0)) &&& (4 - 1) = 3 ∧
    cursor_formula (run (init [0, 0, 0, 0]) [Op.put [7]]).fifo = 3 := by
  decide

/-- C6 (amended): in every state reached from `fifo_init` (power-of-two capacity) by puts of
positive length and gets, the value `(capacity - (write - read)) & (capacity - 1)` is the free
space, so the occupancy is the capacity minus that value, except that when the value is 0,
which happens exactly when the cursors are equal, the queue is completely full if the full
flag is set and completely empty otherwise. -/
theorem fifo_free_space_formula (k : Nat) (b : List Nat) (ops : List Op) (hk : k ≤ 15)
    (hb : b.length = 2 ^ k)
    (hops : ∀ op ∈ ops, ∀ data, op = Op.put data → data ≠ []) :
    (cursor_formula (run (init b) ops).fifo ≠ 0 →
      (run (init b) ops).occupancy + cursor_formula (run (init b) ops).fifo =
        2 ^ k) ∧
    (cursor_formula (run (init b) ops).fifo = 0 ↔
      (run (init b) ops).fifo.wridx = (run (init b) ops).fifo.rdidx) ∧
    (cursor_formula (run (init b) ops).fifo = 0 →
      (run (init b) ops).occupancy =
        if (run (init b) ops).fifo.isfull then 2 ^ k else 0) := by
  have hinv := run_inv k hk b hb ops hops
  have hf := hinv.1
  have hocc := inv_occupancy hinv
  have hbl := run_buflen k b hb ops
  have hu := used_wf hf
  have hc := cursor_formula_wf hf
  have hr := hf.2.2.1
  have hw := hf.2.2.2
  rw [hocc]
  rw [hbl] at hu hc hr hw
  refine ⟨?_, ?_, ?_⟩
  · intro h
    split_ifs at hu hc <;> omega
  · constructor
    · intro h
      split_ifs at hc <;> omega
    · intro h
      rw [hc, if_pos h]
  · intro h
    split_ifs at hu hc ⊢ <;> omega

theorem fifo_free_space_formula_witness :
    (run (init [0, 0, 0, 0]) [Op.put [7]]).occupancy +
      cursor_formula (run (init [0, 0, 0, 0]) [Op.put [7]]).fifo = 2 ^ 2 :=
  (fifo_free_space_formula 2 [0, 0, 0, 0] [Op.put [7]] (by decide) rfl (by simp)).1 (by decide)

/-- C7 as stated fails: `fifo_init` accepts the capacity 3, which is not a power of two. -/
theorem fifo_init_counterexample :
    (fifo_init (some (FIFO_INIT [] 0)) (some [0, 0, 0]) 3).1 = EOK ∧ ¬ ∃ k, 3 = 2 ^ k := by
  refine ⟨by decide, ?_⟩
  rintro ⟨k, hk⟩
  cases k with
  | zero => simp at hk
  | succ k => rw [Nat.pow_succ] at hk; omega

/-- C7 (amended): `fifo_init` returns `EWRONGARG` and leaves the queue object alone exactly
when the queue pointer is null, the buffer pointer is null or the capacity is 0; for every
other capacity, a power of two or not, it returns `EOK` and stores an empty queue over the
buffer, with both cursors 0 and the full flag clear. -/
theorem fifo_init_contract (fifo : Option fifo_t) (buf : Option (List Nat)) (buflen : Nat) :
    ((fifo = none ∨ buf = none ∨ buflen = 0) →
      fifo_init fifo buf buflen = (EWRONGARG, fifo)) ∧
    (∀ old b, fifo = some old → buf = some b → buflen ≠ 0 →
      fifo_init fifo buf buflen =
        (EOK, some { buf := b, buflen := buflen, rdidx := 0, wridx := 0, last_error := 0,
                     isfull := false })) := by
  constructor
  · intro h
    cases fifo with
    | none => rfl
    | some old =>
      cases buf with
      | none => rfl
      | some b =>
        have h0 : buflen = 0 := by simpa using h
        simp [fifo_init, h0]
  · intro old b h1 h2 h3
    subst h1 h2
    simp [fifo_init, h3, FIFO_INIT]

theorem fifo_init_contract_witness :
    fifo_init (some sample) (some [0, 0, 0]) 0 = (EWRONGARG, some sample) ∧
    fifo_init (some sample) (some [0, 0, 0]) 3 =
      (EOK, some { buf := [0, 0, 0], buflen := 3, rdidx := 0, wridx := 0, last_error := 0,
                   isfull := false }) :=
  ⟨(fifo_init_contract (some sample) (some [0, 0, 0]) 0).1 (Or.inr (Or.inr rfl)),
   (fifo_init_contract (some sample) (some [0, 0, 0]) 3).2 sample [0, 0, 0] rfl rfl
     (by decide)⟩

end Fifo

namespace Sched

theorem and_bit_ne_zero (x i : Nat) : x &&& (1 <<< i) ≠ 0 ↔ x.testBit i = true := by
  rw [Nat.one_shiftLeft, Nat.and_comm, Nat.two_pow_and]
  have hp : 0 < 2 ^ i := Nat.pow_pos (by decide)
  cases x.testBit i <;> simp

theorem find_loop_hit (ready : Nat) (n i d : Nat) (hd : d < n)
    (hbit : ready.testBit ((i + d) % TASK_NR) = true)
    (hmin : ∀ e, e < d → ready.testBit ((i + e) % TASK_NR) = false) :
    sched_find_next_loop ready n i = (((i + d) % TASK_NR : Nat) : Int) := by
  induction n generalizing i d with
  | zero => omega
  | succ n ih =>
    unfold sched_find_next_loop
    simp only []
    cases d with
    | zero =>
      rw [if_pos ((and_bit_ne_zero _ _).mpr (by simpa using hbit))]
      simp
    | succ d =>
      have h0 := hmin 0 (by omega)
      rw [Nat.add_zero] at h0
      rw [if_neg (by rw [and_bit_ne_zero, h0]; simp)]
      rw [ih (i + 1) d (by omega) (by rw [← hbit]; congr 2; omega)
        (fun e he => by rw [← hmin (e + 1) (by omega)]; congr 2; omega)]
      congr 2
      omega

theorem find_loop_miss (ready : Nat) (n i : Nat)
    (h : ∀ e, e < n → ready.testBit ((i + e) % TASK_NR) = false) :
    sched_find_next_loop ready n i = -1 := by
  induction n generalizing i with
  | zero => rfl
  | succ n ih =>
    unfold sched_find_next_loop
    simp only []
    have h0 := h 0 (by omega)
    rw [Nat.add_zero] at h0
    rw [if_neg (by rw [and_bit_ne_zero, h0]; simp)]
    exact ih (i + 1) (fun e he => by rw [← h (e + 1) (by omega)]; congr 2; omega)

theorem testBit_set_blocked (s : sched_t) (idx i : Nat) (hi : i < 32) :
    (sched_set_blocked s idx).sched_ready.testBit i =
      (s.sched_ready.testBit i && decide (i ≠ idx)) := by
  simp only [sched_set_blocked, Nat.testBit_and, Nat.testBit_xor, Nat.testBit_two_pow_sub_one,
    Nat.one_shiftLeft, Nat.testBit_two_pow]
  by_cases h : idx = i
  · simp [h, hi]
  · have h2 : ¬ i = idx := fun e => h e.symm
    simp [h, h2, hi]

/-- One pass, described by the cyclic distance `d` of the slot it runs. -/
theorem run_next_at (exec : Nat → Nat → sched_t → sched_t) (s : sched_t) (d : Nat)
    (h1 : 1 ≤ d) (h2 : d ≤ TASK_NR)
    (hbit : s.sched_ready.testBit ((s.current + d) % TASK_NR) = true)
    (hmin : ∀ e, 1 ≤ e → e < d → s.sched_ready.testBit ((s.current + e) % TASK_NR) = false)
    (hfun : (slot s ((s.current + d) % TASK_NR)).func ≠ 0) :
    sched_find_next s = (((s.current + d) % TASK_NR : Nat) : Int) ∧
    sched_run_next exec s =
      some (((exec (slot s ((s.current + d) % TASK_NR)).func
                (slot s ((s.current + d) % TASK_NR)).data
                (sched_set_blocked { s with current := (s.current + d) % TASK_NR }
                  ((s.current + d) % TASK_NR))).current : Int),
        exec (slot s ((s.current + d) % TASK_NR)).func
          (slot s ((s.current + d) % TASK_NR)).data
          (sched_set_blocked { s with current := (s.current + d) % TASK_NR }
            ((s.current + d) % TASK_NR)),
        [((slot s ((s.current + d) % TASK_NR)).func,
          (slot s ((s.current + d) % TASK_NR)).data)]) := by
  have hfind : sched_find_next s = (((s.current + d) % TASK_NR : Nat) : Int) := by
    unfold sched_find_next
    rw [find_loop_hit s.sched_ready TASK_NR (s.current + 1) (d - 1) (by omega)
      (by rw [← hbit]; congr 2; omega)
      (fun e he => by rw [← hmin (e + 1) (by omega) (by omega)]; congr 2; omega)]
    congr 2
    omega
  refine ⟨hfind, ?_⟩
  have hne : s.sched_ready ≠ 0 := by
    intro h0
    rw [h0] at hbit
    simp at hbit
  unfold sched_run_next
  rw [if_neg hne]
  simp only [hfind]
  rw [if_neg (by omega)]
  simp only [Int.toNat_ofNat]
  have hslot : ∀ i, slot (sched_set_blocked { s with current := (s.current + d) % TASK_NR }
      ((s.current + d) % TASK_NR)) i = slot s i := fun i => rfl
  have hcur : (sched_set_blocked { s with current := (s.current + d) % TASK_NR }
      ((s.current + d) % TASK_NR)).current = (s.current + d) % TASK_NR := rfl
  simp only [hcur, hslot]
  rw [if_neg hfun]

theorem run_next_idle (exec : Nat → Nat → sched_t → sched_t) (s : sched_t)
    (h : ∀ e, 1 ≤ e → e ≤ TASK_NR → s.sched_ready.testBit ((s.current + e) % TASK_NR) = false) :
    sched_run_next exec s = some (-1, s, []) := by
  unfold sched_run_next
  by_cases h0 : s.sched_ready = 0
  · rw [if_pos h0]
  · rw [if_neg h0]
    have hfind : sched_find_next s = -1 := by
      unfold sched_find_next
      exact find_loop_miss _ _ _
        (fun e he => by rw [← h (e + 1) (by omega) (by omega)]; congr 2; omega)
    simp only [hfind]
    rfl

/-! ## The claims about the scheduler -/

/-- C8 fails on the code: at program start every slot is zeroed, so the name lookup of
`sched_add_task` hands the null name pointer of slot 0 to `strcmp`, which is undefined
behaviour; the call then neither returns 0 nor stores the task. -/
theorem sched_add_task_first_call_undefined :
    sched_find_empty_slot boot = 0 ∧
    (slot boot 0).name = none ∧
    strcmp_eq (some "swtimer") (slot boot 0).name = none ∧
    sched_add_task boot (some "swtimer") 1 2 (some 0) = none := by
  decide

/-- C9: a scheduler pass runs the slot at the smallest cyclic distance `1..TASK_NR` after
`current` among the slots whose ready bit is set (so `current` itself comes last), clearing
its bit before the call, and runs nothing when no slot is ready; hence with tasks in slots
`a`, `b`, `c` in cyclic order, all ready and no other slot ready, `current = a`, and task
functions that leave the scheduler variables alone, three consecutive passes run `b`, then
`c`, then `a`. -/
theorem sched_round_robin (exec : Nat → Nat → sched_t → sched_t) (s : sched_t) :
    (∀ d, 1 ≤ d → d ≤ TASK_NR →
      s.sched_ready.testBit ((s.current + d) % TASK_NR) = true →
      (∀ e, 1 ≤ e → e < d → s.sched_ready.testBit ((s.current + e) % TASK_NR) = false) →
      (slot s ((s.current + d) % TASK_NR)).func ≠ 0 →
      sched_run_next exec s =
        some (((exec (slot s ((s.current + d) % TASK_NR)).func
                  (slot s ((s.current + d) % TASK_NR)).data
                  (sched_set_blocked { s with current := (s.current + d) % TASK_NR }
                    ((s.current + d) % TASK_NR))).current : Int),
          exec (slot s ((s.current + d) % TASK_NR)).func
            (slot s ((s.current + d) % TASK_NR)).data
            (sched_set_blocked { s with current := (s.current + d) % TASK_NR }
              ((s.current + d) % TASK_NR)),
          [((slot s ((s.current + d) % TASK_NR)).func,
            (slot s ((s.current + d) % TASK_NR)).data)])) ∧
    ((∀ e, 1 ≤ e → e ≤ TASK_NR →
        s.sched_ready.testBit ((s.current + e) % TASK_NR) = false) →
      sched_run_next exec s = some (-1, s, [])) ∧
    (∀ a b c, a < TASK_NR → b < TASK_NR → c < TASK_NR →
      0 < (b + TASK_NR - a) % TASK_NR →
      (b + TASK_NR - a) % TASK_NR < (c + TASK_NR - a) % TASK_NR →
      s.current = a →
      (∀ i, i < TASK_NR →
        s.sched_ready.testBit i = (decide (i = a) || decide (i = b) || decide (i = c))) →
      (slot s a).func ≠ 0 → (slot s b).func ≠ 0 → (slot s c).func ≠ 0 →
      (∀ st, exec (slot s a).func (slot s a).data st = st) →
      (∀ st, exec (slot s b).func (slot s b).data st = st) →
      (∀ st, exec (slot s c).func (slot s c).data st = st) →
      ∃ s1 s2 s3,
        sched_run_next exec s = some ((b : Int), s1, [((slot s b).func, (slot s b).data)]) ∧
        sched_run_next exec s1 = some ((c : Int), s2, [((slot s c).func, (slot s c).data)]) ∧
        sched_run_next exec s2 = some ((a : Int), s3, [((slot s a).func, (slot s a).data)])) := by
  refine ⟨fun d h1 h2 hbit hmin hfun => (run_next_at exec s d h1 h2 hbit hmin hfun).2,
    run_next_idle exec s, ?_⟩
  intro a b c ha hb hc hab hbc hcur hready hfa hfb hfc hea heb hec
  simp only [TASK_NR] at ha hb hc hab hbc hready
  -- first pass: from `a` to `b`
  have e1 : (s.current + (b + 10 - a) % 10) % TASK_NR = b := by
    simp only [TASK_NR]; omega
  have p1 := (run_next_at exec s ((b + 10 - a) % 10) (by omega) (by simp only [TASK_NR]; omega)
    (by rw [e1, hready b hb]; simp)
    (fun e he1 he2 => by
      have hlt : (s.current + e) % TASK_NR < 10 := by simp only [TASK_NR]; omega
      rw [hready _ hlt]
      have : (s.current + e) % TASK_NR ≠ a ∧ (s.current + e) % TASK_NR ≠ b ∧
          (s.current + e) % TASK_NR ≠ c := by simp only [TASK_NR]; omega
      simp [this])
    (by rw [e1]; exact hfb)).2
  rw [e1, heb] at p1
  -- second pass: from `b` to `c`
  have hr1 : ∀ i, i < 10 →
      (sched_set_blocked { s with current := b } b).sched_ready.testBit i =
        ((decide (i = a) || decide (i = c)) && decide (i ≠ b)) := by
    intro i hi
    rw [testBit_set_blocked _ _ _ (by omega)]
    show (s.sched_ready.testBit i && _) = _
    rw [hready i hi]
    by_cases h1 : i = a <;> by_cases h2 : i = b <;> by_cases h3 : i = c <;>
      simp [h1, h2, h3]
  have e2 : ((sched_set_blocked { s with current := b } b).current + (c + 10 - b) % 10) %
      TASK_NR = c := by
    show (b + (c + 10 - b) % 10) % TASK_NR = c
    simp only [TASK_NR]; omega
  have p2 := (run_next_at exec (sched_set_blocked { s with current := b } b)
    ((c + 10 - b) % 10) (by omega) (by simp only [TASK_NR]; omega)
    (by rw [e2, hr1 c hc]; simp; omega)
    (fun e he1 he2 => by
      have hlt : (b + e) % TASK_NR < 10 := by simp only [TASK_NR]; omega
      show (sched_set_blocked { s with current := b } b).sched_ready.testBit
        ((b + e) % TASK_NR) = false
      rw [hr1 _ hlt]
      have : (b + e) % TASK_NR ≠ a ∧ (b + e) % TASK_NR ≠ c := by simp only [TASK_NR]; omega
      simp [this])
    (by rw [e2]; exact hfc)).2
  rw [e2] at p2
  have hs1 : ∀ i, slot (sched_set_blocked { s with current := b } b) i = slot s i := fun i => rfl
  simp only [hs1] at p2
  rw [hec] at p2
  -- third pass: from `c` back to `a`
  have hr2 : ∀ i, i < 10 →
      (sched_set_blocked { sched_set_blocked { s with current := b } b with current := c }
        c).sched_ready.testBit i = (decide (i = a) && decide (i ≠ b) && decide (i ≠ c)) := by
    intro i hi
    rw [testBit_set_blocked _ _ _ (by omega)]
    show ((sched_set_blocked { s with current := b } b).sched_ready.testBit i && _) = _
    rw [hr1 i hi]
    by_cases h1 : i = a <;> by_cases h2 : i = b <;> by_cases h3 : i = c <;>
      simp [h1, h2, h3]
  have e3 : ((sched_set_blocked
      { sched_set_blocked { s with current := b } b with current := c } c).current +
        (a + 10 - c) % 10) % TASK_NR = a := by
    show (c + (a + 10 - c) % 10) % TASK_NR = a
    simp only [TASK_NR]; omega
  have p3 := (run_next_at exec (sched_set_blocked
      { sched_set_blocked { s with current := b } b with current := c } c)
    ((a + 10 - c) % 10) (by omega) (by simp only [TASK_NR]; omega)
    (by rw [e3, hr2 a ha]; simp; omega)
    (fun e he1 he2 => by
      have hlt : (c + e) % TASK_NR < 10 := by simp only [TASK_NR]; omega
      show (sched_set_blocked
        { sched_set_blocked { s with current := b } b with current := c }
          c).sched_ready.testBit ((c + e) % TASK_NR) = false
      rw [hr2 _ hlt]
      have : (c + e) % TASK_NR ≠ a := by simp only [TASK_NR]; omega
      simp [this])
    (by rw [e3]; exact hfa)).2
  rw [e3] at p3
  have hs2 : ∀ i, slot (sched_set_blocked
      { sched_set_blocked { s with current := b } b with current := c } c) i = slot s i :=
    fun i => rfl
  simp only [hs2] at p3
  rw [hea] at p3
  exact ⟨_, _, _, p1, p2, p3⟩

theorem sched_round_robin_witness :
    ∃ s1 s2 s3,
      sched_run_next quiet_exec abc =
        some (((1 : Nat) : Int), s1, [((slot abc 1).func, (slot abc 1).data)]) ∧
      sched_run_next quiet_exec s1 =
        some (((2 : Nat) : Int), s2, [((slot abc 2).func, (slot abc 2).data)]) ∧
      sched_run_next quiet_exec s2 =
        some (((0 : Nat) : Int), s3, [((slot abc 0).func, (slot abc 0).data)]) :=
  (sched_round_robin quiet_exec abc).2.2 0 1 2 (by decide) (by decide) (by decide) (by decide)
    (by decide) rfl (by decide) (by decide) (by decide) (by decide) (fun _ => rfl)
    (fun _ => rfl) (fun _ => rfl)

theorem set_ready_in_range (s : sched_t) (h : Nat) (h1 : 1 ≤ h) (h2 : h ≤ TASK_NR) :
    sched_set_ready s (h : Int) =
      some { s with sched_ready := (s.sched_ready ||| 2 ^ (h - 1)) % 2 ^ 32 } := by
  simp only [TASK_NR] at h2
  have e : ((h : Int) - 1).toNat = h - 1 := by omega
  unfold sched_set_ready
  rw [if_pos (by omega), e, Nat.one_shiftLeft]

theorem two_pow_slot_lt (h : Nat) (h2 : h ≤ TASK_NR) : 2 ^ (h - 1) < 2 ^ 32 :=
  Nat.pow_lt_pow_right (by decide) (by simp only [TASK_NR] at h2; omega)

theorem set_ready_times_marked (s : sched_t) (h : Nat) (h1 : 1 ≤ h) (h2 : h ≤ TASK_NR)
    (n : Nat) (hs : s.sched_ready = 2 ^ (h - 1)) : set_ready_times s (h : Int) n = some s := by
  induction n with
  | zero => rfl
  | succ n ih =>
    unfold set_ready_times
    rw [set_ready_in_range s h h1 h2, hs, Nat.or_self,
      Nat.mod_eq_of_lt (two_pow_slot_lt h h2)]
    have : ({ s with sched_ready := 2 ^ (h - 1) } : sched_t) = s := by rw [← hs]
    rw [this]
    exact ih

theorem set_ready_times_idle (s : sched_t) (h : Nat) (h1 : 1 ≤ h) (h2 : h ≤ TASK_NR)
    (n : Nat) (hs : s.sched_ready = 0) :
    set_ready_times s (h : Int) (n + 1) = some { s with sched_ready := 2 ^ (h - 1) } := by
  unfold set_ready_times
  rw [set_ready_in_range s h h1 h2, hs, Nat.zero_or, Nat.mod_eq_of_lt (two_pow_slot_lt h h2)]
  exact set_ready_times_marked _ h h1 h2 n rfl

theorem clear_only_bit (h : Nat) (h2 : h ≤ TASK_NR) :
    2 ^ (h - 1) &&& ((2 ^ 32 - 1) ^^^ (1 <<< (h - 1))) = 0 := by
  simp only [TASK_NR] at h2
  apply Nat.eq_of_testBit_eq
  intro i
  simp only [Nat.testBit_and, Nat.testBit_xor, Nat.testBit_two_pow_sub_one, Nat.one_shiftLeft,
    Nat.testBit_two_pow, Nat.zero_testBit]
  by_cases e : h - 1 = i
  · have : i < 32 := by omega
    simp [e, this]
  · simp [e]

/-- C10: from a state in which no task is ready, `sched_set_ready(h)` for a registered task
`h`, called once or repeatedly, marks exactly the bit of `h`; one scheduler pass then makes
exactly one call, of the function of `h` with its registered context, on a state in which the
bit of `h` is already clear.  After the pass the bit is clear when the function leaves the
ready mask alone, and is set when the function ends by calling `sched_set_ready(h)`. -/
theorem sched_set_ready_then_pass (exec : Nat → Nat → sched_t → sched_t) (s : sched_t)
    (h n : Nat) (hidle : s.sched_ready = 0) (h1 : 1 ≤ h) (h2 : h ≤ TASK_NR)
    (hfun : (slot s (h - 1)).func ≠ 0) :
    set_ready_times s (h : Int) (n + 1) = some { s with sched_ready := 2 ^ (h - 1) } ∧
    sched_run_next exec { s with sched_ready := 2 ^ (h - 1) } =
      some (((exec (slot s (h - 1)).func (slot s (h - 1)).data
                { s with sched_ready := 0, current := h - 1 }).current : Int),
        exec (slot s (h - 1)).func (slot s (h - 1)).data
          { s with sched_ready := 0, current := h - 1 },
        [((slot s (h - 1)).func, (slot s (h - 1)).data)]) ∧
    ((exec (slot s (h - 1)).func (slot s (h - 1)).data
          { s with sched_ready := 0, current := h - 1 }).sched_ready =
        ({ s with sched_ready := 0, current := h - 1 } : sched_t).sched_ready →
      (exec (slot s (h - 1)).func (slot s (h - 1)).data
          { s with sched_ready := 0, current := h - 1 }).sched_ready.testBit (h - 1) = false) ∧
    (∀ pre : sched_t,
      sched_set_ready pre (h : Int) =
          some (exec (slot s (h - 1)).func (slot s (h - 1)).data
            { s with sched_ready := 0, current := h - 1 }) →
      (exec (slot s (h - 1)).func (slot s (h - 1)).data
          { s with sched_ready := 0, current := h - 1 }).sched_ready.testBit (h - 1) = true) := by
  have h2' : h ≤ 10 := h2
  refine ⟨set_ready_times_idle s h h1 h2 n hidle, ?_, ?_, ?_⟩
  · -- the distance from `current` to the slot of `h`
    obtain ⟨d, hd1, hd2, hd⟩ : ∃ d, 1 ≤ d ∧ d ≤ TASK_NR ∧ (s.current + d) % TASK_NR = h - 1 := by
      simp only [TASK_NR]
      by_cases e : (h - 1 + 10 - s.current % 10) % 10 = 0
      · exact ⟨10, by omega, by omega, by omega⟩
      · exact ⟨(h - 1 + 10 - s.current % 10) % 10, by omega, by omega, by omega⟩
    have hbits : ∀ i, (2 ^ (h - 1)).testBit i = decide (h - 1 = i) := fun i =>
      Nat.testBit_two_pow
    have p := (run_next_at exec { s with sched_ready := 2 ^ (h - 1) } d hd1 hd2
      (by show (2 ^ (h - 1)).testBit ((s.current + d) % TASK_NR) = true
          rw [hd, hbits]; simp)
      (fun e he1 he2 => by
        show (2 ^ (h - 1)).testBit ((s.current + e) % TASK_NR) = false
        rw [hbits]
        have : h - 1 ≠ (s.current + e) % TASK_NR := by
          simp only [TASK_NR] at hd hd2 ⊢
          omega
        simp [this])
      (by show (slot s ((s.current + d) % TASK_NR)).func ≠ 0
          rw [hd]; exact hfun)).2
    have hst : sched_set_blocked
        { ({ s with sched_ready := 2 ^ (h - 1) } : sched_t) with
            current := (s.current + d) % TASK_NR } ((s.current + d) % TASK_NR) =
        { s with sched_ready := 0, current := h - 1 } := by
      simp only [sched_set_blocked, hd, clear_only_bit h h2]
    have hsl : ∀ i, slot ({ s with sched_ready := 2 ^ (h - 1) } : sched_t) i = slot s i :=
      fun i => rfl
    simp only [hsl] at p
    have hcur : ({ s with sched_ready := 2 ^ (h - 1) } : sched_t).current = s.current := rfl
    rw [hcur] at p hst
    rw [hst, hd] at p
    exact p
  · intro h0
    rw [h0]
    exact Nat.zero_testBit _
  · intro pre hpre
    rw [set_ready_in_range pre h h1 h2] at hpre
    have := (Option.some.inj hpre).symm
    rw [this]
    show ((pre.sched_ready ||| 2 ^ (h - 1)) % 2 ^ 32).testBit (h - 1) = true
    rw [Nat.testBit_mod_two_pow, Nat.testBit_or, Nat.testBit_two_pow_self]
    have : h - 1 < 32 := by omega
    simp [this]

theorem sched_set_ready_then_pass_witness :
    set_ready_times abc_idle ((2 : Nat) : Int) (2 + 1) =
      some { abc_idle with sched_ready := 2 ^ (2 - 1) } ∧
    sched_run_next quiet_exec { abc_idle with sched_ready := 2 ^ (2 - 1) } =
      some (((quiet_exec (slot abc_idle (2 - 1)).func (slot abc_idle (2 - 1)).data
                { abc_idle with sched_ready := 0, current := 2 - 1 }).current : Int),
        quiet_exec (slot abc_idle (2 - 1)).func (slot abc_idle (2 - 1)).data
          { abc_idle with sched_ready := 0, current := 2 - 1 },
        [((slot abc_idle (2 - 1)).func, (slot abc_idle (2 - 1)).data)]) :=
  ⟨(sched_set_ready_then_pass quiet_exec abc_idle 2 2 rfl (by decide) (by decide)
      (by decide)).1,
   (sched_set_ready_then_pass quiet_exec abc_idle 2 2 rfl (by decide) (by decide)
      (by decide)).2.1⟩

theorem ready_ok_set_blocked (s : sched_t) (k c : Nat) (h : ready_ok s) :
    ready_ok (sched_set_blocked { s with current := c } k) := by
  intro i hi hb
  have hi32 : i < 32 := by simp only [TASK_NR] at hi; omega
  rw [testBit_set_blocked _ _ _ hi32] at hb
  have hb1 : s.sched_ready.testBit i = true := by
    revert hb
    show (s.sched_ready.testBit i && _) = true → _
    cases s.sched_ready.testBit i <;> simp
  exact h i hi hb1

/-- The first ready slot after `current`, found by distance. -/
theorem first_ready (s : sched_t) (d : Nat) (h1 : 1 ≤ d)
    (hbit : s.sched_ready.testBit ((s.current + d) % TASK_NR) = true) :
    ∃ e, 1 ≤ e ∧ e ≤ d ∧ s.sched_ready.testBit ((s.current + e) % TASK_NR) = true ∧
      ∀ e', 1 ≤ e' → e' < e → s.sched_ready.testBit ((s.current + e') % TASK_NR) = false := by
  have hex : ∃ e, 1 ≤ e ∧ s.sched_ready.testBit ((s.current + e) % TASK_NR) = true :=
    ⟨d, h1, hbit⟩
  refine ⟨Nat.find hex, (Nat.find_spec hex).1, Nat.find_min' hex ⟨h1, hbit⟩,
    (Nat.find_spec hex).2, ?_⟩
  intro e' he1 he2
  have := Nat.find_min hex he2
  by_contra hne
  exact this ⟨he1, by simpa using hne⟩

theorem sweep_aux (exec : Nat → Nat → sched_t → sched_t) (j : Nat) (hj : j < TASK_NR)
    (hcur : ∀ f d st, (exec f d st).current = st.current)
    (hkeep : ∀ f d st, st.sched_ready.testBit j = true →
      (exec f d st).sched_ready.testBit j = true ∧ slot (exec f d st) j = slot st j)
    (hok : ∀ f d st, ready_ok st → ready_ok (exec f d st)) :
    ∀ d s, 1 ≤ d → d ≤ TASK_NR → (s.current + d) % TASK_NR = j →
      s.sched_ready.testBit j = true → ready_ok s →
      ∃ n, n < d ∧ ∃ s1 rs cs s2, sched_passes exec n s = some (s1, rs, cs) ∧
        sched_run_next exec s1 =
          some ((j : Int), s2, [((slot s j).func, (slot s j).data)]) := by
  intro d
  induction d using Nat.strong_induction_on with
  | _ d ih =>
    intro s h1 h2 hd hbit hreg
    obtain ⟨e, he1, he2, hebit, hemin⟩ := first_ready s d h1 (by rw [hd]; exact hbit)
    have hk : (s.current + e) % TASK_NR < TASK_NR := Nat.mod_lt _ (by decide)
    have hfun := hreg _ hk hebit
    have hrun := (run_next_at exec s e he1 (by omega) hebit hemin hfun).2
    by_cases hed : e = d
    · subst hed
      rw [hd] at hrun
      refine ⟨0, by omega, s, [], [],
        exec (slot s j).func (slot s j).data (sched_set_blocked { s with current := j } j),
        rfl, ?_⟩
      rw [hrun, hcur]
      rfl
    · have hlt : e < d := by omega
      have hne : (s.current + e) % TASK_NR ≠ j := by
        simp only [TASK_NR] at hd h2 ⊢
        omega
      have hbit1 : (sched_set_blocked { s with current := (s.current + e) % TASK_NR }
          ((s.current + e) % TASK_NR)).sched_ready.testBit j = true := by
        rw [testBit_set_blocked _ _ _ (by simp only [TASK_NR] at hj; omega)]
        show (s.sched_ready.testBit j && _) = true
        rw [hbit]
        simpa using fun h => hne h.symm
      have hk1 := hkeep (slot s ((s.current + e) % TASK_NR)).func
        (slot s ((s.current + e) % TASK_NR)).data _ hbit1
      have hreg1 := hok (slot s ((s.current + e) % TASK_NR)).func
        (slot s ((s.current + e) % TASK_NR)).data _
        (ready_ok_set_blocked s ((s.current + e) % TASK_NR) ((s.current + e) % TASK_NR) hreg)
      have hc1 := hcur (slot s ((s.current + e) % TASK_NR)).func
        (slot s ((s.current + e) % TASK_NR)).data
        (sched_set_blocked { s with current := (s.current + e) % TASK_NR }
          ((s.current + e) % TASK_NR))
      have hc2 : (sched_set_blocked { s with current := (s.current + e) % TASK_NR }
          ((s.current + e) % TASK_NR)).current = (s.current + e) % TASK_NR := rfl
      rw [hc2] at hc1
      obtain ⟨n, hn, s1, rs, cs, s2, hp, hlast⟩ := ih (d - e) (by omega) _ (by omega) (by omega)
        (by rw [hc1]; simp only [TASK_NR] at hd h2 ⊢; omega) hk1.1 hreg1
      rw [hk1.2] at hlast
      have hp2 : sched_passes exec (n + 1) s =
          some (s1, (((s.current + e) % TASK_NR : Nat) : Int) :: rs,
            [((slot s ((s.current + e) % TASK_NR)).func,
              (slot s ((s.current + e) % TASK_NR)).data)] ++ cs) := by
        simp only [sched_passes, hrun, hp, hc1]
      exact ⟨n + 1, by omega, s1, _, _, s2, hp2, hlast⟩

theorem find_loop_bit (ready : Nat) (n i : Nat) (r : Nat)
    (h : sched_find_next_loop ready n i = (r : Int)) : ready.testBit r = true := by
  induction n generalizing i with
  | zero => simp [sched_find_next_loop] at h
  | succ n ih =>
    unfold sched_find_next_loop at h
    simp only [] at h
    by_cases hb : ready &&& (1 <<< (i % TASK_NR)) ≠ 0
    · rw [if_pos hb] at h
      have : i % TASK_NR = r := by exact_mod_cast h
      rw [← this]
      exact (and_bit_ne_zero _ _).mp hb
    · rw [if_neg hb] at h
      exact ih (i + 1) h

theorem find_next_ne_of_clear (s : sched_t) (k : Nat) (hb : s.sched_ready.testBit k = false) :
    sched_find_next s ≠ (k : Int) := by
  intro h
  have := find_loop_bit _ _ _ _ h
  rw [hb] at this
  exact Bool.noConfusion this

/-- C11: if the task in slot `j` is registered and ready, every ready slot of the table is
registered, and no task function changes `current`, un-readies or alters slot `j`, or
leaves a ready slot unregistered (so `j` is not deleted, while other tasks may be re-marked
ready at will), then after fewer than `TASK_NR` passes the next pass runs slot `j`: its
function is invoked with its context within `TASK_NR` consecutive passes. -/
theorem sched_ready_runs_within_sweep (exec : Nat → Nat → sched_t → sched_t) (s : sched_t)
    (j : Nat) (hj : j < TASK_NR) (hbit : s.sched_ready.testBit j = true) (hreg : ready_ok s)
    (hcur : ∀ f d st, (exec f d st).current = st.current)
    (hkeep : ∀ f d st, st.sched_ready.testBit j = true →
      (exec f d st).sched_ready.testBit j = true ∧ slot (exec f d st) j = slot st j)
    (hok : ∀ f d st, ready_ok st → ready_ok (exec f d st)) :
    ∃ n, n < TASK_NR ∧ ∃ s1 rs cs s2, sched_passes exec n s = some (s1, rs, cs) ∧
      sched_run_next exec s1 = some ((j : Int), s2, [((slot s j).func, (slot s j).data)]) := by
  obtain ⟨d, hd1, hd2, hd⟩ : ∃ d, 1 ≤ d ∧ d ≤ TASK_NR ∧ (s.current + d) % TASK_NR = j := by
    simp only [TASK_NR] at hj ⊢
    by_cases e : (j + 10 - s.current % 10) % 10 = 0
    · exact ⟨10, by omega, by omega, by omega⟩
    · exact ⟨(j + 10 - s.current % 10) % 10, by omega, by omega, by omega⟩
  obtain ⟨n, hn, h⟩ := sweep_aux exec j hj hcur hkeep hok d s hd1 hd2 hd hbit hreg
  exact ⟨n, by omega, h⟩

theorem abc_ready_ok : ready_ok abc := by
  intro i hi hb
  simp only [TASK_NR] at hi
  interval_cases i <;> revert hb <;> decide

theorem sched_ready_runs_within_sweep_witness :
    ∃ n, n < TASK_NR ∧ ∃ s1 rs cs s2, sched_passes quiet_exec n abc = some (s1, rs, cs) ∧
      sched_run_next quiet_exec s1 =
        some (((0 : Nat) : Int), s2, [((slot abc 0).func, (slot abc 0).data)]) :=
  sched_ready_runs_within_sweep quiet_exec abc 0 (by decide) (by decide) abc_ready_ok
    (fun _ _ _ => rfl) (fun _ _ _ h => ⟨h, rfl⟩) (fun _ _ _ h => h)

/-- C12: `sched_del_task(h)` for a handle in `1..TASK_NR` whose slot is occupied returns 0,
zeroes that slot, clears its ready bit and leaves every other slot, every other ready bit
and `current` unchanged; the next pass does not pick the slot, and no pass that completes
picks it while it stays empty; for a handle in range whose slot is empty it returns -1 and
changes nothing. -/
theorem sched_del_task_contract (exec : Nat → Nat → sched_t → sched_t) (s : sched_t) (h : Nat)
    (h1 : 1 ≤ h) (h2 : h ≤ TASK_NR) :
    ((slot s (h - 1)).func ≠ 0 →
      ∃ s1, sched_del_task s (h : Int) = some (0, s1) ∧
        slot s1 (h - 1) = zero_task ∧
        s1.sched_ready.testBit (h - 1) = false ∧
        (∀ i, i ≠ h - 1 → slot s1 i = slot s i) ∧
        (∀ i, i < 32 → i ≠ h - 1 → s1.sched_ready.testBit i = s.sched_ready.testBit i) ∧
        s1.current = s.current ∧
        sched_find_next s1 ≠ ((h - 1 : Nat) : Int)) ∧
    (∀ t r t2 c, (slot t (h - 1)).func = 0 → sched_run_next exec t = some (r, t2, c) →
      sched_find_next t ≠ ((h - 1 : Nat) : Int)) ∧
    ((slot s (h - 1)).func = 0 → sched_del_task s (h : Int) = some (-1, s)) := by
  have h2' : h ≤ 10 := h2
  have e : ((h : Int) - 1).toNat = h - 1 := by omega
  have hr : (h : Int) - 1 ≥ 0 ∧ (h : Int) - 1 < (TASK_NR : Int) := by
    simp only [TASK_NR]; omega
  refine ⟨?_, ?_, ?_⟩
  · intro hf
    have hlen : h - 1 < s.task_list.length := by
      by_contra hn
      apply hf
      have : s.task_list.getD (h - 1) zero_task = zero_task :=
        List.getD_eq_default _ _ (by omega)
      show (s.task_list.getD (h - 1) zero_task).func = 0
      rw [this]
      rfl
    have hbit : ∀ i, i < 32 →
        ({ sched_set_blocked s (h - 1) with
            task_list := s.task_list.set (h - 1) zero_task } : sched_t).sched_ready.testBit i =
          (s.sched_ready.testBit i && decide (i ≠ h - 1)) := fun i hi =>
      testBit_set_blocked s (h - 1) i hi
    refine ⟨{ sched_set_blocked s (h - 1) with task_list := s.task_list.set (h - 1) zero_task },
      ?_, ?_, ?_, ?_, ?_, rfl, ?_⟩
    · simp only [sched_del_task, e]
      rw [if_pos hr, if_neg hf]
      rfl
    · show (s.task_list.set (h - 1) zero_task).getD (h - 1) zero_task = zero_task
      simp [List.getD_eq_getElem?_getD, List.getElem?_set, hlen]
    · rw [hbit _ (by omega)]
      simp
    · intro i hi
      have hi2 : ¬ h - 1 = i := fun x => hi x.symm
      show (s.task_list.set (h - 1) zero_task).getD i zero_task = s.task_list.getD i zero_task
      simp [List.getD_eq_getElem?_getD, List.getElem?_set, hi2]
    · intro i hi32 hi
      rw [hbit _ hi32]
      simp [hi]
    · exact find_next_ne_of_clear _ (h - 1) (by rw [hbit _ (by omega)]; simp)
  · intro t r t2 c hf hrun hfind
    unfold sched_run_next at hrun
    by_cases h0 : t.sched_ready = 0
    · have hb : t.sched_ready.testBit (h - 1) = false := by rw [h0]; exact Nat.zero_testBit _
      exact find_next_ne_of_clear t (h - 1) hb hfind
    · rw [if_neg h0] at hrun
      simp only [hfind] at hrun
      rw [if_neg (by omega)] at hrun
      simp only [Int.toNat_ofNat] at hrun
      have hsl : slot (sched_set_blocked { t with current := h - 1 } (h - 1)) (h - 1) =
          slot t (h - 1) := rfl
      have hcu : (sched_set_blocked { t with current := h - 1 } (h - 1)).current = h - 1 := rfl
      simp only [hcu, hsl, hf] at hrun
      simp at hrun
  · intro hf
    simp only [sched_del_task, e]
    rw [if_pos hr, if_pos hf]

theorem sched_del_task_contract_witness :
    (∃ s1, sched_del_task abc ((2 : Nat) : Int) = some (0, s1) ∧
        slot s1 (2 - 1) = zero_task ∧
        s1.sched_ready.testBit (2 - 1) = false ∧
        (∀ i, i ≠ 2 - 1 → slot s1 i = slot abc i) ∧
        (∀ i, i < 32 → i ≠ 2 - 1 → s1.sched_ready.testBit i = abc.sched_ready.testBit i) ∧
        s1.current = abc.current ∧
        sched_find_next s1 ≠ ((2 - 1 : Nat) : Int)) ∧
    sched_del_task abc ((5 : Nat) : Int) = some (-1, abc) :=
  ⟨(sched_del_task_contract quiet_exec abc 2 (by decide) (by decide)).1 (by decide),
   (sched_del_task_contract quiet_exec abc 5 (by decide) (by decide)).2.2 (by decide)⟩

end Sched

namespace Irq

theorem is_chain_set {mem : List irq_action} {l : List Nat} (a : Nat) (y : irq_action) :
    ∀ {h : Option Nat}, is_chain mem h l → a ∉ l → is_chain (mem.set a y) h l := by
  induction l with
  | nil => intro h hc _; exact hc
  | cons b l ih =>
    intro h hc ha
    obtain ⟨h1, x, hx, hrest⟩ := hc
    have hab : a ≠ b := fun e => ha (by rw [e]; exact List.mem_cons_self _ _)
    refine ⟨h1, x, ?_, ih hrest (fun hm => ha (List.mem_cons_of_mem _ hm))⟩
    rw [List.getElem?_set, if_neg hab]
    exact hx

theorem is_chain_lt {mem : List irq_action} {l : List Nat} :
    ∀ {h : Option Nat}, is_chain mem h l → ∀ a ∈ l, a < mem.length := by
  induction l with
  | nil => intro h _ a ha; simp at ha
  | cons b l ih =>
    intro h hc a ha
    obtain ⟨_, x, hx, hrest⟩ := hc
    rcases List.mem_cons.mp ha with e | hm
    · rw [e]
      by_contra hn
      rw [List.getElem?_eq_none (by omega)] at hx
      exact Option.noConfusion hx
    · exact ih hrest a hm

theorem chain_from_of_is_chain {mem : List irq_action} {l : List Nat} :
    ∀ {h : Option Nat} (fuel : Nat), is_chain mem h l → l.length ≤ fuel →
      chain_from mem fuel h = some l := by
  induction l with
  | nil =>
    intro h fuel hc _
    have : h = none := hc
    subst this
    cases fuel <;> rfl
  | cons b l ih =>
    intro h fuel hc hlen
    obtain ⟨h1, x, hx, hrest⟩ := hc
    subst h1
    cases fuel with
    | zero => simp at hlen
    | succ fuel =>
      simp only [chain_from, hx]
      rw [ih fuel hrest (by simpa using hlen)]
      rfl

theorem nodup_length_le {l : List Nat} {n : Nat} (hnd : l.Nodup) (hlt : ∀ a ∈ l, a < n) :
    l.length ≤ n := by
  have hsub : l ⊆ List.range n := fun a ha => List.mem_range.mpr (hlt a ha)
  have := (List.subperm_of_subset hnd hsub).length_le
  simpa using this

theorem last_action_of_chain {mem : List irq_action} {l : List Nat} :
    ∀ {a : Nat} (fuel : Nat) (z : Nat), is_chain mem (some a) l → l.length ≤ fuel →
      l.getLast? = some z → last_action mem fuel a = some z := by
  induction l with
  | nil => intro a fuel z hc; exact Option.noConfusion hc
  | cons b l ih =>
    intro a fuel z hc hlen hz
    obtain ⟨h1, x, hx, hrest⟩ := hc
    have hab : a = b := Option.some.inj h1
    subst hab
    cases fuel with
    | zero => simp at hlen
    | succ fuel =>
      simp only [last_action, hx]
      cases l with
      | nil =>
        have hn : x.next = none := hrest
        rw [hn]
        simpa using hz
      | cons c l1 =>
        have hn : x.next = some c := hrest.1
        rw [hn]
        rw [hn] at hrest
        exact ih fuel z hrest (by simpa using hlen) (by simpa [List.getLast?_cons_cons] using hz)

theorem is_chain_append {mem : List irq_action} {l : List Nat} (p z : Nat) (ap : irq_action)
    (hp : mem[p]? = some ap) (hnext : ap.next = none) :
    ∀ {h : Option Nat}, is_chain mem h l → (l ++ [p]).Nodup → l.getLast? = some z →
      is_chain (set_next mem z (some p)) h (l ++ [p]) := by
  induction l with
  | nil => intro h _ _ hz; simp at hz
  | cons b l ih =>
    intro h hc hnd hz
    obtain ⟨h1, x, hx, hrest⟩ := hc
    have hbp : b ≠ p := by
      intro e
      rw [e] at hnd
      simp at hnd
    cases l with
    | nil =>
      have hzb : z = b := by simpa using hz.symm
      subst hzb
      have hn : x.next = none := hrest
      have hlt : z < mem.length := by
        by_contra hn2
        rw [List.getElem?_eq_none (by omega)] at hx
        exact Option.noConfusion hx
      have hmem : set_next mem z (some p) = mem.set z { x with next := some p } := by
        simp only [set_next, hx]
      rw [hmem]
      refine ⟨h1, { x with next := some p }, ?_, rfl, ap, ?_, ?_⟩
      · rw [List.getElem?_set]
        simp [hlt]
      · rw [List.getElem?_set, if_neg hbp]
        exact hp
      · exact hnext
    | cons c l1 =>
      have hz1 : (c :: l1).getLast? = some z := by
        simpa [List.getLast?_cons_cons] using hz
      have hnd1 : ((c :: l1) ++ [p]).Nodup := by
        have : (b :: ((c :: l1) ++ [p])).Nodup := by simpa using hnd
        exact (List.nodup_cons.mp this).2
      have hzmem : z ∈ c :: l1 := List.mem_of_getLast?_eq_some hz1
      have hbz : z ≠ b := by
        intro e
        have : (b :: ((c :: l1) ++ [p])).Nodup := by simpa using hnd
        have hnot := (List.nodup_cons.mp this).1
        apply hnot
        rw [← e]
        exact List.mem_append_left _ hzmem
      have hrec := ih hrest hnd1 hz1
      refine ⟨h1, x, ?_, hrec⟩
      unfold set_next
      cases hzx : mem[z]? with
      | none => exact hx
      | some y =>
        show (mem.set z _)[b]? = some x
        rw [List.getElem?_set, if_neg hbz]
        exact hx


theorem getElem?_lt {mem : List irq_action} {a : Nat} {x : irq_action}
    (h : mem[a]? = some x) : a < mem.length := by
  by_contra hn
  rw [List.getElem?_eq_none (by omega)] at h
  exact Option.noConfusion h

theorem user_fields_set (mem : List irq_action) (a : Nat) (x y : irq_action)
    (hx : mem[a]? = some x) (hy : user_fields y = user_fields x) (q : Nat) :
    ((mem.set a y)[q]?).map user_fields = (mem[q]?).map user_fields := by
  rw [List.getElem?_set]
  by_cases e : a = q
  · subst e
    rw [if_pos rfl, if_pos (getElem?_lt hx), hx]
    simp [hy]
  · rw [if_neg e]

theorem user_fields_set_next (mem : List irq_action) (a : Nat) (n : Option Nat) (q : Nat) :
    ((set_next mem a n)[q]?).map user_fields = (mem[q]?).map user_fields := by
  unfold set_next
  cases hx : mem[a]? with
  | none => rfl
  | some x => exact user_fields_set mem a x { x with next := n } hx rfl q

/-- One successful `irq_request` appends the action to the chain of its line. -/
theorem request_step (N : Nat) (s : irq_t) (line : Nat) (done : List Nat) (p : Nat)
    (a : irq_action) (d : irq_desc) (hlenN : s.irq_desc.length = N) (hline : line < N)
    (hd : s.irq_desc[line]? = some d) (hch : is_chain s.mem d.action done)
    (hnd : (done ++ [p]).Nodup) (hp : s.mem[p]? = some a) (hh : a.handler ≠ 0)
    (hi : a.irq = line) (hn : a.name ≠ none) :
    ∃ s1 d1, irq_request N s (some p) = some (0, s1) ∧ s1.irq_desc.length = N ∧
      s1.irq_desc[line]? = some d1 ∧ d1.handle_irq = irq_flow_handler_t.irq_handle ∧
      is_chain s1.mem d1.action (done ++ [p]) ∧
      (∀ q : Nat, (s1.mem[q]?).map user_fields = (s.mem[q]?).map user_fields) := by
  subst hi
  have hplt := getElem?_lt hp
  have hpn : p ∉ done := by
    intro hm
    have := List.nodup_append.mp hnd
    exact this.2.2 hm (List.mem_singleton_self p)
  have hdn : done.Nodup := (List.nodup_append.mp hnd).1
  have hlineL : a.irq < s.irq_desc.length := by omega
  have hmem1 : (s.mem.set p { a with next := none })[p]? = some { a with next := none } := by
    rw [List.getElem?_set]; simp [hplt]
  have hch1 : is_chain (s.mem.set p { a with next := none }) d.action done :=
    is_chain_set p _ hch hpn
  have hf1 : ∀ q : Nat, ((s.mem.set p { a with next := none })[q]?).map user_fields =
      (s.mem[q]?).map user_fields := user_fields_set s.mem p a _ hp rfl
  have hset : ∀ y : irq_desc, (s.irq_desc.set a.irq y)[a.irq]? = some y := by
    intro y
    rw [List.getElem?_set]; simp [hlineL]
  cases hda : d.action with
  | none =>
    have hdone : done = [] := by
      cases done with
      | nil => rfl
      | cons b l =>
        rw [hda] at hch
        exact Option.noConfusion hch.1
    subst hdone
    refine ⟨{ irq_desc := s.irq_desc.set a.irq
                { handle_irq := irq_flow_handler_t.irq_handle, action := some p }
              mem := s.mem.set p { a with next := none } },
      { handle_irq := irq_flow_handler_t.irq_handle, action := some p },
      ?_, by simp [hlenN], hset _, rfl, ⟨rfl, _, hmem1, rfl⟩, hf1⟩
    unfold irq_request
    simp only [hp, hd, hda]
    rw [if_neg hh, if_neg (by omega), if_neg hn]
  | some head =>
    rw [hda] at hch hch1
    obtain ⟨z, hz⟩ : ∃ z, done.getLast? = some z := by
      cases done with
      | nil => exact Option.noConfusion hch
      | cons b l => exact ⟨_, List.getLast?_eq_getLast _ (by simp)⟩
    have hlen : done.length ≤ (s.mem.set p { a with next := none }).length :=
      nodup_length_le hdn (is_chain_lt hch1)
    have hlast := last_action_of_chain _ z hch1 hlen hz
    refine ⟨{ irq_desc := s.irq_desc.set a.irq
                { handle_irq := irq_flow_handler_t.irq_handle, action := some head }
              mem := set_next (s.mem.set p { a with next := none }) z (some p) },
      { handle_irq := irq_flow_handler_t.irq_handle, action := some head },
      ?_, by simp [hlenN], hset _, rfl, is_chain_append p z _ hmem1 rfl hch1 hnd hz, ?_⟩
    · unfold irq_request
      simp only [hp, hd, hda, hlast]
      rw [if_neg hh, if_neg (by omega), if_neg hn]
    · intro q
      show ((set_next _ z (some p))[q]?).map user_fields = _
      rw [user_fields_set_next, hf1]

/-- Successive requests for distinct actions of one line build the chain in order. -/
theorem request_all_chain (N : Nat) (line : Nat) (hline : line < N) (todo : List Nat) :
    ∀ (s : irq_t) (done : List Nat) (d : irq_desc), s.irq_desc.length = N →
      s.irq_desc[line]? = some d → is_chain s.mem d.action done →
      (done ≠ [] → d.handle_irq = irq_flow_handler_t.irq_handle) →
      (done ++ todo).Nodup →
      (∀ p ∈ todo, ∃ a, s.mem[p]? = some a ∧ a.handler ≠ 0 ∧ a.irq = line ∧ a.name ≠ none) →
      ∃ s1 d1, irq_request_all N s todo = some (todo.map (fun _ => 0), s1) ∧
        s1.irq_desc[line]? = some d1 ∧ is_chain s1.mem d1.action (done ++ todo) ∧
        (done ++ todo ≠ [] → d1.handle_irq = irq_flow_handler_t.irq_handle) ∧
        (∀ q : Nat, (s1.mem[q]?).map user_fields = (s.mem[q]?).map user_fields) := by
  induction todo with
  | nil =>
    intro s done d _ hd hch hh _ _
    exact ⟨s, d, rfl, hd, by simpa using hch, by simpa using hh, fun _ => rfl⟩
  | cons p todo ih =>
    intro s done d hlenN hd hch hh hnd hact
    obtain ⟨a, hp, hha, hia, hna⟩ := hact p (List.mem_cons_self _ _)
    have hnd1 : (done ++ [p]).Nodup := by
      have : ((done ++ [p]) ++ todo).Nodup := by simpa using hnd
      exact (List.nodup_append.mp this).1
    obtain ⟨s1, d1, hreq, hlen1, hd1, hh1, hch1, hf1⟩ :=
      request_step N s line done p a d hlenN hline hd hch hnd1 hp hha hia hna
    have hact1 : ∀ q ∈ todo, ∃ b, s1.mem[q]? = some b ∧ b.handler ≠ 0 ∧ b.irq = line ∧
        b.name ≠ none := by
      intro q hq
      obtain ⟨b, hb, hhb, hib, hnb⟩ := hact q (List.mem_cons_of_mem _ hq)
      have hfq := hf1 q
      rw [hb] at hfq
      cases hb1 : s1.mem[q]? with
      | none => rw [hb1] at hfq; exact Option.noConfusion hfq
      | some b1 =>
        rw [hb1] at hfq
        have e : user_fields b1 = user_fields b := Option.some.inj hfq
        simp only [user_fields, Prod.mk.injEq] at e
        exact ⟨b1, rfl, by rw [e.1]; exact hhb, by rw [e.2.1]; exact hib,
          by rw [e.2.2.1]; exact hnb⟩
    obtain ⟨s2, d2, hall, hd2, hch2, hh2, hf2⟩ :=
      ih s1 (done ++ [p]) d1 hlen1 hd1 hch1 (fun _ => hh1) (by simpa using hnd) hact1
    refine ⟨s2, d2, ?_, hd2, by simpa using hch2, by simpa using hh2,
      fun q => by rw [hf2, hf1]⟩
    simp only [irq_request_all, hreq, hall, List.map_cons]

/-- A dispatch over a chain whose handlers leave the manager state alone calls every
handler of the chain once, in chain order. -/
theorem handle_loop_chain (hexec : Nat → Nat → Nat → irq_t → Nat × irq_t)
    (hq : ∀ f i dat st, (hexec f i dat st).2 = st) (irq : Nat) (s : irq_t) (l : List Nat) :
    ∀ (h : Option Nat) (fuel retval : Nat) (calls : List (Nat × Nat × Nat)),
      is_chain s.mem h l → (∀ a ∈ l, (action_at s a).handler ≠ 0) → l.length ≤ fuel →
      ∃ rv, irq_handle_loop hexec irq fuel h s retval calls =
        some (s, rv,
          calls ++ l.map (fun a => ((action_at s a).handler, irq, (action_at s a).data))) := by
  induction l with
  | nil =>
    intro h fuel retval calls hc _ _
    have : h = none := hc
    subst this
    refine ⟨retval, ?_⟩
    cases fuel <;> simp [irq_handle_loop]
  | cons b l ih =>
    intro h fuel retval calls hc hh hlen
    obtain ⟨h1, x, hx, hrest⟩ := hc
    subst h1
    have hat : action_at s b = x := by
      simp [action_at, List.getD_eq_getElem?_getD, hx]
    have hhb := hh b (List.mem_cons_self _ _)
    rw [hat] at hhb
    cases fuel with
    | zero => simp at hlen
    | succ fuel =>
      obtain ⟨rv, hrv⟩ := ih x.next fuel (retval ||| (hexec x.handler irq x.data s).1)
        (calls ++ [(x.handler, irq, x.data)]) hrest
        (fun a ha => hh a (List.mem_cons_of_mem _ ha)) (by simpa using hlen)
      refine ⟨rv, ?_⟩
      simp only [irq_handle_loop, hx, hq, if_neg hhb]
      rw [hrv, List.map_cons, hat, List.append_assoc]
      rfl


/-! ## The claims about the interrupt manager -/

/-- C13: `irq_request` returns -1 when the handler of the action is null, otherwise -2 when
its line number is at least `NVIC_IRQ_COUNT`, otherwise -3 when its name is null; in each
case the whole state (line descriptors, chains, every field of every action) is returned
unchanged. -/
theorem irq_request_rejects (N : Nat) (s : irq_t) (p : Nat) (a : irq_action)
    (hp : s.mem[p]? = some a) :
    (a.handler = 0 → irq_request N s (some p) = some (-1, s)) ∧
    (a.handler ≠ 0 → a.irq ≥ N → irq_request N s (some p) = some (-2, s)) ∧
    (a.handler ≠ 0 → a.irq < N → a.name = none → irq_request N s (some p) = some (-3, s)) := by
  refine ⟨?_, ?_, ?_⟩
  · intro h
    simp only [irq_request, hp]
    rw [if_pos h]
  · intro h1 h2
    simp only [irq_request, hp]
    rw [if_neg h1, if_pos h2]
  · intro h1 h2 h3
    simp only [irq_request, hp]
    rw [if_neg h1, if_neg (by omega), if_pos h3]

theorem irq_request_rejects_witness :
    irq_request 2 (one_action no_handler) (some 0) = some (-1, one_action no_handler) ∧
    irq_request 2 (one_action bad_line) (some 0) = some (-2, one_action bad_line) ∧
    irq_request 2 (one_action no_name) (some 0) = some (-3, one_action no_name) :=
  ⟨(irq_request_rejects 2 (one_action no_handler) 0 no_handler rfl).1 rfl,
   (irq_request_rejects 2 (one_action bad_line) 0 bad_line rfl).2.1 (by decide) (by decide),
   (irq_request_rejects 2 (one_action no_name) 0 no_name rfl).2.2 (by decide) (by decide) rfl⟩

theorem action_at_fields {s s1 : irq_t}
    (hf : ∀ q : Nat, (s1.mem[q]?).map user_fields = (s.mem[q]?).map user_fields) (p : Nat) :
    (action_at s1 p).handler = (action_at s p).handler ∧
    (action_at s1 p).data = (action_at s p).data := by
  have h := hf p
  simp only [action_at, List.getD_eq_getElem?_getD]
  cases h1 : s1.mem[p]? with
  | none =>
    cases h2 : s.mem[p]? with
    | none => exact ⟨rfl, rfl⟩
    | some b => rw [h1, h2] at h; exact Option.noConfusion h
  | some b1 =>
    cases h2 : s.mem[p]? with
    | none => rw [h1, h2] at h; exact Option.noConfusion h
    | some b =>
      rw [h1, h2] at h
      have e : user_fields b1 = user_fields b := Option.some.inj h
      simp only [user_fields, Prod.mk.injEq] at e
      exact ⟨e.1, e.2.2.2⟩

/-- C14: after `irq_request` succeeds (returns 0) for distinct actions `a1, ..., an` of the
same initially unclaimed line, in that order, the chain of the line is exactly
`[a1, ..., an]` and its dispatcher is `irq_handle`; one dispatch of that line, with handlers
that leave the manager state alone, calls every handler exactly once, in registration order,
each with the line number and its own context. -/
theorem irq_request_chain_order (N : Nat) (hexec : Nat → Nat → Nat → irq_t → Nat × irq_t)
    (s : irq_t) (line : Nat) (ps : List Nat) (hlenN : s.irq_desc.length = N) (hline : line < N)
    (hun : s.irq_desc[line]? =
      some { handle_irq := irq_flow_handler_t.irq_handle_bad, action := none })
    (hnd : ps.Nodup) (hne : ps ≠ [])
    (hact : ∀ p ∈ ps, ∃ a, s.mem[p]? = some a ∧ a.handler ≠ 0 ∧ a.irq = line ∧ a.name ≠ none)
    (hq : ∀ f i dat st, (hexec f i dat st).2 = st) :
    ∃ s1, irq_request_all N s ps = some (ps.map (fun _ => 0), s1) ∧
      chain s1 line = some ps ∧
      (s1.irq_desc[line]?).map (fun d => d.handle_irq) = some irq_flow_handler_t.irq_handle ∧
      ∃ ds, __irq_entry hexec s1 line =
        some (s1, ps.map (fun p => ((action_at s p).handler, line, (action_at s p).data)),
          ds) := by
  obtain ⟨s1, d1, hall, hd1, hch, hh, hf⟩ := request_all_chain N line hline ps s []
    { handle_irq := irq_flow_handler_t.irq_handle_bad, action := none } hlenN hun rfl
    (fun h => absurd rfl h) (by simpa using hnd) hact
  rw [List.nil_append] at hch hh
  have hlen : ps.length ≤ s1.mem.length := nodup_length_le hnd (is_chain_lt hch)
  have hhand : ∀ a ∈ ps, (action_at s1 a).handler ≠ 0 := by
    intro a ha
    obtain ⟨b, hb, hhb, _, _⟩ := hact a ha
    rw [(action_at_fields hf a).1]
    simpa [action_at, List.getD_eq_getElem?_getD, hb] using hhb
  obtain ⟨rv, hrv⟩ := handle_loop_chain hexec hq line s1 ps d1.action s1.mem.length IRQ_NONE []
    hch hhand hlen
  have hmap : ps.map (fun a => ((action_at s1 a).handler, line, (action_at s1 a).data)) =
      ps.map (fun p => ((action_at s p).handler, line, (action_at s p).data)) := by
    apply List.map_congr_left
    intro a _
    rw [(action_at_fields hf a).1, (action_at_fields hf a).2]
  refine ⟨s1, hall, ?_, ?_, if rv = IRQ_NONE then [diag.nobody_cared line] else [], ?_⟩
  · simp only [chain, hd1]
    exact chain_from_of_is_chain _ hch hlen
  · rw [hd1]
    simp [hh hne]
  · simp only [__irq_entry, hd1, hh hne, irq_handle, hrv, List.nil_append, hmap]

theorem irq_request_chain_order_witness :
    ∃ s1, irq_request_all 2 two_lines [2, 0, 1] = some ([2, 0, 1].map (fun _ => 0), s1) ∧
      chain s1 0 = some [2, 0, 1] ∧
      (s1.irq_desc[0]?).map (fun d => d.handle_irq) = some irq_flow_handler_t.irq_handle ∧
      ∃ ds, __irq_entry quiet_handler s1 0 =
        some (s1, [2, 0, 1].map (fun p =>
          ((action_at two_lines p).handler, 0, (action_at two_lines p).data)), ds) :=
  irq_request_chain_order 2 quiet_handler two_lines 0 [2, 0, 1] rfl (by decide) rfl (by decide)
    (by decide) (by decide) (fun _ _ _ _ => rfl)

/-- C15 fails on the code when the action heads the chain: with the chain `[0, 1]` on a
line, `irq_free` of action 0 returns -1 and leaves the chain empty, so action 1 is no longer
called on dispatch; freeing the middle or the last action of the chain `[0, 1, 2]` does
return 0 and keeps the other actions in order. -/
theorem irq_free_head_drops_chain :
    (irq_request_all 2 two_lines [0, 1]).map (fun r => chain r.2 0) = some (some [0, 1]) ∧
    ((irq_request_all 2 two_lines [0, 1]).bind (fun r => irq_free r.2 (some 0))).map
      (fun r => (r.1, chain r.2 0)) = some (-1, some []) ∧
    (((irq_request_all 2 two_lines [0, 1]).bind (fun r => irq_free r.2 (some 0))).bind
      (fun r => __irq_entry quiet_handler r.2 0)).map (fun r => r.2.1) = some [] ∧
    ((irq_request_all 2 two_lines [0, 1, 2]).bind (fun r => irq_free r.2 (some 1))).map
      (fun r => (r.1, chain r.2 0)) = some (0, some [0, 2]) ∧
    ((irq_request_all 2 two_lines [0, 1, 2]).bind (fun r => irq_free r.2 (some 2))).map
      (fun r => (r.1, chain r.2 0)) = some (0, some [0, 1]) := by
  decide

theorem free_loop_absent (mem : List irq_action) (p : Nat) (l : List Nat) :
    ∀ (h : Option Nat) (fuel : Nat), is_chain mem h l → p ∉ l → l.length ≤ fuel →
      irq_free_loop p fuel h mem = some (-1, mem) := by
  induction l with
  | nil =>
    intro h fuel hc _ _
    have : h = none := hc
    subst this
    cases fuel <;> rfl
  | cons b l ih =>
    intro h fuel hc hp hlen
    obtain ⟨h1, x, hx, hrest⟩ := hc
    subst h1
    cases fuel with
    | zero => simp at hlen
    | succ fuel =>
      have hne : x.next ≠ some p := by
        intro e
        rw [e] at hrest
        cases l with
        | nil => exact Option.noConfusion hrest
        | cons c l1 =>
          have : p = c := Option.some.inj hrest.1
          apply hp
          rw [this]
          exact List.mem_cons_of_mem _ (List.mem_cons_self _ _)
      simp only [irq_free_loop, hx]
      rw [if_neg hne]
      exact ih x.next fuel hrest (fun hm => hp (List.mem_cons_of_mem _ hm))
        (by simpa using hlen)

end Irq

namespace Swtimer

theorem tim_set_ne (obj : swtimer) (k i : Nat) (t : swtimer_sw_tim) (h : k ≠ i) :
    tim (set_tim obj k t) i = tim obj i := by
  simp [tim, set_tim, List.getD_eq_getElem?_getD, List.getElem?_set, h]

theorem tim_set_eq (obj : swtimer) (i : Nat) (t : swtimer_sw_tim)
    (h : i < obj.timer_list.length) : tim (set_tim obj i t) i = t := by
  simp [tim, set_tim, List.getD_eq_getElem?_getD, List.getElem?_set, h]

theorem tim_set_self (obj : swtimer) (k i : Nat) (t : swtimer_sw_tim) :
    tim (set_tim obj k t) i = tim obj i ∨ tim (set_tim obj k t) i = t := by
  by_cases h : k = i
  · subst h
    by_cases hl : k < obj.timer_list.length
    · exact Or.inr (tim_set_eq obj k t hl)
    · left
      have h1 : (obj.timer_list.set k t).getD k zero_tim = zero_tim :=
        List.getD_eq_default _ _ (by simp; omega)
      have h2 : obj.timer_list.getD k zero_tim = zero_tim :=
        List.getD_eq_default _ _ (by omega)
      show (obj.timer_list.set k t).getD k zero_tim = obj.timer_list.getD k zero_tim
      rw [h1, h2]
  · exact Or.inl (tim_set_ne obj k i t h)

theorem set_tim_length (obj : swtimer) (k : Nat) (t : swtimer_sw_tim) :
    (set_tim obj k t).timer_list.length = obj.timer_list.length := by
  simp [set_tim]

/-- Writing a new countdown into a slot keeps the callbacks of active slots. -/
theorem callbacks_ok_set_remaining (obj : swtimer) (k : Nat) (r : Int)
    (h : callbacks_ok obj) :
    callbacks_ok (set_tim obj k { tim obj k with remaining := r }) := by
  intro j hj
  rcases tim_set_self obj k j { tim obj k with remaining := r } with e | e
  · rw [e] at hj ⊢
    exact h j hj
  · rw [e] at hj ⊢
    exact h k hj

/-- The effect of one iteration of the loop of `swtimer_task`. -/
theorem body_spec (exec : Nat → Nat → swtimer → swtimer) (i k : Nat) (obj : swtimer)
    (hr : respects exec i) (hok : callbacks_ok obj) :
    ∃ obj1, swtimer_task_body exec k obj = some (obj1, tim_calls (tim obj k) k) ∧
      obj1.ticks = obj.ticks ∧ obj1.timer_list.length = obj.timer_list.length ∧
      callbacks_ok obj1 ∧ (k ≠ i → tim obj1 i = tim obj i) ∧
      (k = i → i < obj.timer_list.length → tim obj1 i = tim_after_pass (tim obj i) obj.ticks) := by
  cases hact : (tim obj k).active with
  | false =>
    have hb : swtimer_task_body exec k obj = some (obj, tim_calls (tim obj k) k) := by
      simp [swtimer_task_body, tim_calls, hact]
    refine ⟨obj, hb, rfl, rfl, hok, fun _ => rfl, ?_⟩
    intro e _
    subst e
    simp [tim_after_pass, hact]
  | true =>
    by_cases hrem : (tim obj k).remaining ≤ 0
    · have hcb : (tim obj k).cb ≠ 0 := hok k hact
      obtain ⟨h1, h2, h3, h4⟩ := hr (tim obj k).cb (tim obj k).data obj
      have hok1 := h4 hok
      have hok2 := callbacks_ok_set_remaining _ k
        (tim (exec (tim obj k).cb (tim obj k).data obj) k).period hok1
      have hok3 := callbacks_ok_set_remaining _ k
        ((tim (set_tim (exec (tim obj k).cb (tim obj k).data obj) k
            { tim (exec (tim obj k).cb (tim obj k).data obj) k with
              remaining := (tim (exec (tim obj k).cb (tim obj k).data obj) k).period }) k).remaining -
          (set_tim (exec (tim obj k).cb (tim obj k).data obj) k
            { tim (exec (tim obj k).cb (tim obj k).data obj) k with
              remaining := (tim (exec (tim obj k).cb (tim obj k).data obj) k).period }).ticks) hok2
      refine ⟨_, ?_, ?_, ?_, hok3, ?_, ?_⟩
      · simp only [swtimer_task_body, tim_calls, hact, hrem]
        simp [hcb]
      · exact h1
      · rw [set_tim_length, set_tim_length]; exact h2
      · intro hne
        rw [tim_set_ne _ _ _ _ hne, tim_set_ne _ _ _ _ hne]
        exact h3
      · intro e hlt
        subst e
        have hl1 : k < (exec (tim obj k).cb (tim obj k).data obj).timer_list.length := by omega
        rw [tim_set_eq _ _ _ (by rw [set_tim_length]; exact hl1), tim_set_eq _ _ _ hl1, h3]
        simp only [tim_after_pass, hact, hrem]
        simp
        exact h1
    · have hb : swtimer_task_body exec k obj =
          some (set_tim obj k { tim obj k with remaining := (tim obj k).remaining - obj.ticks },
            tim_calls (tim obj k) k) := by
        simp [swtimer_task_body, tim_calls, hact, hrem]
      refine ⟨set_tim obj k { tim obj k with remaining := (tim obj k).remaining - obj.ticks },
        hb, rfl, set_tim_length _ _ _, callbacks_ok_set_remaining obj k _ hok,
        fun hne => tim_set_ne _ _ _ _ hne, ?_⟩
      intro e hlt
      subst e
      rw [tim_set_eq _ _ _ hlt]
      simp [tim_after_pass, hact, hrem]

/-- The effect of the loop of `swtimer_task` on the slot `i`. -/
theorem loop_spec (exec : Nat → Nat → swtimer → swtimer) (i : Nat) (hr : respects exec i)
    (L : List Nat) :
    ∀ obj : swtimer, callbacks_ok obj → L.Nodup → i < obj.timer_list.length →
      ∃ obj1 calls, swtimer_task_loop exec L obj = some (obj1, calls) ∧
        obj1.ticks = obj.ticks ∧ obj1.timer_list.length = obj.timer_list.length ∧
        callbacks_ok obj1 ∧
        (i ∉ L → tim obj1 i = tim obj i ∧ calls_of i calls = []) ∧
        (i ∈ L → tim obj1 i = tim_after_pass (tim obj i) obj.ticks ∧
          calls_of i calls = tim_calls (tim obj i) i) := by
  induction L with
  | nil =>
    intro obj hok _ _
    exact ⟨obj, [], rfl, rfl, rfl, hok, fun _ => ⟨rfl, rfl⟩, fun h => by simp at h⟩
  | cons k L ih =>
    intro obj hok hnd hlt
    obtain ⟨obj1, hb, ht, hl, hok1, hne, heq⟩ := body_spec exec i k obj hr hok
    obtain ⟨obj2, calls, hloop, ht2, hl2, hok2, hnot, hin⟩ :=
      ih obj1 hok1 (List.nodup_cons.mp hnd).2 (by omega)
    refine ⟨obj2, tim_calls (tim obj k) k ++ calls, ?_, by omega, by omega, hok2, ?_, ?_⟩
    · simp only [swtimer_task_loop, hb, hloop]
    · intro hni
      have hki : k ≠ i := fun e => hni (by rw [e]; exact List.mem_cons_self _ _)
      have hiL : i ∉ L := fun hm => hni (List.mem_cons_of_mem _ hm)
      obtain ⟨e1, e2⟩ := hnot hiL
      refine ⟨by rw [e1, hne hki], ?_⟩
      unfold calls_of at e2 ⊢
      rw [List.filter_append, e2, List.append_nil]
      unfold tim_calls
      split_ifs
      · simp [hki]
      · rfl
    · intro hmem
      by_cases hki : k = i
      · subst hki
        have hiL : k ∉ L := (List.nodup_cons.mp hnd).1
        obtain ⟨e1, e2⟩ := hnot hiL
        refine ⟨by rw [e1, heq rfl hlt], ?_⟩
        unfold calls_of at e2 ⊢
        rw [List.filter_append, e2, List.append_nil]
        unfold tim_calls
        split_ifs <;> simp
      · have hiL : i ∈ L := by
          rcases List.mem_cons.mp hmem with e | hm
          · exact absurd e.symm hki
          · exact hm
        obtain ⟨e1, e2⟩ := hin hiL
        refine ⟨by rw [e1, hne hki, ht], ?_⟩
        unfold calls_of at e2 ⊢
        rw [List.filter_append, e2, hne hki]
        have : List.filter (fun c => decide (c.1 = i)) (tim_calls (tim obj k) k) = [] := by
          unfold tim_calls
          split_ifs
          · simp [hki]
          · rfl
        rw [this, List.nil_append]

/-- The effect of one pass that finds `t` in the tick counter on the slot `i`. -/
theorem pass_spec (exec : Nat → Nat → swtimer → swtimer) (i : Nat) (hr : respects exec i)
    (obj : swtimer) (t : Int) (hok : callbacks_ok obj) (hi : i < SWTIMER_TIMERS_MAX)
    (hlen : obj.timer_list.length = SWTIMER_TIMERS_MAX) :
    ∃ obj1 calls, swtimer_task exec { obj with ticks := t } = some (obj1, calls) ∧
      obj1.timer_list.length = SWTIMER_TIMERS_MAX ∧ callbacks_ok obj1 ∧
      obj1.ticks = 0 ∧
      tim obj1 i = tim_after_pass (tim obj i) t ∧
      calls_of i calls = tim_calls (tim obj i) i := by
  obtain ⟨obj1, calls, hloop, _, hl, hok1, _, hin⟩ :=
    loop_spec exec i hr (List.range SWTIMER_TIMERS_MAX) { obj with ticks := t } hok
      (List.nodup_range _) (by show i < obj.timer_list.length; omega)
  obtain ⟨e1, e2⟩ := hin (List.mem_range.mpr hi)
  refine ⟨{ obj1 with ticks := 0 }, calls, ?_, by rw [← hlen]; exact hl, hok1, rfl, e1, e2⟩
  simp only [swtimer_task, hloop]


theorem find_range_none (p : Nat → Bool) (n : Nat) (h : ∀ j, j < n → p j = false) :
    (List.range n).find? p = none := by
  rw [List.find?_eq_none]
  intro x hx
  rw [h x (List.mem_range.mp hx)]
  simp

theorem find_range_some (p : Nat → Bool) (n i : Nat) (hi : i < n) (hp : p i = true)
    (hmin : ∀ j, j < i → p j = false) : (List.range n).find? p = some i := by
  induction n with
  | zero => omega
  | succ n ih =>
    rw [List.range_succ, List.find?_append]
    by_cases h : i < n
    · rw [ih h]
      rfl
    · have e : i = n := by omega
      subst e
      rw [find_range_none p i hmin]
      simp [hp]

theorem callbacks_ok_of_field (obj : swtimer) (k : Nat) (t : swtimer_sw_tim)
    (h : callbacks_ok obj) (ht : t.active = true → t.cb ≠ 0) : callbacks_ok (set_tim obj k t) := by
  intro j hj
  rcases tim_set_self obj k j t with e | e
  · rw [e] at hj ⊢
    exact h j hj
  · rw [e] at hj ⊢
    exact ht hj

theorem register_full (obj : swtimer) (cb data : Nat) (period : Int)
    (hcb : cb ≠ 0) (hp : period ≥ SWTIMER_HW_OVERFLOW)
    (hfull : ∀ i, i < SWTIMER_TIMERS_MAX → (tim obj i).cb ≠ 0) :
    swtimer_tim_register obj cb data period = some (-1, obj) := by
  have hnone : (List.range SWTIMER_TIMERS_MAX).find? (fun i => decide ((tim obj i).cb = 0)) =
      none := find_range_none _ _ (fun j hj => by simpa using hfull j hj)
  simp only [swtimer_tim_register, swtimer_find_empty_slot, hnone]
  rw [if_neg hcb, if_neg (by simpa using hp)]
  rfl

theorem register_at (obj : swtimer) (cb data : Nat) (period : Int)
    (hcb : cb ≠ 0) (hp : period ≥ SWTIMER_HW_OVERFLOW) (i : Nat)
    (hi : i < SWTIMER_TIMERS_MAX) (hfree : (tim obj i).cb = 0)
    (hmin : ∀ j, j < i → (tim obj j).cb ≠ 0) :
    swtimer_tim_register obj cb data period =
      some ((i : Int) + 1,
        set_tim obj i
          { cb := cb, data := data, period := period, remaining := period, active := true }) := by
  have hsome : (List.range SWTIMER_TIMERS_MAX).find? (fun i => decide ((tim obj i).cb = 0)) =
      some i := find_range_some _ _ i hi (by simpa using hfree)
        (fun j hj => by simpa using hmin j hj)
  simp only [swtimer_tim_register, swtimer_find_empty_slot, hsome]
  rw [if_neg hcb, if_neg (by simpa using hp), if_neg (by omega)]
  simp

theorem tim_boot (i : Nat) : tim boot i = zero_tim := by
  simp only [tim, boot, List.getD_eq_getElem?_getD, List.getElem?_replicate]
  split_ifs <;> rfl

theorem boot_ok : callbacks_ok boot := by
  intro i hi
  rw [tim_boot] at hi
  exact Bool.noConfusion hi

/-! ## The claims about the software timers -/

/-- C17: `swtimer_tim_register(cb, data, period)` with `cb` non-null and
`period >= SWTIMER_HW_OVERFLOW` returns -1 and changes nothing when all
`SWTIMER_TIMERS_MAX` slots hold a callback; otherwise it writes `cb`, `data`, `period`,
`remaining = period` and `active = true` into the lowest-indexed empty slot, leaves every
other slot unchanged, and returns that slot index + 1. -/
theorem swtimer_tim_register_contract (obj : swtimer) (cb data : Nat) (period : Int)
    (hcb : cb ≠ 0) (hp : period ≥ SWTIMER_HW_OVERFLOW) :
    ((∀ i, i < SWTIMER_TIMERS_MAX → (tim obj i).cb ≠ 0) →
      swtimer_tim_register obj cb data period = some (-1, obj)) ∧
    (∀ i, i < SWTIMER_TIMERS_MAX → (tim obj i).cb = 0 →
      (∀ j, j < i → (tim obj j).cb ≠ 0) →
      swtimer_tim_register obj cb data period =
        some ((i : Int) + 1,
          set_tim obj i
            { cb := cb, data := data, period := period, remaining := period, active := true }) ∧
      (∀ j, j ≠ i →
        tim (set_tim obj i
          { cb := cb, data := data, period := period, remaining := period, active := true }) j =
            tim obj j) ∧
      (i < obj.timer_list.length →
        tim (set_tim obj i
          { cb := cb, data := data, period := period, remaining := period, active := true }) i =
            { cb := cb, data := data, period := period, remaining := period,
              active := true })) := by
  exact ⟨register_full obj cb data period hcb hp, fun i hi hfree hmin =>
    ⟨register_at obj cb data period hcb hp i hi hfree hmin,
      fun j hj => tim_set_ne _ _ _ _ (fun e => hj e.symm), fun hl => tim_set_eq _ _ _ hl⟩⟩

theorem swtimer_tim_register_contract_witness :
    swtimer_tim_register one_timer 7 8 20 =
      some (((1 : Nat) : Int) + 1,
        set_tim one_timer 1
          { cb := 7, data := 8, period := 20, remaining := 20, active := true }) :=
  ((swtimer_tim_register_contract one_timer 7 8 20 (by decide) (by decide)).2 1 (by decide)
    (by decide) (by decide)).1

theorem calls_of_append (i : Nat) (a b : List (Nat × Nat × Nat)) :
    calls_of i (a ++ b) = calls_of i a ++ calls_of i b := by
  simp [calls_of, List.filter_append]

/-- While the slot `i` is not active, passes leave it alone and make no call for it. -/
theorem passes_stopped (exec : Nat → Nat → swtimer → swtimer) (i : Nat)
    (hr : respects exec i) (hi : i < SWTIMER_TIMERS_MAX) (ts : List Int) :
    ∀ obj : swtimer, callbacks_ok obj → obj.timer_list.length = SWTIMER_TIMERS_MAX →
      (tim obj i).active = false →
      ∃ obj1 calls, swtimer_passes exec ts obj = some (obj1, calls) ∧
        obj1.timer_list.length = SWTIMER_TIMERS_MAX ∧ callbacks_ok obj1 ∧
        tim obj1 i = tim obj i ∧ calls_of i calls = [] := by
  induction ts with
  | nil => intro obj hok hlen _; exact ⟨obj, [], rfl, hlen, hok, rfl, rfl⟩
  | cons t ts ih =>
    intro obj hok hlen hact
    obtain ⟨obj1, c, hpass, hl1, hok1, _, ht1, hc1⟩ := pass_spec exec i hr obj t hok hi hlen
    have hsame : tim obj1 i = tim obj i := by
      rw [ht1]; simp [tim_after_pass, hact]
    have hnc : calls_of i c = [] := by
      rw [hc1]; simp [tim_calls, hact]
    obtain ⟨obj2, cs, hrest, hl2, hok2, ht2, hc2⟩ := ih obj1 hok1 hl1 (by rw [hsame]; exact hact)
    refine ⟨obj2, c ++ cs, ?_, hl2, hok2, by rw [ht2, hsame], ?_⟩
    · simp only [swtimer_passes, hpass, hrest]
    · rw [calls_of_append, hnc, hc2]
      rfl

theorem sum_nonneg_of_pos (ts : List Int) (h : ∀ x ∈ ts, 0 < x) : 0 ≤ ts.sum := by
  induction ts with
  | nil => simp
  | cons t ts ih =>
    have h1 := h t (List.mem_cons_self _ _)
    have h2 := ih (fun x hx => h x (List.mem_cons_of_mem _ hx))
    rw [List.sum_cons]
    omega

/-- While the countdown of the running slot `i` stays positive before every pass, passes
only subtract their ticks from it and make no call for it. -/
theorem passes_countdown (exec : Nat → Nat → swtimer → swtimer) (i : Nat)
    (hr : respects exec i) (hi : i < SWTIMER_TIMERS_MAX) (cb data : Nat) (P : Int)
    (ts : List Int) :
    ∀ (obj : swtimer) (R : Int), callbacks_ok obj →
      obj.timer_list.length = SWTIMER_TIMERS_MAX →
      tim obj i = { cb := cb, data := data, period := P, remaining := R, active := true } →
      (∀ x ∈ ts, 0 < x) → ts.sum ≤ R →
      ∃ obj1 calls, swtimer_passes exec ts obj = some (obj1, calls) ∧
        obj1.timer_list.length = SWTIMER_TIMERS_MAX ∧ callbacks_ok obj1 ∧
        tim obj1 i =
          { cb := cb, data := data, period := P, remaining := R - ts.sum, active := true } ∧
        calls_of i calls = [] := by
  induction ts with
  | nil =>
    intro obj R hok hlen ht _ _
    exact ⟨obj, [], rfl, hlen, hok, by simpa using ht, rfl⟩
  | cons t ts ih =>
    intro obj R hok hlen ht hpos hsum
    have ht0 := hpos t (List.mem_cons_self _ _)
    have hs0 := sum_nonneg_of_pos ts (fun x hx => hpos x (List.mem_cons_of_mem _ hx))
    rw [List.sum_cons] at hsum
    have hR : ¬ R ≤ 0 := by omega
    obtain ⟨obj1, c, hpass, hl1, hok1, _, ht1, hc1⟩ := pass_spec exec i hr obj t hok hi hlen
    have hstep : tim obj1 i =
        { cb := cb, data := data, period := P, remaining := R - t, active := true } := by
      rw [ht1, ht]; simp [tim_after_pass, hR]
    have hnc : calls_of i c = [] := by
      rw [hc1, ht]; simp [tim_calls, hR]
    obtain ⟨obj2, cs, hrest, hl2, hok2, ht2, hc2⟩ :=
      ih obj1 (R - t) hok1 hl1 hstep (fun x hx => hpos x (List.mem_cons_of_mem _ hx))
        (by omega)
    refine ⟨obj2, c ++ cs, ?_, hl2, hok2, ?_, ?_⟩
    · simp only [swtimer_passes, hpass, hrest]
    · rw [ht2, List.sum_cons]
      congr 1
      omega
    · rw [calls_of_append, hnc, hc2]
      rfl


/-- C18 as stated fails: a timer registered with period 5 gets no call in the pass that
delivers 5 msec, and a timer registered with period 10 gets no call in two passes that
deliver 5 msec each. -/
theorem swtimer_no_call_counterexample :
    ((swtimer_tim_register boot 1 2 5).bind
      (fun r => swtimer_passes quiet_cb [5] r.2)).map (fun r => calls_of 0 r.2) = some [] ∧
    ((swtimer_tim_register boot 1 2 10).bind
      (fun r => swtimer_passes quiet_cb [5, 5] r.2)).map (fun r => calls_of 0 r.2) =
        some [] := by
  decide

/-- C18 (amended): for a timer freshly registered with period `P` in slot `i`, and
callbacks that leave the tick counter and that slot alone, the passes that deliver `P`
msec (in one pass, or spread over several passes with positive tick counts that sum to `P`)
make no call of its callback and leave its countdown at 0; the next pass after them calls
the callback exactly once, with its context, and reloads the countdown. -/
theorem swtimer_first_expiry (exec : Nat → Nat → swtimer → swtimer) (obj : swtimer)
    (cb data : Nat) (P : Int) (i : Nat) (ts : List Int) (t : Int)
    (hlen : obj.timer_list.length = SWTIMER_TIMERS_MAX) (hok : callbacks_ok obj)
    (hcb : cb ≠ 0) (hP : P ≥ SWTIMER_HW_OVERFLOW) (hi : i < SWTIMER_TIMERS_MAX)
    (hfree : (tim obj i).cb = 0) (hmin : ∀ j, j < i → (tim obj j).cb ≠ 0)
    (hr : respects exec i) (hpos : ∀ x ∈ ts, 0 < x) (hsum : ts.sum = P) :
    ∃ obj1 obj2 calls obj3 calls3,
      swtimer_tim_register obj cb data P = some ((i : Int) + 1, obj1) ∧
      swtimer_passes exec ts obj1 = some (obj2, calls) ∧
      calls_of i calls = [] ∧ (tim obj2 i).remaining = 0 ∧
      swtimer_passes exec [t] obj2 = some (obj3, calls3) ∧
      calls_of i calls3 = [(i, cb, data)] ∧ (tim obj3 i).remaining = P - t := by
  have hreg := register_at obj cb data P hcb hP i hi hfree hmin
  have hil : i < obj.timer_list.length := by omega
  have hok1 : callbacks_ok (set_tim obj i
      { cb := cb, data := data, period := P, remaining := P, active := true }) :=
    callbacks_ok_of_field obj i _ hok (fun _ => hcb)
  have hl1 : (set_tim obj i
      { cb := cb, data := data, period := P, remaining := P, active := true }).timer_list.length =
        SWTIMER_TIMERS_MAX := by rw [set_tim_length]; exact hlen
  obtain ⟨obj2, calls, hp2, hl2, hok2, ht2, hc2⟩ :=
    passes_countdown exec i hr hi cb data P ts _ P hok1 hl1 (tim_set_eq _ _ _ hil) hpos
      (by omega)
  obtain ⟨obj3, c3, hp3, _, _, _, ht3, hc3⟩ := pass_spec exec i hr obj2 t hok2 hi hl2
  have hrem : (tim obj2 i).remaining = 0 := by rw [ht2]; show P - ts.sum = 0; omega
  refine ⟨_, obj2, calls, obj3, c3, hreg, hp2, hc2, hrem, ?_, ?_, ?_⟩
  · simp only [swtimer_passes, hp3, List.append_nil]
  · rw [hc3, ht2]
    have : P - ts.sum ≤ 0 := by omega
    simp [tim_calls, this]
  · rw [ht3, ht2]
    have : P - ts.sum ≤ 0 := by omega
    simp [tim_after_pass, this]

theorem swtimer_first_expiry_witness :
    ∃ obj1 obj2 calls obj3 calls3,
      swtimer_tim_register boot 1 2 10 = some (((0 : Nat) : Int) + 1, obj1) ∧
      swtimer_passes quiet_cb [5, 5] obj1 = some (obj2, calls) ∧
      calls_of 0 calls = [] ∧ (tim obj2 0).remaining = 0 ∧
      swtimer_passes quiet_cb [5] obj2 = some (obj3, calls3) ∧
      calls_of 0 calls3 = [(0, 1, 2)] ∧ (tim obj3 0).remaining = 10 - 5 :=
  swtimer_first_expiry quiet_cb boot 1 2 10 0 [5, 5] 5 rfl boot_ok (by decide)
    (by decide) (by decide) (by decide) (fun j hj => absurd hj (Nat.not_lt_zero j))
    (fun _ _ _ => ⟨rfl, rfl, rfl, fun h => h⟩) (by decide) (by decide)


/-- C19: for a handle in `1..SWTIMER_TIMERS_MAX`, `swtimer_tim_stop` and `swtimer_tim_start`
only write the `active` flag of the addressed slot (callback, context, period and countdown
are kept); while the timer is stopped, any number of passes, with callbacks that leave the
tick counter and that slot alone, make no call for it and do not change its slot, so after
`swtimer_tim_start` it runs again with the countdown it had when it was stopped. -/
theorem swtimer_stop_start_contract (exec : Nat → Nat → swtimer → swtimer) (obj : swtimer)
    (id : Nat) (ts : List Int) (h1 : 1 ≤ id) (h2 : id ≤ SWTIMER_TIMERS_MAX)
    (hlen : obj.timer_list.length = SWTIMER_TIMERS_MAX) (hok : callbacks_ok obj)
    (hr : respects exec (id - 1)) :
    swtimer_tim_stop obj (id : Int) =
      some (set_tim obj (id - 1) { tim obj (id - 1) with active := false }) ∧
    swtimer_tim_start obj (id : Int) =
      some (set_tim obj (id - 1) { tim obj (id - 1) with active := true }) ∧
    ∃ obj1 calls obj2,
      swtimer_passes exec ts (set_tim obj (id - 1) { tim obj (id - 1) with active := false }) =
        some (obj1, calls) ∧
      calls_of (id - 1) calls = [] ∧
      tim obj1 (id - 1) = { tim obj (id - 1) with active := false } ∧
      swtimer_tim_start obj1 (id : Int) = some obj2 ∧
      tim obj2 (id - 1) = { tim obj (id - 1) with active := true } ∧
      (∀ j, j ≠ id - 1 → tim obj2 j = tim obj1 j) := by
  have h2' : id ≤ 10 := h2
  have e : ((id : Int) - 1).toNat = id - 1 := by omega
  have hrange : (id : Int) - 1 ≥ 0 ∧ (id : Int) - 1 < (SWTIMER_TIMERS_MAX : Int) := by
    simp only [SWTIMER_TIMERS_MAX]; omega
  have hstop : ∀ o : swtimer, swtimer_tim_stop o (id : Int) =
      some (set_tim o (id - 1) { tim o (id - 1) with active := false }) := by
    intro o
    simp only [swtimer_tim_stop, e]
    rw [if_pos hrange]
  have hstart : ∀ o : swtimer, swtimer_tim_start o (id : Int) =
      some (set_tim o (id - 1) { tim o (id - 1) with active := true }) := by
    intro o
    simp only [swtimer_tim_start, e]
    rw [if_pos hrange]
  have hi : id - 1 < SWTIMER_TIMERS_MAX := by simp only [SWTIMER_TIMERS_MAX]; omega
  have hil : id - 1 < obj.timer_list.length := by omega
  have hok1 : callbacks_ok (set_tim obj (id - 1) { tim obj (id - 1) with active := false }) :=
    callbacks_ok_of_field obj (id - 1) _ hok (fun h => Bool.noConfusion h)
  have hts : tim (set_tim obj (id - 1) { tim obj (id - 1) with active := false }) (id - 1) =
      { tim obj (id - 1) with active := false } := tim_set_eq _ _ _ hil
  obtain ⟨obj1, calls, hp, hl1, _, ht1, hc1⟩ :=
    passes_stopped exec (id - 1) hr hi ts _ hok1 (by rw [set_tim_length]; exact hlen)
      (by rw [hts])
  refine ⟨hstop obj, hstart obj, obj1, calls, _, hp, hc1, by rw [ht1, hts], hstart obj1, ?_,
    fun j hj => tim_set_ne _ _ _ _ (fun x => hj x.symm)⟩
  rw [tim_set_eq _ _ _ (by omega), ht1, hts]

theorem one_timer_ok : callbacks_ok one_timer := by
  intro i hi
  by_cases h : i = 0
  · subst h; decide
  · exfalso
    have hz : tim one_timer i = zero_tim := by
      simp only [tim, one_timer, List.getD_eq_getElem?_getD]
      cases i with
      | zero => exact absurd rfl h
      | succ n =>
        simp only [List.singleton_append, List.getElem?_cons_succ, List.getElem?_replicate]
        split_ifs <;> rfl
    rw [hz] at hi
    exact Bool.noConfusion hi

theorem swtimer_stop_start_contract_witness :
    swtimer_tim_stop one_timer ((1 : Nat) : Int) =
      some (set_tim one_timer (1 - 1) { tim one_timer (1 - 1) with active := false }) ∧
    swtimer_tim_start one_timer ((1 : Nat) : Int) =
      some (set_tim one_timer (1 - 1) { tim one_timer (1 - 1) with active := true }) :=
  ⟨(swtimer_stop_start_contract quiet_cb one_timer 1 [5, 5] (by decide) (by decide) rfl
      one_timer_ok (fun _ _ _ => ⟨rfl, rfl, rfl, fun h => h⟩)).1,
   (swtimer_stop_start_contract quiet_cb one_timer 1 [5, 5] (by decide) (by decide) rfl
      one_timer_ok (fun _ _ _ => ⟨rfl, rfl, rfl, fun h => h⟩)).2.1⟩

/-- C20 fails on the code: `swtimer_isr` stores `SWTIMER_HW_OVERFLOW` in the tick counter
instead of adding it, so after two tick interrupts with the update flag the counter holds
5, not 10, and the next pass takes 5, not 10, from the countdown of a running timer. -/
theorem swtimer_isr_overwrites_ticks :
    ((swtimer_isr true one_timer Sched.boot).bind
      (fun r => swtimer_isr true r.2.1 r.2.2)).map (fun r => (r.1, r.2.1.ticks)) =
        some (Irq.IRQ_HANDLED, 5) ∧
    (((swtimer_isr true one_timer Sched.boot).bind
      (fun r => swtimer_isr true r.2.1 r.2.2)).bind
        (fun r => swtimer_task quiet_cb r.2.1)).map (fun r => (tim r.1 0).remaining) =
          some (100 - 5) ∧
    (2 : Int) * SWTIMER_HW_OVERFLOW = 10 := by
  decide

end Swtimer

namespace Sched

theorem strcmp_eq_at_none (a b : Option String) : strcmp_eq_at none a b = strcmp_eq a b := by
  cases a <;> cases b <;> rfl

theorem slot_by_name_loop_at_none (s : sched_t) (name : Option String) (l : List Nat) :
    sched_slot_by_name_loop_at none s name l = sched_slot_by_name_loop s name l := by
  induction l with
  | nil => rfl
  | cons i rest ih =>
    simp only [sched_slot_by_name_loop_at, sched_slot_by_name_loop, strcmp_eq_at_none, ih]

/-- On a machine where a read through a null pointer is not defined, `sched_add_task_at`
is `sched_add_task`. -/
theorem sched_add_task_at_none (s : sched_t) (name : Option String) (func data : Nat)
    (task_id : Option Int) :
    sched_add_task_at none s name func data task_id =
      sched_add_task s name func data task_id := by
  simp only [sched_add_task_at, sched_add_task, sched_slot_by_name_at, sched_slot_by_name,
    slot_by_name_loop_at_none]
  cases name <;> rfl

theorem slot_by_name_loop_fresh (z n : String) (s : sched_t)
    (hnew : ∀ j, str_at (some z) (slot s j).name ≠ some n) (l : List Nat) :
    sched_slot_by_name_loop_at (some z) s (some n) l = some (-1) := by
  induction l with
  | nil => rfl
  | cons i rest ih =>
    have hi := hnew i
    cases hname : (slot s i).name with
    | none =>
      rw [hname] at hi
      have hne : (n == z) = false := by
        simp only [beq_eq_false_iff_ne, ne_eq]
        intro e
        exact hi (by rw [e]; rfl)
      simp only [sched_slot_by_name_loop_at, strcmp_eq_at, str_at, hname, hne, ih]
    | some y =>
      rw [hname] at hi
      have hne : (n == y) = false := by
        simp only [beq_eq_false_iff_ne, ne_eq]
        intro e
        exact hi (by rw [e]; rfl)
      simp only [sched_slot_by_name_loop_at, strcmp_eq_at, str_at, hname, hne, ih]

/-- On a machine where address 0 holds the string `z`, `sched_add_task` succeeds for a
non-empty name that no slot carries (an empty slot carries `z`), a non-null function and a
table with an empty slot: the task goes to the first empty slot. -/
theorem add_task_at_succeeds (z n : String) (s : sched_t) (func data : Nat)
    (task_id : Option Int) (i : Nat) (hfree : sched_find_empty_slot s = (i : Int))
    (hnew : ∀ j, str_at (some z) (slot s j).name ≠ some n) (hn : n.length ≠ 0)
    (hf : func ≠ 0) :
    sched_add_task_at (some z) s (some n) func data task_id =
      some (0, { s with task_list := s.task_list.set i (task.mk (some n) func data) },
        task_id.map (fun _ => (i : Int) + 1)) := by
  simp only [sched_add_task_at, hfree, sched_slot_by_name_at,
    slot_by_name_loop_fresh z n s hnew, str_at]
  rw [if_neg (by omega), if_neg (by decide), if_neg hn, if_neg hf]
  simp

end Sched

namespace Swtimer

theorem passes_snoc (exec : Nat → Nat → swtimer → swtimer) (t : Int) (a : List Int) :
    ∀ (obj o : swtimer) (c : List (Nat × Nat × Nat)) (o2 : swtimer)
      (c2 : List (Nat × Nat × Nat)),
      swtimer_passes exec a obj = some (o, c) →
      swtimer_task exec { o with ticks := t } = some (o2, c2) →
      swtimer_passes exec (a ++ [t]) obj = some (o2, c ++ c2) := by
  induction a with
  | nil =>
    intro obj o c o2 c2 h1 h2
    simp only [swtimer_passes, Option.some.injEq, Prod.mk.injEq] at h1
    obtain ⟨e1, e2⟩ := h1
    subst e1; subst e2
    simp only [List.nil_append, swtimer_passes, h2, List.append_nil]
  | cons x a ih =>
    intro obj o c o2 c2 h1 h2
    simp only [swtimer_passes] at h1
    cases hx : swtimer_task exec { obj with ticks := x } with
    | none => simp only [hx] at h1; exact Option.noConfusion h1
    | some r =>
      obtain ⟨o1, c1⟩ := r
      simp only [hx] at h1
      cases hr : swtimer_passes exec a o1 with
      | none => simp only [hr] at h1; exact Option.noConfusion h1
      | some r2 =>
        obtain ⟨o3, c3⟩ := r2
        simp only [hr, Option.some.injEq, Prod.mk.injEq] at h1
        obtain ⟨e1, e2⟩ := h1
        subst e1; subst e2
        have := ih o1 o3 c3 o2 c2 hr h2
        show swtimer_passes exec (x :: (a ++ [t])) obj = _
        simp only [swtimer_passes, hx, this, List.append_assoc]

theorem succ_mod_div (n k : Nat) (hn : 0 < n) :
    (k % n + 1 = n ∧ (k + 1) % n = 0 ∧ (k + 1) / n = k / n + 1) ∨
    (k % n + 1 < n ∧ (k + 1) % n = k % n + 1 ∧ (k + 1) / n = k / n) := by
  have hlt := Nat.mod_lt k hn
  have hd := Nat.div_add_mod k n
  by_cases h : k % n + 1 = n
  · left
    have e : k + 1 = n * (k / n + 1) := by rw [Nat.mul_add, Nat.mul_one]; omega
    refine ⟨h, ?_, ?_⟩
    · rw [e]; exact Nat.mul_mod_right _ _
    · rw [e]; exact Nat.mul_div_cancel_left _ hn
  · right
    have hlt2 : k % n + 1 < n := by omega
    have e : k + 1 = (k % n + 1) + n * (k / n) := by omega
    refine ⟨hlt2, ?_, ?_⟩
    · have e1 : (k + 1) % n = (k % n + 1 + n * (k / n)) % n := congrArg (· % n) e
      rw [e1, Nat.add_mul_mod_self_left, Nat.mod_eq_of_lt hlt2]
    · have e1 : (k + 1) / n = (k % n + 1 + n * (k / n)) / n := congrArg (· / n) e
      rw [e1, Nat.add_mul_div_left _ _ hn, Nat.div_eq_of_lt hlt2]
      omega

theorem period_passes_bounds (P : Int) (hP : P ≥ SWTIMER_HW_OVERFLOW) :
    0 < period_passes P ∧ P ≤ 5 * (period_passes P : Int) ∧
      5 * ((period_passes P : Int) - 1) < P := by
  simp only [period_passes, SWTIMER_HW_OVERFLOW] at *
  omega

theorem after_pass_fire (cb data : Nat) (P R t : Int) (h : R ≤ 0) :
    tim_after_pass (swtimer_sw_tim.mk cb data P R true) t = swtimer_sw_tim.mk cb data P (P - t) true := by
  simp [tim_after_pass, h]

theorem after_pass_count (cb data : Nat) (P R t : Int) (h : ¬ R ≤ 0) :
    tim_after_pass (swtimer_sw_tim.mk cb data P R true) t = swtimer_sw_tim.mk cb data P (R - t) true := by
  simp [tim_after_pass, h]

theorem calls_fire (cb data : Nat) (P R : Int) (i : Nat) (h : R ≤ 0) :
    tim_calls (swtimer_sw_tim.mk cb data P R true) i = [(i, cb, data)] := by
  simp [tim_calls, h]

theorem calls_count (cb data : Nat) (P R : Int) (i : Nat) (h : ¬ R ≤ 0) :
    tim_calls (swtimer_sw_tim.mk cb data P R true) i = [] := by
  simp [tim_calls, h]

/-- The slot of a running timer of period `P` after `m` passes that carry
`SWTIMER_HW_OVERFLOW` msec each, and the calls made for it so far. -/
theorem passes_periodic (exec : Nat → Nat → swtimer → swtimer) (i : Nat)
    (hr : respects exec i) (hi : i < SWTIMER_TIMERS_MAX) (cb data : Nat) (P : Int)
    (hP : P ≥ SWTIMER_HW_OVERFLOW) (obj : swtimer) (hok : callbacks_ok obj)
    (hlen : obj.timer_list.length = SWTIMER_TIMERS_MAX)
    (ht : tim obj i = swtimer_sw_tim.mk cb data P P true)
    (m : Nat) :
    ∃ obj1 calls, swtimer_passes exec (List.replicate m SWTIMER_HW_OVERFLOW) obj =
        some (obj1, calls) ∧
      obj1.timer_list.length = SWTIMER_TIMERS_MAX ∧ callbacks_ok obj1 ∧
      tim obj1 i = swtimer_sw_tim.mk cb data P
        (if m = 0 then P else P - 5 * ((((m - 1) % period_passes P : Nat) : Int) + 1)) true ∧
      calls_of i calls = List.replicate ((m - 1) / period_passes P) (i, cb, data) := by
  obtain ⟨hn, hn1, hn2⟩ := period_passes_bounds P hP
  have hP5 : P ≥ 5 := hP
  induction m with
  | zero => exact ⟨obj, [], rfl, hlen, hok, by simpa using ht, by simp [calls_of]⟩
  | succ m ih =>
    obtain ⟨obj1, calls, hp, hl1, hok1, ht1, hc1⟩ := ih
    obtain ⟨obj2, c2, hpass, hl2, hok2, _, ht2, hc2⟩ :=
      pass_spec exec i hr obj1 SWTIMER_HW_OVERFLOW hok1 hi hl1
    have hrun := passes_snoc exec SWTIMER_HW_OVERFLOW _ obj obj1 calls obj2 c2 hp hpass
    rw [← List.replicate_succ'] at hrun
    have h5 : SWTIMER_HW_OVERFLOW = 5 := rfl
    refine ⟨obj2, calls ++ c2, hrun, hl2, hok2, ?_, ?_⟩
    · rw [ht2, ht1, if_neg (Nat.succ_ne_zero m), Nat.add_sub_cancel, h5]
      cases m with
      | zero =>
        rw [if_pos rfl, after_pass_count cb data P P 5 (by omega), Nat.zero_mod]
        rfl
      | succ k =>
        rw [if_neg (Nat.succ_ne_zero k), Nat.add_sub_cancel]
        rcases succ_mod_div (period_passes P) k hn with ⟨h1, h2, _⟩ | ⟨h1, h2, _⟩
        · rw [after_pass_fire cb data P _ 5 (by omega), h2]
          rfl
        · rw [after_pass_count cb data P _ 5 (by omega), h2]
          congr 1
          omega
    · rw [calls_of_append, hc1, hc2, ht1, Nat.add_sub_cancel]
      cases m with
      | zero =>
        rw [if_pos rfl, calls_count cb data P P i (by omega)]
        simp
      | succ k =>
        rw [if_neg (Nat.succ_ne_zero k), Nat.add_sub_cancel]
        rcases succ_mod_div (period_passes P) k hn with ⟨h1, _, h3⟩ | ⟨h1, _, h3⟩
        · rw [calls_fire cb data P _ i (by omega), h3, List.replicate_succ']
        · rw [calls_count cb data P _ i (by omega), h3, List.append_nil]

/-- Claim C24: a timer registered with period `P >= SWTIMER_HW_OVERFLOW` in slot `i` and
left running, with callbacks that leave the tick counter and that slot alone, and passes
that each carry one tick of `SWTIMER_HW_OVERFLOW` (5) msec.  With `n = ceil(P / 5)`: the
first `m` passes call its callback `(m - 1) / n` times, and the pass number `m + 1` calls
it (once, with its context) exactly when `m >= 1` and `n` divides `m`; so the first call
is on pass `n + 1` and the later calls come once every `n` passes. -/
theorem swtimer_periodic_calls (exec : Nat → Nat → swtimer → swtimer) (obj : swtimer)
    (cb data : Nat) (P : Int) (i m : Nat)
    (hlen : obj.timer_list.length = SWTIMER_TIMERS_MAX) (hok : callbacks_ok obj)
    (hcb : cb ≠ 0) (hP : P ≥ SWTIMER_HW_OVERFLOW) (hi : i < SWTIMER_TIMERS_MAX)
    (hfree : (tim obj i).cb = 0) (hmin : ∀ j, j < i → (tim obj j).cb ≠ 0)
    (hr : respects exec i) :
    ∃ obj1 obj2 calls obj3 calls3,
      swtimer_tim_register obj cb data P = some ((i : Int) + 1, obj1) ∧
      swtimer_passes exec (List.replicate m SWTIMER_HW_OVERFLOW) obj1 = some (obj2, calls) ∧
      calls_of i calls = List.replicate ((m - 1) / period_passes P) (i, cb, data) ∧
      swtimer_task exec { obj2 with ticks := SWTIMER_HW_OVERFLOW } = some (obj3, calls3) ∧
      calls_of i calls3 = (if 0 < m ∧ m % period_passes P = 0 then [(i, cb, data)] else []) := by
  have hreg := register_at obj cb data P hcb hP i hi hfree hmin
  have hil : i < obj.timer_list.length := by omega
  have hok1 : callbacks_ok (set_tim obj i
      { cb := cb, data := data, period := P, remaining := P, active := true }) :=
    callbacks_ok_of_field obj i _ hok (fun _ => hcb)
  have hl1 : (set_tim obj i
      { cb := cb, data := data, period := P, remaining := P, active := true }).timer_list.length =
        SWTIMER_TIMERS_MAX := by rw [set_tim_length]; exact hlen
  obtain ⟨hn, hn1, hn2⟩ := period_passes_bounds P hP
  have hP5 : P ≥ 5 := hP
  obtain ⟨obj2, calls, hp2, hl2, hok2, ht2, hc2⟩ :=
    passes_periodic exec i hr hi cb data P hP _ hok1 hl1 (tim_set_eq _ _ _ hil) m
  obtain ⟨obj3, c3, hp3, _, _, _, _, hc3⟩ :=
    pass_spec exec i hr obj2 SWTIMER_HW_OVERFLOW hok2 hi hl2
  refine ⟨_, obj2, calls, obj3, c3, hreg, hp2, hc2, hp3, ?_⟩
  rw [hc3, ht2]
  cases m with
  | zero =>
    rw [if_pos rfl, calls_count cb data P P i (by omega), if_neg (by omega)]
  | succ k =>
    rw [if_neg (Nat.succ_ne_zero k), Nat.add_sub_cancel]
    rcases succ_mod_div (period_passes P) k hn with ⟨h1, h2, _⟩ | ⟨h1, h2, _⟩
    · rw [calls_fire cb data P _ i (by omega), if_pos ⟨Nat.succ_pos k, h2⟩]
    · rw [calls_count cb data P _ i (by omega), if_neg (by omega)]

theorem swtimer_periodic_calls_witness :
    ∃ obj1 obj2 calls obj3 calls3,
      swtimer_tim_register boot 1 2 12 = some (((0 : Nat) : Int) + 1, obj1) ∧
      swtimer_passes quiet_cb (List.replicate 6 SWTIMER_HW_OVERFLOW) obj1 = some (obj2, calls) ∧
      calls_of 0 calls = List.replicate ((6 - 1) / period_passes 12) (0, 1, 2) ∧
      swtimer_task quiet_cb { obj2 with ticks := SWTIMER_HW_OVERFLOW } = some (obj3, calls3) ∧
      calls_of 0 calls3 = (if 0 < 6 ∧ 6 % period_passes 12 = 0 then [(0, 1, 2)] else []) :=
  swtimer_periodic_calls quiet_cb boot 1 2 12 0 6 rfl boot_ok (by decide)
    (by decide) (by decide) (by decide) (fun j hj => absurd hj (Nat.not_lt_zero j))
    (fun _ _ _ => ⟨rfl, rfl, rfl, fun h => h⟩)

end Swtimer

namespace Swtimer

/-- One iteration of the loop of `swtimer_task` from an object in which every active slot
holds a callback: it is defined, calls no null callback and keeps that property. -/
theorem body_defined (exec : Nat → Nat → swtimer → swtimer) (k : Nat) (obj : swtimer)
    (hex : ∀ f d o, callbacks_ok o → callbacks_ok (exec f d o)) (hok : callbacks_ok obj) :
    ∃ res, swtimer_task_body exec k obj = some res ∧ callbacks_ok res.1 ∧
      ∀ c ∈ res.2, c.2.1 ≠ 0 := by
  cases hact : (tim obj k).active with
  | false =>
    refine ⟨(obj, []), ?_, hok, by simp⟩
    simp [swtimer_task_body, hact]
  | true =>
    by_cases hrem : (tim obj k).remaining ≤ 0
    · have hcb : (tim obj k).cb ≠ 0 := hok k hact
      have hok1 := hex (tim obj k).cb (tim obj k).data obj hok
      have hok2 := callbacks_ok_set_remaining _ k
        (tim (exec (tim obj k).cb (tim obj k).data obj) k).period hok1
      have hok3 := callbacks_ok_set_remaining _ k
        ((tim (set_tim (exec (tim obj k).cb (tim obj k).data obj) k
            { tim (exec (tim obj k).cb (tim obj k).data obj) k with
              remaining := (tim (exec (tim obj k).cb (tim obj k).data obj) k).period }) k).remaining -
          (set_tim (exec (tim obj k).cb (tim obj k).data obj) k
            { tim (exec (tim obj k).cb (tim obj k).data obj) k with
              remaining := (tim (exec (tim obj k).cb (tim obj k).data obj) k).period }).ticks) hok2
      unfold swtimer_task_body
      rw [hact]
      simp only [Bool.not_true, Bool.false_eq_true, if_false, if_pos hrem, if_neg hcb]
      refine ⟨_, rfl, hok3, ?_⟩
      · intro c hc
        simp only [List.mem_singleton] at hc
        rw [hc]; exact hcb
    · refine ⟨(set_tim obj k { tim obj k with remaining := (tim obj k).remaining - obj.ticks }, []),
        ?_, callbacks_ok_set_remaining obj k _ hok, by simp⟩
      simp [swtimer_task_body, hact, hrem]

theorem loop_defined (exec : Nat → Nat → swtimer → swtimer)
    (hex : ∀ f d o, callbacks_ok o → callbacks_ok (exec f d o)) (L : List Nat) :
    ∀ obj : swtimer, callbacks_ok obj →
      ∃ res, swtimer_task_loop exec L obj = some res ∧ callbacks_ok res.1 ∧
        ∀ c ∈ res.2, c.2.1 ≠ 0 := by
  induction L with
  | nil => intro obj hok; exact ⟨(obj, []), rfl, hok, by simp⟩
  | cons k L ih =>
    intro obj hok
    obtain ⟨⟨o1, c1⟩, h1, hok1, hc1⟩ := body_defined exec k obj hex hok
    obtain ⟨⟨o2, c2⟩, h2, hok2, hc2⟩ := ih o1 hok1
    refine ⟨(o2, c1 ++ c2), ?_, hok2, ?_⟩
    · simp only [swtimer_task_loop, h1, h2]
    · intro c hc
      rcases List.mem_append.1 hc with h | h
      · exact hc1 c h
      · exact hc2 c h

theorem callbacks_ok_ticks (obj : swtimer) (t : Int) (h : callbacks_ok obj) :
    callbacks_ok { obj with ticks := t } := h

theorem task_defined (exec : Nat → Nat → swtimer → swtimer)
    (hex : ∀ f d o, callbacks_ok o → callbacks_ok (exec f d o)) (obj : swtimer)
    (hok : callbacks_ok obj) :
    ∃ res, swtimer_task exec obj = some res ∧ callbacks_ok res.1 ∧ ∀ c ∈ res.2, c.2.1 ≠ 0 := by
  obtain ⟨⟨o1, c1⟩, h1, hok1, hc1⟩ :=
    loop_defined exec hex (List.range SWTIMER_TIMERS_MAX) obj hok
  refine ⟨({ o1 with ticks := 0 }, c1), ?_, callbacks_ok_ticks o1 0 hok1, hc1⟩
  simp only [swtimer_task, h1]

/-- Each call of the timer interface that satisfies `tim_op_ok` keeps a callback in every
active slot. -/
theorem step_callbacks_ok (obj obj1 : swtimer) (op : tim_op) (hok : callbacks_ok obj)
    (hop : tim_op_ok obj op = true) (hs : tim_step obj op = some obj1) : callbacks_ok obj1 := by
  cases op with
  | register cb data period =>
    simp only [tim_step, swtimer_tim_register] at hs
    by_cases hcb : cb = 0
    · rw [if_pos hcb] at hs; exact Option.noConfusion hs
    · rw [if_neg hcb] at hs
      by_cases hp : ¬ period ≥ SWTIMER_HW_OVERFLOW
      · rw [if_pos hp] at hs; exact Option.noConfusion hs
      · rw [if_neg hp] at hs
        by_cases hslot : swtimer_find_empty_slot obj < 0
        · simp only [if_pos hslot, Option.map_some', Option.some.injEq] at hs
          rw [← hs]; exact hok
        · simp only [if_neg hslot, Option.map_some', Option.some.injEq] at hs
          rw [← hs]
          exact callbacks_ok_of_field obj _ _ hok (fun _ => hcb)
  | del id =>
    simp only [tim_step, swtimer_tim_del] at hs
    by_cases hr : id - 1 ≥ 0 ∧ id - 1 < (SWTIMER_TIMERS_MAX : Int)
    · simp only [if_pos hr, Option.some.injEq] at hs
      rw [← hs]
      exact callbacks_ok_of_field obj _ _ hok (fun h => Bool.noConfusion h)
    · rw [if_neg hr] at hs; exact Option.noConfusion hs
  | start id =>
    simp only [tim_op_ok, decide_eq_true_eq] at hop
    simp only [tim_step, swtimer_tim_start] at hs
    by_cases hr : id - 1 ≥ 0 ∧ id - 1 < (SWTIMER_TIMERS_MAX : Int)
    · simp only [if_pos hr, Option.some.injEq] at hs
      rw [← hs]
      exact callbacks_ok_of_field obj _ _ hok (fun _ => hop)
    · rw [if_neg hr] at hs; exact Option.noConfusion hs
  | stop id =>
    simp only [tim_step, swtimer_tim_stop] at hs
    by_cases hr : id - 1 ≥ 0 ∧ id - 1 < (SWTIMER_TIMERS_MAX : Int)
    · simp only [if_pos hr, Option.some.injEq] at hs
      rw [← hs]
      exact callbacks_ok_of_field obj _ _ hok (fun h => Bool.noConfusion h)
    · rw [if_neg hr] at hs; exact Option.noConfusion hs
  | reset id =>
    simp only [tim_step, swtimer_tim_reset] at hs
    by_cases hr : id - 1 ≥ 0 ∧ id - 1 < (SWTIMER_TIMERS_MAX : Int)
    · simp only [if_pos hr, Option.some.injEq] at hs
      rw [← hs]
      exact callbacks_ok_of_field obj _ _ hok (fun h => hok _ h)
    · rw [if_neg hr] at hs; exact Option.noConfusion hs
  | set_period id period =>
    simp only [tim_step, swtimer_tim_set_period] at hs
    by_cases hr : id - 1 ≥ 0 ∧ id - 1 < (SWTIMER_TIMERS_MAX : Int)
    · simp only [if_pos hr, Option.some.injEq] at hs
      rw [← hs]
      exact callbacks_ok_of_field obj _ _ hok (fun h => hok _ h)
    · rw [if_neg hr] at hs; exact Option.noConfusion hs

theorem run_callbacks_ok (ops : List tim_op) :
    ∀ obj obj1 : swtimer, callbacks_ok obj → tim_ops_ok obj ops = true →
      tim_run obj ops = some obj1 → callbacks_ok obj1 := by
  induction ops with
  | nil =>
    intro obj obj1 hok _ hr
    simp only [tim_run, Option.some.injEq] at hr
    rw [← hr]; exact hok
  | cons op ops ih =>
    intro obj obj1 hok hops hr
    cases hs : tim_step obj op with
    | none => simp only [tim_run, hs] at hr; exact Option.noConfusion hr
    | some obj2 =>
      simp only [tim_run, hs] at hr
      simp only [tim_ops_ok, hs, Bool.and_eq_true] at hops
      exact ih obj2 obj1 (step_callbacks_ok obj obj2 op hok hops.1 hs) hops.2 hr

/-- C26 as stated fails: from the initial object, `swtimer_tim_start(1)`, a handle in range,
makes the empty slot 0 active although it holds no callback, and the next pass of the task
calls the null callback; the same happens when the slot was registered and deleted
before. -/
theorem swtimer_start_empty_counterexample :
    tim_run boot [tim_op.start 1] = some started_empty ∧
    tim_run boot [tim_op.register 1 2 10, tim_op.del 1, tim_op.start 1] = some started_empty ∧
    (tim started_empty 0).active = true ∧ (tim started_empty 0).cb = 0 ∧
    swtimer_task quiet_cb started_empty = none := by
  decide

/-- Claim C26 (amended): start from an object in which every active slot holds a callback
(the initial object is one), and let the callbacks keep that property.  After any sequence
of `swtimer_tim_register`, `swtimer_tim_del`, `swtimer_tim_stop`, `swtimer_tim_reset`,
`swtimer_tim_set_period`, and `swtimer_tim_start` with the handle of a slot that holds a
callback, every active slot holds a callback, and a pass of the task, whatever the tick
counter holds, is defined and calls no null callback. -/
theorem swtimer_active_has_callback (exec : Nat → Nat → swtimer → swtimer)
    (obj0 obj : swtimer) (ops : List tim_op) (hok : callbacks_ok obj0)
    (hex : ∀ f d o, callbacks_ok o → callbacks_ok (exec f d o))
    (hops : tim_ops_ok obj0 ops = true) (hrun : tim_run obj0 ops = some obj) :
    callbacks_ok obj ∧
    ∀ t : Int, ∃ res, swtimer_task exec { obj with ticks := t } = some res ∧
      ∀ c ∈ res.2, c.2.1 ≠ 0 := by
  have h := run_callbacks_ok ops obj0 obj hok hops hrun
  refine ⟨h, fun t => ?_⟩
  obtain ⟨res, hres, _, hc⟩ := task_defined exec hex _ (callbacks_ok_ticks obj t h)
  exact ⟨res, hres, hc⟩

theorem swtimer_active_has_callback_witness :
    callbacks_ok one_timer ∧
    ∀ t : Int, ∃ res, swtimer_task quiet_cb { one_timer with ticks := t } = some res ∧
      ∀ c ∈ res.2, c.2.1 ≠ 0 :=
  swtimer_active_has_callback quiet_cb one_timer one_timer
    [tim_op.register 3 4 50, tim_op.set_period 2 60, tim_op.del 2, tim_op.stop 1,
      tim_op.reset 1, tim_op.start 1]
    one_timer_ok (fun _ _ _ h => h) (by decide) (by decide)

end Swtimer

namespace Fifo

/-- Claim C25, evaluation of the code: on a freshly initialised queue of capacity 4 the call
`fifo_put(fifo, data, 0)` returns `EOK` and sets the full flag with both cursors at 0; the
queue has accepted and delivered no byte, yet it reports 4 stored bytes, refuses the next
byte with `EFULL`, and a read of 4 bytes returns the 4 bytes of the untouched storage. -/
theorem fifo_put_zero_sets_full :
    (fifo_put (some (init [0, 0, 0, 0])) (some []) 0).1 = EOK ∧
    (run (init [0, 0, 0, 0]) [Op.put []]).accepted = [] ∧
    (run (init [0, 0, 0, 0]) [Op.put []]).delivered = [] ∧
    (run (init [0, 0, 0, 0]) [Op.put []]).fifo.isfull = true ∧
    (run (init [0, 0, 0, 0]) [Op.put []]).fifo.rdidx = 0 ∧
    (run (init [0, 0, 0, 0]) [Op.put []]).fifo.wridx = 0 ∧
    used (run (init [0, 0, 0, 0]) [Op.put []]).fifo = 4 ∧
    (run (init [0, 0, 0, 0]) [Op.put []]).occupancy = 0 ∧
    (fifo_put (some (run (init [0, 0, 0, 0]) [Op.put []]).fifo) (some [7]) 1).1 = EFULL ∧
    fifo_get (some (run (init [0, 0, 0, 0]) [Op.put []]).fifo) (some ()) 4 =
      (4, some (init [0, 0, 0, 0]), [0, 0, 0, 0]) := by
  decide

end Fifo

namespace Swtimer

/-- Claim C21, evaluation of the code: `sched_set_ready(11)`, a handle above the capacity
`TASK_NR = 10`, does not halt: it returns normally and has set bit 10 of the ready mask.
The other handle operations do halt on the handle 11 (result `none`): `sched_del_task`,
`swtimer_tim_del`, `swtimer_tim_start`, `swtimer_tim_stop`, `swtimer_tim_reset`,
`swtimer_tim_set_period` and `swtimer_tim_get_remaining`. -/
theorem sched_set_ready_out_of_range :
    Sched.sched_set_ready Sched.boot 11 = some { Sched.boot with sched_ready := 1024 } ∧
    Sched.sched_del_task Sched.boot 11 = none ∧
    swtimer_tim_del boot 11 = none ∧
    swtimer_tim_start boot 11 = none ∧
    swtimer_tim_stop boot 11 = none ∧
    swtimer_tim_reset boot 11 = none ∧
    swtimer_tim_set_period boot 11 100 = none ∧
    swtimer_tim_get_remaining boot 11 = none := by
  decide

/-- Claim C22, evaluation of the code: on a stopped timer with the period 100 and the
countdown 40, `swtimer_tim_start` makes the timer active and leaves the countdown at 40; it
does not reload it from the period, as `swtimer_tim_reset` does. -/
theorem swtimer_tim_start_keeps_remaining :
    tim paused_timer 0 =
      { cb := 1, data := 2, period := 100, remaining := 40, active := false } ∧
    (swtimer_tim_start paused_timer 1).map (fun o => tim o 0) =
      some { cb := 1, data := 2, period := 100, remaining := 40, active := true } ∧
    (swtimer_tim_reset paused_timer 1).map (fun o => tim o 0) =
      some { cb := 1, data := 2, period := 100, remaining := 100, active := false } := by
  decide

end Swtimer

namespace Systick

/-- Claim C28, evaluation of the code: for the readings `t1 = 0xFFFFFFFF` and `t2 = 0`,
taken one millisecond apart across the wrap of the counter, `systick_calc_diff_ms` returns
0, while `(t2 - t1) mod 2^32` is 1; for `t1 = 5`, `t2 = 3` it returns `2^32 - 3`, one less
than `(t2 - t1) mod 2^32`. -/
theorem systick_calc_diff_ms_wrap :
    systick_calc_diff_ms 4294967295 0 = 0 ∧ elapsed_ms 4294967295 0 = 1 ∧
    systick_calc_diff_ms 5 3 = 4294967293 ∧ elapsed_ms 5 3 = 4294967294 := by
  decide

end Systick

namespace Ds18b20

/-- Claim C30, evaluation of the code: the register bytes `lsb = 0x01`, `msb = 0x00`
(0.0625 degrees) are parsed to sign `'+'`, integer 0 and fraction 625, and
`ds18b20_temp2str` stores the zero-terminated text `+0.625`, not `+0.0625`; likewise the
bytes `0xFF`, `0xFF` (-0.0625 degrees) give the text `-0.625`. -/
theorem ds18b20_temp2str_drops_zeros :
    ds18b20_parse_temp 1 0 = { integer := 0, frac := 625, sign := PLUS } ∧
    (ds18b20_temp2str (ds18b20_parse_temp 1 0)).1 = codes "+0.625" ++ [0] ∧
    codes "+0.625" ≠ codes "+0.0625" ∧
    ds18b20_parse_temp 255 255 = { integer := 0, frac := 625, sign := MINUS } ∧
    (ds18b20_temp2str (ds18b20_parse_temp 255 255)).1 = codes "-0.625" ++ [0] := by
  decide

end Ds18b20

namespace Ds18b20

theorem shl_or_shr (lsb msb : Nat) (hl : lsb < 256) :
    (msb <<< 4) ||| (lsb >>> 4) = msb * 16 + lsb / 16 := by
  have h : lsb / 2 ^ 4 < 2 ^ 4 := by omega
  rw [Nat.shiftLeft_eq, Nat.shiftRight_eq_div_pow, Nat.mul_comm msb (2 ^ 4),
    ← Nat.mul_add_lt_is_or h msb]
  omega

theorem bit7 (msb : Nat) (hm : msb < 256) : msb.testBit 7 = decide (128 ≤ msb) := by
  rw [Nat.testBit, Nat.shiftRight_eq_div_pow]
  have : msb / 2 ^ 7 = 0 ∨ msb / 2 ^ 7 = 1 := by omega
  rcases this with h | h
  · rw [h]; have : ¬ 128 ≤ msb := by omega
    simp [this]
  · rw [h]; have : 128 ≤ msb := by omega
    simp [this]

theorem and_bit7 (msb : Nat) (hm : msb < 256) : (msb &&& (1 <<< 7) ≠ 0) ↔ 128 ≤ msb := by
  have h2 : msb &&& (1 <<< 7) = if msb.testBit 7 then 2 ^ 7 else 0 := by
    rw [Nat.one_shiftLeft, Nat.and_two_pow]
    cases msb.testBit 7 <;> simp
  rw [h2, bit7 msb hm]
  by_cases hc : 128 ≤ msb <;> simp [hc]

theorem neg_frac (f : Nat) (hf : f < 16) :
    (625 * ((2 ^ 32 - 1 - (((f + 2 ^ 32 - 1) % 2 ^ 32) ||| 0xf0)) % 2 ^ 8)) % 2 ^ 16 =
      625 * ((16 - f) % 16) := by
  interval_cases f <;> decide

theorem parse_neg (lsb msb : Nat) (hl : lsb < 256) (hm : msb < 256) (hc : 128 ≤ msb) :
    ds18b20_parse_temp lsb msb =
      { integer := if 625 * ((16 - lsb % 16) % 16) = 0 then (4095 - (msb * 16 + lsb / 16) + 1) % 4096
          else 4095 - (msb * 16 + lsb / 16),
        frac := 625 * ((16 - lsb % 16) % 16), sign := MINUS } := by
  have hf : lsb &&& 0xf = lsb % 16 := Nat.and_pow_two_sub_one_eq_mod lsb 4
  have hnf := neg_frac (lsb % 16) (Nat.mod_lt _ (by norm_num))
  have hif : msb &&& (1 <<< 7) ≠ 0 := (and_bit7 msb hm).2 hc
  have hI : (msb * 16 + lsb / 16) % 2 ^ 12 = msb * 16 + lsb / 16 :=
    Nat.mod_eq_of_lt (by omega)
  have hI1 : (2 ^ 32 - 1 - (msb * 16 + lsb / 16)) % 2 ^ 12 = 4095 - (msb * 16 + lsb / 16) := by
    omega
  simp only [ds18b20_parse_temp, if_pos hif, shl_or_shr lsb msb hl, hf, hnf, hI, hI1]
  rfl

theorem parse_pos (lsb msb : Nat) (hl : lsb < 256) (hm : msb < 256) (hc : ¬ 128 ≤ msb) :
    ds18b20_parse_temp lsb msb =
      { integer := msb * 16 + lsb / 16, frac := 625 * (lsb % 16), sign := PLUS } := by
  have hf : lsb &&& 0xf = lsb % 16 := Nat.and_pow_two_sub_one_eq_mod lsb 4
  have hif : ¬ (msb &&& (1 <<< 7) ≠ 0) := fun h => hc ((and_bit7 msb hm).1 h)
  have hI : (msb * 16 + lsb / 16) % 2 ^ 12 = msb * 16 + lsb / 16 :=
    Nat.mod_eq_of_lt (by omega)
  have hF : (625 * (lsb % 16)) % 2 ^ 16 = 625 * (lsb % 16) := Nat.mod_eq_of_lt (by omega)
  simp only [ds18b20_parse_temp, if_neg hif, shl_or_shr lsb msb hl, hf, hI, hF]

/-- Claim C29: for register bytes `lsb`, `msb`, the sign returned by `ds18b20_parse_temp`
is `'-'` when bit 7 of `msb` is set and `'+'` otherwise, and the fields satisfy
`integer * 10000 + frac = 625 * |v|`, where `v` is the 16-bit two's-complement value
`msb:lsb`; the fraction is below 10000. -/
theorem ds18b20_parse_temp_value (lsb msb : Nat) (hl : lsb < 256) (hm : msb < 256) :
    (msb.testBit 7 = true → (ds18b20_parse_temp lsb msb).sign = MINUS) ∧
    (msb.testBit 7 = false → (ds18b20_parse_temp lsb msb).sign = PLUS) ∧
    (ds18b20_parse_temp lsb msb).integer * 10000 + (ds18b20_parse_temp lsb msb).frac =
      625 * (value lsb msb).natAbs ∧
    (ds18b20_parse_temp lsb msb).frac < 10000 := by
  have hb := bit7 msb hm
  by_cases hc : 128 ≤ msb
  · have hv : (value lsb msb).natAbs = 65536 - (msb * 256 + lsb) := by
      unfold value raw
      rw [if_neg (by norm_num; omega)]
      omega
    rw [parse_neg lsb msb hl hm hc, hv]
    refine ⟨fun _ => rfl, fun h => ?_, ?_, ?_⟩
    · rw [hb] at h; simp [hc] at h
    · dsimp only
      split_ifs with h0 <;> omega
    · dsimp only
      omega
  · have hv : (value lsb msb).natAbs = msb * 256 + lsb := by
      unfold value raw
      rw [if_pos (by norm_num; omega)]
      omega
    rw [parse_pos lsb msb hl hm hc, hv]
    refine ⟨fun h => ?_, fun _ => rfl, ?_, ?_⟩
    · rw [hb] at h; simp [hc] at h
    · dsimp only
      omega
    · dsimp only
      omega

theorem ds18b20_parse_temp_value_witness :
    ((0xFF).testBit 7 = true → (ds18b20_parse_temp 0x5E 0xFF).sign = MINUS) ∧
    ((0xFF).testBit 7 = false → (ds18b20_parse_temp 0x5E 0xFF).sign = PLUS) ∧
    (ds18b20_parse_temp 0x5E 0xFF).integer * 10000 + (ds18b20_parse_temp 0x5E 0xFF).frac =
      625 * (value 0x5E 0xFF).natAbs ∧
    (ds18b20_parse_temp 0x5E 0xFF).frac < 10000 :=
  ds18b20_parse_temp_value 0x5E 0xFF (by decide) (by decide)

end Ds18b20

namespace Irq

theorem getElem?_set_next_ne (mem : List irq_action) (a q : Nat) (n : Option Nat)
    (h : a ≠ q) : (set_next mem a n)[q]? = mem[q]? := by
  unfold set_next
  cases hx : mem[a]? with
  | none => rfl
  | some x =>
    show (mem.set a _)[q]? = mem[q]?
    rw [List.getElem?_set, if_neg h]

theorem is_chain_set_next {mem : List irq_action} {l : List Nat} (a : Nat) (n : Option Nat)
    {h : Option Nat} (hc : is_chain mem h l) (ha : a ∉ l) :
    is_chain (set_next mem a n) h l := by
  unfold set_next
  cases hx : mem[a]? with
  | none => exact hc
  | some x => exact is_chain_set a _ hc ha

/-- An action keeps its line number and handler when only `next` fields are written. -/
theorem member_of_fields {mem mem1 : List irq_action}
    (hf : ∀ q : Nat, (mem1[q]?).map user_fields = (mem[q]?).map user_fields) (line q : Nat)
    (h : ∃ a, mem[q]? = some a ∧ a.irq = line ∧ a.handler ≠ 0) :
    ∃ a, mem1[q]? = some a ∧ a.irq = line ∧ a.handler ≠ 0 := by
  obtain ⟨a, ha, hi, hh⟩ := h
  have h1 := hf q
  rw [ha] at h1
  cases h2 : mem1[q]? with
  | none => rw [h2] at h1; exact Option.noConfusion h1
  | some b =>
    rw [h2] at h1
    have e : user_fields b = user_fields a := Option.some.inj h1
    simp only [user_fields, Prod.mk.injEq] at e
    exact ⟨b, rfl, by rw [e.2.1]; exact hi, by rw [e.1]; exact hh⟩

/-- The loop of `irq_free` unlinks an action that is on the chain behind the head. -/
theorem free_loop_remove (mem : List irq_action) (p : Nat) (l : List Nat) :
    ∀ (h : Option Nat) (fuel : Nat), is_chain mem h l → l.Nodup → p ∈ l → h ≠ some p →
      l.length ≤ fuel →
      ∃ b x ap l1, b ∈ l ∧ mem[b]? = some x ∧ mem[p]? = some ap ∧
        irq_free_loop p fuel h mem =
          some (0, set_next (mem.set b { x with next := ap.next }) p none) ∧
        is_chain (set_next (mem.set b { x with next := ap.next }) p none) h l1 ∧
        l1.Nodup ∧ (∀ q ∈ l1, q ∈ l) ∧ p ∉ l1 := by
  induction l with
  | nil => intro h fuel _ _ hp; simp at hp
  | cons c l ih =>
    intro h fuel hc hnd hp hh hlen
    obtain ⟨h1, x, hx, hrest⟩ := hc
    subst h1
    have hcp : c ≠ p := fun e => hh (by rw [e])
    have hpl : p ∈ l := by
      rcases List.mem_cons.mp hp with e | hm
      · exact absurd e.symm hcp
      · exact hm
    have hcl : c ∉ l := (List.nodup_cons.mp hnd).1
    have hndl : l.Nodup := (List.nodup_cons.mp hnd).2
    have hclt : c < mem.length := getElem?_lt hx
    cases fuel with
    | zero => simp at hlen
    | succ fuel =>
      by_cases hn : x.next = some p
      · cases l with
        | nil => simp at hpl
        | cons e l2 =>
          rw [hn] at hrest
          obtain ⟨he, ap, hap, hrest2⟩ := hrest
          have hpe : p = e := Option.some.inj he
          subst hpe
          have hpl2 : p ∉ l2 := (List.nodup_cons.mp hndl).1
          have hcl2 : c ∉ l2 := fun hm => hcl (List.mem_cons_of_mem _ hm)
          refine ⟨c, x, ap, c :: l2, List.mem_cons_self _ _, hx, hap, ?_, ?_, ?_, ?_, ?_⟩
          · simp only [irq_free_loop, hx, hap]
            rw [if_pos hn]
          · refine ⟨rfl, { x with next := ap.next }, ?_, ?_⟩
            · rw [getElem?_set_next_ne _ _ _ _ (Ne.symm hcp), List.getElem?_set]
              simp [hclt]
            · exact is_chain_set_next p none (is_chain_set c _ hrest2 hcl2) hpl2
          · exact List.nodup_cons.mpr ⟨hcl2, (List.nodup_cons.mp hndl).2⟩
          · intro q hq
            rcases List.mem_cons.mp hq with e | hm
            · rw [e]; exact List.mem_cons_self _ _
            · exact List.mem_cons_of_mem _ (List.mem_cons_of_mem _ hm)
          · intro hm
            rcases List.mem_cons.mp hm with e | hm2
            · exact hcp e.symm
            · exact hpl2 hm2
      · obtain ⟨b, y, ap, l1, hb, hy, hap, hloop, hch, hnd1, hsub, hpn⟩ :=
          ih x.next fuel hrest hndl hpl hn (by simpa using hlen)
        have hbc : b ≠ c := fun e => hcl (by rw [← e]; exact hb)
        refine ⟨b, y, ap, c :: l1, List.mem_cons_of_mem _ hb, hy, hap, ?_, ?_, ?_, ?_, ?_⟩
        · simp only [irq_free_loop, hx]
          rw [if_neg hn]
          exact hloop
        · refine ⟨rfl, x, ?_, hch⟩
          rw [getElem?_set_next_ne _ _ _ _ (Ne.symm hcp), List.getElem?_set, if_neg hbc]
          exact hx
        · exact List.nodup_cons.mpr ⟨fun hm => hcl (hsub c hm), hnd1⟩
        · intro q hq
          rcases List.mem_cons.mp hq with e | hm
          · rw [e]; exact List.mem_cons_self _ _
          · exact List.mem_cons_of_mem _ (hsub q hm)
        · intro hm
          rcases List.mem_cons.mp hm with e | hm2
          · exact hcp e.symm
          · exact hpn hm2

/-- An action that `registered` reports as absent is on no chain of a well-formed state. -/
theorem not_registered (s : irq_t) (p : Nat) (hg : registered s p = false) (line : Nat)
    (d : irq_desc) (l : List Nat) (hd : s.irq_desc[line]? = some d)
    (hc : is_chain s.mem d.action l) (hnd : l.Nodup) : p ∉ l := by
  intro hm
  have hlt : line < s.irq_desc.length := by
    by_contra hn
    rw [List.getElem?_eq_none (by omega)] at hd
    exact Option.noConfusion hd
  have hch : chain s line = some l := by
    simp only [chain, hd]
    exact chain_from_of_is_chain _ hc (nodup_length_le hnd (is_chain_lt hc))
  have : registered s p = true := by
    simp only [registered, List.any_eq_true, List.mem_range]
    exact ⟨line, hlt, by simp [hch, hm]⟩
  rw [hg] at this
  exact Bool.noConfusion this

theorem set_lookup {α : Type} (l : List α) (i j : Nat) (x y : α)
    (h : (l.set i x)[j]? = some y) : (i = j ∧ y = x) ∨ (i ≠ j ∧ l[j]? = some y) := by
  rw [List.getElem?_set] at h
  by_cases e : i = j
  · left
    rw [if_pos e] at h
    by_cases hl : i < l.length
    · rw [if_pos hl] at h
      exact ⟨e, (Option.some.inj h).symm⟩
    · rw [if_neg hl] at h
      exact Option.noConfusion h
  · right
    rw [if_neg e] at h
    exact ⟨e, h⟩

/-- A successful or failed `irq_request` of an action that is on no chain keeps the chains
well formed. -/
theorem request_inv (N : Nat) (s : irq_t) (p : Nat) (hinv : irq_inv s)
    (hg : registered s p = false) (r : Int) (s1 : irq_t)
    (h : irq_request N s (some p) = some (r, s1)) : irq_inv s1 := by
  unfold irq_request at h
  cases hp : s.mem[p]? with
  | none => simp only [hp] at h; exact Option.noConfusion h
  | some a =>
    simp only [hp] at h
    by_cases hh : a.handler = 0
    · rw [if_pos hh] at h
      simp only [Option.some.injEq, Prod.mk.injEq] at h
      rw [← h.2]; exact hinv
    · rw [if_neg hh] at h
      by_cases hN : a.irq ≥ N
      · rw [if_pos hN] at h
        simp only [Option.some.injEq, Prod.mk.injEq] at h
        rw [← h.2]; exact hinv
      · rw [if_neg hN] at h
        by_cases hname : a.name = none
        · rw [if_pos hname] at h
          simp only [Option.some.injEq, Prod.mk.injEq] at h
          rw [← h.2]; exact hinv
        · rw [if_neg hname] at h
          have hplt := getElem?_lt hp
          have hmem1 : (s.mem.set p { a with next := none })[p]? =
              some { a with next := none } := by
            rw [List.getElem?_set]; simp [hplt]
          have hf1 : ∀ q : Nat, ((s.mem.set p { a with next := none })[q]?).map user_fields =
              (s.mem[q]?).map user_fields := user_fields_set s.mem p a _ hp rfl
          have hall : ∀ (line : Nat) (d : irq_desc), s.irq_desc[line]? = some d →
              ∃ l, is_chain (s.mem.set p { a with next := none }) d.action l ∧ l.Nodup ∧
                (∀ q ∈ l, ∃ b, (s.mem.set p { a with next := none })[q]? = some b ∧
                  b.irq = line ∧ b.handler ≠ 0) ∧ p ∉ l := by
            intro line d hd
            obtain ⟨_, l, hc, hnd, hm⟩ := hinv line d hd
            have hpl := not_registered s p hg line d l hd hc hnd
            exact ⟨l, is_chain_set p _ hc hpl, hnd,
              fun q hq => member_of_fields hf1 line q (hm q hq), hpl⟩
          cases hd : s.irq_desc[a.irq]? with
          | none => simp only [hd] at h; exact Option.noConfusion h
          | some desc =>
            simp only [hd] at h
            cases hda : desc.action with
            | none =>
              simp only [hda, Option.some.injEq, Prod.mk.injEq] at h
              rw [← h.2]
              intro line d1 hd1
              rcases set_lookup _ _ _ _ _ hd1 with ⟨e, hd1e⟩ | ⟨e, hd1e⟩
              · subst e
                rw [hd1e]
                refine ⟨fun hb => irq_flow_handler_t.noConfusion hb, [p],
                  ⟨rfl, _, hmem1, rfl⟩, List.nodup_singleton p, ?_⟩
                intro q hq
                rw [List.mem_singleton.mp hq]
                exact ⟨_, hmem1, rfl, hh⟩
              · obtain ⟨l, hc, hnd, hm, _⟩ := hall line d1 hd1e
                exact ⟨(hinv line d1 hd1e).1, l, hc, hnd, hm⟩
            | some head =>
              obtain ⟨l, hc, hnd, hm, hpl⟩ := hall a.irq desc hd
              rw [hda] at hc
              obtain ⟨z, hz⟩ : ∃ z, l.getLast? = some z := by
                cases l with
                | nil => exact Option.noConfusion hc
                | cons b l2 => exact ⟨_, List.getLast?_eq_getLast _ (by simp)⟩
              have hzl : z ∈ l := List.mem_of_getLast?_eq_some hz
              have hlen : l.length ≤ (s.mem.set p { a with next := none }).length :=
                nodup_length_le hnd (is_chain_lt hc)
              have hlast := last_action_of_chain _ z hc hlen hz
              simp only [hda, hlast, Option.some.injEq, Prod.mk.injEq] at h
              rw [← h.2]
              have hf2 : ∀ q : Nat,
                  ((set_next (s.mem.set p { a with next := none }) z (some p))[q]?).map
                    user_fields =
                  ((s.mem.set p { a with next := none })[q]?).map user_fields :=
                user_fields_set_next _ z (some p)
              have hndp : (l ++ [p]).Nodup := by
                refine List.nodup_append.mpr ⟨hnd, List.nodup_singleton p, ?_⟩
                intro x hx hxp
                rw [List.mem_singleton.mp hxp] at hx
                exact hpl hx
              intro line d1 hd1
              rcases set_lookup _ _ _ _ _ hd1 with ⟨e, hd1e⟩ | ⟨e, hd1e⟩
              · subst e
                rw [hd1e]
                refine ⟨fun hb => irq_flow_handler_t.noConfusion hb, l ++ [p],
                  is_chain_append p z _ hmem1 rfl hc hndp hz, hndp, ?_⟩
                intro q hq
                apply member_of_fields hf2
                rcases List.mem_append.mp hq with hql | hqp
                · exact hm q hql
                · rw [List.mem_singleton.mp hqp]
                  exact ⟨_, hmem1, rfl, hh⟩
              · obtain ⟨l2, hc2, hnd2, hm2, _⟩ := hall line d1 hd1e
                have hzl2 : z ∉ l2 := by
                  intro hin
                  obtain ⟨b1, hb1, hi1, _⟩ := hm z hzl
                  obtain ⟨b2, hb2, hi2, _⟩ := hm2 z hin
                  rw [hb1] at hb2
                  have : b1 = b2 := Option.some.inj hb2
                  rw [this] at hi1
                  exact e (hi1.symm.trans hi2)
                exact ⟨(hinv line d1 hd1e).1, l2, is_chain_set_next z (some p) hc2 hzl2, hnd2,
                  fun q hq => member_of_fields hf2 line q (hm2 q hq)⟩

/-- The function `irq_free` keeps the chains well formed. -/
theorem free_inv (s : irq_t) (p : Nat) (hinv : irq_inv s) (r : Int) (s1 : irq_t)
    (h : irq_free s (some p) = some (r, s1)) : irq_inv s1 := by
  unfold irq_free at h
  cases hp : s.mem[p]? with
  | none => simp only [hp] at h; exact Option.noConfusion h
  | some a =>
    simp only [hp] at h
    cases hd : s.irq_desc[a.irq]? with
    | none => simp only [hd] at h; exact Option.noConfusion h
    | some desc =>
      simp only [hd] at h
      by_cases hhead : desc.action = some p
      · rw [if_pos hhead] at h
        simp only [Option.some.injEq, Prod.mk.injEq] at h
        rw [← h.2]
        intro line d1 hd1
        rcases set_lookup _ _ _ _ _ hd1 with ⟨e, hd1e⟩ | ⟨e, hd1e⟩
        · rw [hd1e]
          exact ⟨fun _ => rfl, [], rfl, List.nodup_nil, fun q hq => absurd hq (List.not_mem_nil q)⟩
        · exact hinv line d1 hd1e
      · rw [if_neg hhead] at h
        obtain ⟨_, l, hc, hnd, hm⟩ := hinv a.irq desc hd
        have hlen : l.length ≤ s.mem.length := nodup_length_le hnd (is_chain_lt hc)
        by_cases hpl : p ∈ l
        · obtain ⟨b, x, ap, l1, hb, hx, hap, hloop, hch, hnd1, hsub, _⟩ :=
            free_loop_remove s.mem p l desc.action s.mem.length hc hnd hpl hhead hlen
          simp only [hloop, Option.some.injEq, Prod.mk.injEq] at h
          rw [← h.2]
          have hfM : ∀ q : Nat,
              ((set_next (s.mem.set b { x with next := ap.next }) p none)[q]?).map user_fields =
                (s.mem[q]?).map user_fields := by
            intro q
            rw [user_fields_set_next]
            exact user_fields_set s.mem b x { x with next := ap.next } hx rfl q
          intro line d1 hd1
          have hd1s : s.irq_desc[line]? = some d1 := hd1
          by_cases e : a.irq = line
          · subst e
            rw [hd] at hd1s
            have : desc = d1 := Option.some.inj hd1s
            subst this
            exact ⟨(hinv a.irq desc hd).1, l1, hch, hnd1,
              fun q hq => member_of_fields hfM a.irq q (hm q (hsub q hq))⟩
          · obtain ⟨hbad, l2, hc2, hnd2, hm2⟩ := hinv line d1 hd1s
            have hother : ∀ z, z ∈ l → z ∉ l2 := by
              intro z hzl hin
              obtain ⟨b1, hb1, hi1, _⟩ := hm z hzl
              obtain ⟨b2, hb2, hi2, _⟩ := hm2 z hin
              rw [hb1] at hb2
              have : b1 = b2 := Option.some.inj hb2
              rw [this] at hi1
              exact e (hi1.symm.trans hi2)
            exact ⟨hbad, l2,
              is_chain_set_next p none (is_chain_set b _ hc2 (hother b hb)) (hother p hpl),
              hnd2, fun q hq => member_of_fields hfM line q (hm2 q hq)⟩
        · rw [free_loop_absent s.mem p l desc.action _ hc hpl hlen] at h
          simp only [Option.some.injEq, Prod.mk.injEq] at h
          rw [← h.2]
          exact hinv

theorem step_irq_inv (N : Nat) (s s1 : irq_t) (op : irq_op) (hinv : irq_inv s)
    (hop : irq_op_ok s op = true) (hs : irq_step N s op = some s1) : irq_inv s1 := by
  cases op with
  | request action =>
    cases action with
    | none => exact Option.noConfusion hs
    | some p =>
      simp only [irq_op_ok, Bool.not_eq_true'] at hop
      cases hr : irq_request N s (some p) with
      | none => simp only [irq_step, hr] at hs; exact Option.noConfusion hs
      | some res =>
        simp only [irq_step, hr, Option.map_some', Option.some.injEq] at hs
        rw [← hs]
        exact request_inv N s p hinv hop res.1 res.2 hr
  | free action =>
    cases action with
    | none => exact Option.noConfusion hs
    | some p =>
      cases hr : irq_free s (some p) with
      | none => simp only [irq_step, hr] at hs; exact Option.noConfusion hs
      | some res =>
        simp only [irq_step, hr, Option.map_some', Option.some.injEq] at hs
        rw [← hs]
        exact free_inv s p hinv res.1 res.2 hr

theorem run_irq_inv (N : Nat) (ops : List irq_op) :
    ∀ s s1 : irq_t, irq_inv s → irq_ops_ok N s ops = true → irq_run N s ops = some s1 →
      irq_inv s1 := by
  induction ops with
  | nil =>
    intro s s1 hinv _ hr
    simp only [irq_run, Option.some.injEq] at hr
    rw [← hr]; exact hinv
  | cons op ops ih =>
    intro s s1 hinv hops hr
    cases hs : irq_step N s op with
    | none => simp only [irq_run, hs] at hr; exact Option.noConfusion hr
    | some s2 =>
      simp only [irq_run, hs] at hr
      simp only [irq_ops_ok, hs, Bool.and_eq_true] at hops
      exact ih s2 s1 (step_irq_inv N s s2 op hinv hops.1 hs) hops.2 hr

theorem two_lines_inv : irq_inv two_lines := by
  intro line d hd
  have hd2 : d = { handle_irq := irq_flow_handler_t.irq_handle_bad, action := none } := by
    simp only [two_lines, List.getElem?_replicate] at hd
    split_ifs at hd
    exact (Option.some.inj hd).symm
  subst hd2
  exact ⟨fun _ => rfl, [], rfl, List.nodup_nil, fun q hq => absurd hq (List.not_mem_nil q)⟩

/-- C27 as stated fails: requesting the action 0 a second time while it is registered sets
its `next` to itself; the chain of line 0 is then a cycle and the dispatch of line 0 never
reaches a null `next`. -/
theorem irq_request_twice_counterexample :
    irq_request_all 2 two_lines [0, 0] = some ([0, 0], twice_requested) ∧
    (action_at twice_requested 0).next = some 0 ∧
    chain twice_requested 0 = none ∧
    __irq_entry quiet_handler twice_requested 0 = none := by
  decide

/-- Claim C27 (amended): start from a state with well-formed chains (the state after
`irq_init` is one) and perform any sequence of successful or failed `irq_request` and
`irq_free` calls in which `irq_request` is only called with an action that is on no chain
at that moment.  Then the chain of every line is finite and holds no action twice, and the
dispatch of the line, with handlers that leave the manager state alone, terminates after
invoking the handler of each action of the chain exactly once, in chain order. -/
theorem irq_chains_well_formed (N : Nat) (hexec : Nat → Nat → Nat → irq_t → Nat × irq_t)
    (s0 s : irq_t) (ops : List irq_op) (line : Nat) (hinv : irq_inv s0)
    (hops : irq_ops_ok N s0 ops = true) (hrun : irq_run N s0 ops = some s)
    (hq : ∀ f i dat st, (hexec f i dat st).2 = st) (hline : line < s.irq_desc.length) :
    ∃ l, chain s line = some l ∧ l.Nodup ∧
      ∃ ds, __irq_entry hexec s line =
        some (s, l.map (fun p => ((action_at s p).handler, line, (action_at s p).data)), ds) := by
  have hs := run_irq_inv N ops s0 s hinv hops hrun
  obtain ⟨d, hd⟩ : ∃ d, s.irq_desc[line]? = some d :=
    ⟨s.irq_desc[line], List.getElem?_eq_getElem hline⟩
  obtain ⟨hbad, l, hc, hnd, hm⟩ := hs line d hd
  have hlen : l.length ≤ s.mem.length := nodup_length_le hnd (is_chain_lt hc)
  refine ⟨l, ?_, hnd, ?_⟩
  · simp only [chain, hd]
    exact chain_from_of_is_chain _ hc hlen
  · cases hflow : d.handle_irq with
    | irq_handle_bad =>
      have hnone := hbad hflow
      rw [hnone] at hc
      have hl : l = [] := by
        cases l with
        | nil => rfl
        | cons b l2 => exact Option.noConfusion hc.1
      subst hl
      exact ⟨[diag.unexpected_trap line], by simp only [__irq_entry, hd, hflow, List.map_nil]⟩
    | irq_handle =>
      have hh : ∀ a ∈ l, (action_at s a).handler ≠ 0 := by
        intro a ha
        obtain ⟨b, hb, _, hbh⟩ := hm a ha
        have : action_at s a = b := by
          simp [action_at, List.getD_eq_getElem?_getD, hb]
        rw [this]; exact hbh
      obtain ⟨rv, hrv⟩ := handle_loop_chain hexec hq line s l d.action s.mem.length IRQ_NONE []
        hc hh hlen
      refine ⟨if rv = IRQ_NONE then [diag.nobody_cared line] else [], ?_⟩
      simp only [__irq_entry, hd, hflow, irq_handle, hrv, List.nil_append]

theorem irq_chains_well_formed_witness :
    ∃ l, chain two_registered 0 = some l ∧ l.Nodup ∧
      ∃ ds, __irq_entry quiet_handler two_registered 0 =
        some (two_registered,
          l.map (fun p => ((action_at two_registered p).handler, 0,
            (action_at two_registered p).data)), ds) :=
  irq_chains_well_formed 2 quiet_handler two_lines two_registered
    [irq_op.request (some 0), irq_op.request (some 2), irq_op.request (some 1),
      irq_op.free (some 2), irq_op.free (some 2)]
    0 two_lines_inv (by decide) (by decide) (fun _ _ _ _ => rfl) (by decide)

end Irq
